import Mathlib


/-!
Verification of the query-decoder core of `src/app/main.py`.

The program under verification is the FastAPI example application; the only
behavioural core identified by the specification is the function

    def items_dict(params: List[str] = Query(...)):
        return list(map(json.loads, params))

together with the `/test` endpoint `operation` that exposes it.  The shallow
embedding below models:

  * `json.loads` of CPython (default arguments), i.e. the scanner of
    `json/scanner.py` + `json/decoder.py` (equivalently the `_json` C
    accelerator): strict strings, the JSON number regular expression
    `(-?(?:0|[1-9]\d*))(\.\d+)?([eE][-+]?\d+)?`, the non-standard constants
    `NaN`, `Infinity`, `-Infinity`, object construction through `dict(pairs)`
    (last duplicate key wins), whitespace `[ \t\n\r]*` around the document,
    and the leading-BOM rejection of `json.loads`.
  * `items_dict` itself: Python's `list(map(json.loads, params))`, which
    decodes elements left to right and propagates the first decode exception,
    leaving later elements undecoded.
  * `json.dumps` of CPython (default arguments) for the round-trip law, with
    one deliberate deviation recorded at its definition: floating point
    literals are carried as exact decimal values (sign, mantissa, decimal
    exponent) instead of binary64, so the encoder prints the exact decimal
    value rather than `repr`'s shortest round-tripping decimal.  Both
    encoders satisfy `loads (dumps v) = v` on their respective
    representations.

Python strings may contain lone UTF-16 surrogates (and `json.loads` produces
them from `\uXXXX` escapes), so decoded JSON strings are modelled as lists of
unicode code points (`List Nat`) rather than Lean `String`s.

Error positions: the embedding threads the absolute character index and
reports errors with a message and a position.  Messages avoid punctuation but
correspond one-to-one to the CPython messages ("Expecting value",
"Extra data", "Expecting ',' delimiter", ...).  For a few errors CPython
anchors the reported index at the start of the construct (e.g. the opening
quote of an unterminated string) where this model reports the current index;
no theorem below depends on the numeric position of an error.
-/

/-- Decode error, modelling `json.JSONDecodeError(msg, doc, pos)` (the
`MalformedInput` condition of the specification): a message and a character
position. -/
structure DecodeErr where
  msg : String
  pos : Nat
deriving DecidableEq, Repr

/-- A decoded JSON document, as produced by CPython `json.loads`:
`None`, `bool`, `str` (a Python string: a sequence of code points, possibly
containing lone surrogates), `int`, `float` (an exact decimal
`sign * mant * 10 ^ exp`, plus the IEEE specials produced by the non-standard
constants `NaN`/`Infinity`/`-Infinity`), `list` and `dict` (an insertion
ordered association list). -/
inductive JsonValue where
  | null : JsonValue
  | bool (b : Bool) : JsonValue
  | str (s : List Nat) : JsonValue
  | jint (n : Int) : JsonValue
  | jfloat (sign : Bool) (mant : Nat) (exp : Int) : JsonValue
  | nan : JsonValue
  | inf (neg : Bool) : JsonValue
  | arr (vs : List JsonValue) : JsonValue
  | obj (kvs : List (List Nat × JsonValue)) : JsonValue
deriving Repr

/-- JSON whitespace, the character class of `json.decoder.WHITESPACE`,
`[ \t\n\r]`. -/
def isJsonWs (c : Char) : Bool :=
  c = ' ' || c = '\t' || c = '\n' || c = '\r'

/-- Skip JSON whitespace, advancing the character index: `WHITESPACE.match`. -/
def skipWs : List Char → Nat → List Char × Nat
  | [], pos => ([], pos)
  | c :: rest, pos => if isJsonWs c then skipWs rest (pos + 1) else (c :: rest, pos)

/-- ASCII decimal digit test, `\d` of the scanner's number regex. -/
def isDigitC (c : Char) : Bool := 48 ≤ c.toNat && c.toNat ≤ 57

/-- Numeric value of a decimal digit character. -/
def digitVal (c : Char) : Nat := c.toNat - 48

/-- Greedily take decimal digits (`\d*`). -/
def takeDigits : List Char → List Char × List Char
  | [] => ([], [])
  | c :: rest =>
    if isDigitC c then
      let (ds, r) := takeDigits rest
      (c :: ds, r)
    else ([], c :: rest)

/-- The integer part `(-?(?:0|[1-9]\d*))` of the number regex, after the sign
has been taken: a lone `0`, or a nonzero digit followed by digits. -/
def scanIntPart : List Char → Option (List Char × List Char)
  | [] => none
  | c :: rest =>
    if c = '0' then some (['0'], rest)
    else if isDigitC c then
      let (ds, r) := takeDigits rest
      some (c :: ds, r)
    else none

/-- The optional fraction group `(\.\d+)?`: a dot followed by at least one
digit; anything else contributes nothing to the number token. -/
def scanFrac (cs : List Char) : Option (List Char × List Char) :=
  if cs.head? = some '.' then
    if (takeDigits cs.tail).1 = [] then none
    else some ((takeDigits cs.tail).1, (takeDigits cs.tail).2)
  else none

/-- Value of a big-endian list of decimal digit characters. -/
def digitsToNat (ds : List Char) : Nat :=
  ds.foldl (fun a c => 10 * a + digitVal c) 0

/-- The optional exponent group `([eE][-+]?\d+)?`: `e`/`E`, an optional sign,
and at least one digit.  Returns the signed exponent value. -/
def scanExp (cs : List Char) : Option (Int × List Char) :=
  if cs.head? = some 'e' ∨ cs.head? = some 'E' then
    let rest := cs.tail
    let sg : Bool × List Char :=
      if rest.head? = some '+' then (false, rest.tail)
      else if rest.head? = some '-' then (true, rest.tail)
      else (false, rest)
    if (takeDigits sg.2).1 = [] then none
    else some (if sg.1 then -Int.ofNat (digitsToNat (takeDigits sg.2).1)
      else Int.ofNat (digitsToNat (takeDigits sg.2).1), (takeDigits sg.2).2)
  else none

/-- Remove factors of ten from the mantissa into the exponent, with explicit
fuel (the first argument) so that the definition is structural; `stripZeros`
below supplies sufficient fuel.  This normalisation identifies decimal
literals denoting the same real number (`1.50` and `1.5`), mirroring the
fact that CPython's `parse_float` maps them to the same `float`. -/
def stripZerosF : Nat → Nat → Int → Nat × Int
  | 0, m, e => (m, e)
  | f + 1, m, e =>
    if m ≠ 0 ∧ m % 10 = 0 then stripZerosF f (m / 10) (e + 1) else (m, e)

/-- Normalised decimal mantissa/exponent pair. -/
def stripZeros (m : Nat) (e : Int) : Nat × Int := stripZerosF m m e

/-- Build the decoded value of a float literal from its sign, the
concatenated mantissa digits and the effective decimal exponent
(exponent group minus the length of the fraction group). -/
def mkFloat (sign : Bool) (m : Nat) (e : Int) : JsonValue :=
  let p := stripZeros m e
  if p.1 = 0 then .jfloat sign 0 0 else .jfloat sign p.1 p.2

/-- The number production of the scanner: `NUMBER_RE.match` at the current
position followed by `parse_int`/`parse_float`.  Returns the decoded value,
the remaining characters, and the number of characters consumed; `none` when
the regular expression does not match at this position. -/
def scanNumber (cs : List Char) : Option (JsonValue × List Char × Nat) :=
  let sc : Bool × List Char :=
    if cs.head? = some '-' then (true, cs.tail) else (false, cs)
  match scanIntPart sc.2 with
  | none => none
  | some (ids, cs2) =>
    let fr : Option (List Char) × List Char :=
      match scanFrac cs2 with
      | some (fds, r) => (some fds, r)
      | none => (none, cs2)
    let ex : Option Int × List Char :=
      match scanExp fr.2 with
      | some (ev, r) => (some ev, r)
      | none => (none, fr.2)
    match fr.1, ex.1 with
    | none, none =>
      let n : Int := Int.ofNat (digitsToNat ids)
      some (.jint (if sc.1 then -n else n), ex.2, cs.length - ex.2.length)
    | f?, e? =>
      let fds := f?.getD []
      let m := digitsToNat (ids ++ fds)
      let e : Int := e?.getD 0 - Int.ofNat fds.length
      some (mkFloat sc.1 m e, ex.2, cs.length - ex.2.length)

/-- The two-character escapes of `json.decoder.BACKSLASH`. -/
def escMap (c : Char) : Option Nat :=
  if c = '"' then some 34
  else if c = '\\' then some 92
  else if c = '/' then some 47
  else if c = 'b' then some 8
  else if c = 'f' then some 12
  else if c = 'n' then some 10
  else if c = 'r' then some 13
  else if c = 't' then some 9
  else none

/-- Hexadecimal digit test for `\uXXXX` escapes. -/
def isHexC (c : Char) : Bool :=
  isDigitC c || (97 ≤ c.toNat && c.toNat ≤ 102) || (65 ≤ c.toNat && c.toNat ≤ 70)

/-- Value of a hexadecimal digit character. -/
def hexVal (c : Char) : Nat :=
  if isDigitC c then c.toNat - 48
  else if 97 ≤ c.toNat && c.toNat ≤ 102 then c.toNat - 87
  else c.toNat - 55

/-- Value of a four-digit hexadecimal escape body. -/
def hex4Val (a b c d : Char) : Nat :=
  ((hexVal a * 16 + hexVal b) * 16 + hexVal c) * 16 + hexVal d

/-- Surrogate pairing of `scanstring`, phrased as a look-back on the
accumulated (reversed) code points: a `\uXXXX` escape whose value is a low
surrogate combines with an immediately preceding high surrogate.  Since raw
input characters are unicode scalar values (never surrogates) and every
other escape produces a non-surrogate, the top of `acc` is a high surrogate
exactly when the directly preceding token was a high-surrogate `\uXXXX`
escape, so this is the pairing of consecutive `\uXXXX` escapes performed by
CPython's scanner. -/
def pushCp (v : Nat) (acc : List Nat) : List Nat :=
  match acc with
  | h :: t =>
    if (0xD800 ≤ h ∧ h ≤ 0xDBFF) ∧ (0xDC00 ≤ v ∧ v ≤ 0xDFFF) then
      (0x10000 + (h - 0xD800) * 1024 + (v - 0xDC00)) :: t
    else v :: acc
  | [] => v :: acc

/-- String scanner, modelling `scanstring` (strict mode) positioned just
after the opening quote: plain characters up to the closing quote, an error
on raw control characters below `0x20`, the `BACKSLASH` table escapes, and
`\uXXXX` escapes (four hex digits required) with surrogate-pair combination
via `pushCp`.  Produces the accumulated code points (`acc` is kept
reversed), the characters after the closing quote and the next index. -/
def scanString : List Char → Nat → List Nat → Except DecodeErr (List Nat × List Char × Nat)
  | [], pos, _ => .error ⟨"Unterminated string starting at", pos⟩
  | c :: rest, pos, acc =>
    if c = '"' then .ok (acc.reverse, rest, pos + 1)
    else if c = '\\' then
      match rest with
      | 'u' :: a :: b :: c2 :: d :: r3 =>
        if isHexC a && isHexC b && isHexC c2 && isHexC d then
          scanString r3 (pos + 6) (pushCp (hex4Val a b c2 d) acc)
        else .error ⟨"Invalid uXXXX escape", pos + 1⟩
      | 'u' :: _ => .error ⟨"Invalid uXXXX escape", pos + 1⟩
      | e :: r2 =>
        match escMap e with
        | some n => scanString r2 (pos + 2) (n :: acc)
        | none => .error ⟨"Invalid backslash escape", pos + 1⟩
      | [] => .error ⟨"Unterminated string starting at", pos + 1⟩
    else if c.toNat < 0x20 then .error ⟨"Invalid control character at", pos⟩
    else scanString rest (pos + 1) (c.toNat :: acc)

/-- One step of `dict(pairs)` construction: inserting a key that is already
present replaces its value in place (the entry keeps its original position);
a new key is appended. -/
def dictInsert (acc : List (List Nat × JsonValue)) (k : List Nat) (v : JsonValue) :
    List (List Nat × JsonValue) :=
  if acc.any (fun p => p.1 = k) then
    acc.map (fun p => if p.1 = k then (k, v) else p)
  else acc ++ [(k, v)]

/-- `dict(pairs)`: fold the scanned key/value pairs into an insertion-ordered
dictionary; a later duplicate key overwrites the value of the earlier one. -/
def pairsToDict (pairs : List (List Nat × JsonValue)) : List (List Nat × JsonValue) :=
  pairs.foldl (fun acc p => dictInsert acc p.1 p.2) []

/- The value scanner `_scan_once` together with the object and array
parsers `JSONObject`/`JSONArray` of `json/decoder.py`, structurally
recursive on an explicit fuel argument (the top-level entry point
`json_loads` supplies fuel exceeding the maximum possible recursion depth,
so the fuel-exhaustion branch is unreachable from it).  `scanOnce` expects
to be positioned on the first character of a value (callers have skipped
whitespace): a quote starts a string, braces and brackets start containers,
the literals `null`/`true`/`false` are matched by prefix, then the number
regular expression, then the non-standard constants `NaN`, `Infinity`,
`-Infinity`; anything else is "Expecting value". -/
mutual

def scanOnce : Nat → List Char → Nat → Except DecodeErr (JsonValue × List Char × Nat)
  | 0, _, pos => .error ⟨"Recursion fuel exhausted", pos⟩
  | f + 1, cs, pos =>
    match cs with
    | '"' :: rest =>
      match scanString rest (pos + 1) [] with
      | .error e => .error e
      | .ok (s, r, p) => .ok (.str s, r, p)
    | '{' :: rest => parseObject f rest (pos + 1)
    | '[' :: rest => parseArray f rest (pos + 1)
    | _ =>
      if cs.take 4 = ['n', 'u', 'l', 'l'] then .ok (.null, cs.drop 4, pos + 4)
      else if cs.take 4 = ['t', 'r', 'u', 'e'] then .ok (.bool true, cs.drop 4, pos + 4)
      else if cs.take 5 = ['f', 'a', 'l', 's', 'e'] then .ok (.bool false, cs.drop 5, pos + 5)
      else
        match scanNumber cs with
        | some (v, rest, k) => .ok (v, rest, pos + k)
        | none =>
          if cs.take 3 = ['N', 'a', 'N'] then .ok (.nan, cs.drop 3, pos + 3)
          else if cs.take 8 = ['I', 'n', 'f', 'i', 'n', 'i', 't', 'y'] then
            .ok (.inf false, cs.drop 8, pos + 8)
          else if cs.take 9 = ['-', 'I', 'n', 'f', 'i', 'n', 'i', 't', 'y'] then
            .ok (.inf true, cs.drop 9, pos + 9)
          else .error ⟨"Expecting value", pos⟩

def parseObject : Nat → List Char → Nat → Except DecodeErr (JsonValue × List Char × Nat)
  | 0, _, pos => .error ⟨"Recursion fuel exhausted", pos⟩
  | f + 1, cs, pos =>
    let w := skipWs cs pos
    match w.1 with
    | '}' :: rest => .ok (.obj [], rest, w.2 + 1)
    | '"' :: rest => objectItems f rest (w.2 + 1) []
    | _ => .error ⟨"Expecting property name enclosed in double quotes", w.2⟩
termination_by structural f => f

def objectItems : Nat → List Char → Nat → List (List Nat × JsonValue) →
    Except DecodeErr (JsonValue × List Char × Nat)
  | 0, _, pos, _ => .error ⟨"Recursion fuel exhausted", pos⟩
  | f + 1, cs, pos, pairs =>
    match scanString cs pos [] with
    | .error e => .error e
    | .ok (key, cs1, p1) =>
      let w2 := skipWs cs1 p1
      match w2.1 with
      | ':' :: cs3 =>
        let w4 := skipWs cs3 (w2.2 + 1)
        match scanOnce f w4.1 w4.2 with
        | .error e => .error e
        | .ok (v, cs5, p5) =>
          let w6 := skipWs cs5 p5
          match w6.1 with
          | '}' :: cs7 => .ok (.obj (pairsToDict (pairs ++ [(key, v)])), cs7, w6.2 + 1)
          | ',' :: cs7 =>
            let w8 := skipWs cs7 (w6.2 + 1)
            match w8.1 with
            | '"' :: cs9 => objectItems f cs9 (w8.2 + 1) (pairs ++ [(key, v)])
            | _ => .error ⟨"Expecting property name enclosed in double quotes", w6.2⟩
          | _ => .error ⟨"Expecting comma delimiter", w6.2⟩
      | _ => .error ⟨"Expecting colon delimiter", w2.2⟩
termination_by structural f => f

def parseArray : Nat → List Char → Nat → Except DecodeErr (JsonValue × List Char × Nat)
  | 0, _, pos => .error ⟨"Recursion fuel exhausted", pos⟩
  | f + 1, cs, pos =>
    let w := skipWs cs pos
    match w.1 with
    | ']' :: rest => .ok (.arr [], rest, w.2 + 1)
    | _ => arrayItems f w.1 w.2 []
termination_by structural f => f

def arrayItems : Nat → List Char → Nat → List JsonValue →
    Except DecodeErr (JsonValue × List Char × Nat)
  | 0, _, pos, _ => .error ⟨"Recursion fuel exhausted", pos⟩
  | f + 1, cs, pos, acc =>
    match scanOnce f cs pos with
    | .error e => .error e
    | .ok (v, cs1, p1) =>
      let w2 := skipWs cs1 p1
      match w2.1 with
      | ']' :: cs3 => .ok (.arr (acc ++ [v]), cs3, w2.2 + 1)
      | ',' :: cs3 =>
        let w4 := skipWs cs3 (w2.2 + 1)
        arrayItems f w4.1 w4.2 (acc ++ [v])
      | _ => .error ⟨"Expecting comma delimiter", w2.2⟩
termination_by structural f => f

end

/-- `json.loads` with default arguments: reject a leading BOM, skip leading
whitespace, scan one value, skip trailing whitespace and require the end of
the input ("Extra data" otherwise).  The fuel `3 * length + 3` dominates the
recursion depth of the scanner (each nesting level consumes at least one
character and at most three fuel units). -/
def json_loads (s : String) : Except DecodeErr JsonValue :=
  let cs := s.data
  if cs.take 1 = ['\uFEFF'] then .error ⟨"Unexpected UTF-8 BOM", 0⟩
  else
    let w := skipWs cs 0
    match scanOnce (3 * cs.length + 3) w.1 w.2 with
    | .error e => .error e
    | .ok (v, cs2, p2) =>
      let w3 := skipWs cs2 p2
      match w3.1 with
      | [] => .ok v
      | _ => .error ⟨"Extra data", w3.2⟩

/-- The query decoder of `src/app/main.py`:

    def items_dict(params: List[str] = Query(...)):
        return list(map(json.loads, params))

`list(map(...))` realises the iterator left to right, so elements are
decoded in input order and the first `JSONDecodeError` aborts the whole
batch, leaving the later elements undecoded. -/
def items_dict (params : List String) : Except DecodeErr (List JsonValue) :=
  match params with
  | [] => .ok []
  | p :: rest =>
    match json_loads p with
    | .error e => .error e
    | .ok v =>
      match items_dict rest with
      | .error e => .error e
      | .ok vs => .ok (v :: vs)

/-- Lookup in an association list (Python `d[k]`). -/
def dictLookup (kvs : List (List Nat × JsonValue)) (k : List Nat) : Option JsonValue :=
  match kvs with
  | [] => none
  | p :: rest => if p.1 = k then some p.2 else dictLookup rest k

/-- The value of the textually last occurrence of key `k` in a raw pair
list, used to state the duplicate-key semantics of `dict(pairs)`. -/
def lastOcc (pairs : List (List Nat × JsonValue)) (k : List Nat) : Option JsonValue :=
  match pairs with
  | [] => none
  | p :: rest =>
    match lastOcc rest k with
    | some v => some v
    | none => if p.1 = k then some p.2 else none

/-- The keys of an association list are pairwise distinct. -/
def keysNodup (kvs : List (List Nat × JsonValue)) : Prop :=
  (kvs.map Prod.fst).Nodup

/-- Lowercase hexadecimal digit character, as produced by CPython's
`\uXXXX` escapes in `json.dumps`. -/
def hexDigitChar (n : Nat) : Char :=
  Char.ofNat (if n < 10 then 48 + n else 87 + n)

/-- Four lowercase hexadecimal digits of a value below `0x10000`. -/
def hex4 (n : Nat) : List Char :=
  [hexDigitChar (n / 4096 % 16), hexDigitChar (n / 256 % 16),
   hexDigitChar (n / 16 % 16), hexDigitChar (n % 16)]

/-- Encoder escaping of one code point, `py_encode_basestring_ascii`
(default `ensure_ascii=True`): the short escapes of `ESCAPE_DCT`, printable
ASCII kept verbatim, everything else as `\uXXXX` (one escape below
`0x10000`, a surrogate pair above). -/
def escapeCp (n : Nat) : List Char :=
  if n = 34 then ['\\', '"']
  else if n = 92 then ['\\', '\\']
  else if n = 8 then ['\\', 'b']
  else if n = 12 then ['\\', 'f']
  else if n = 10 then ['\\', 'n']
  else if n = 13 then ['\\', 'r']
  else if n = 9 then ['\\', 't']
  else if 0x20 ≤ n ∧ n ≤ 0x7E then [Char.ofNat n]
  else if n < 0x10000 then '\\' :: 'u' :: hex4 n
  else ('\\' :: 'u' :: hex4 (0xD800 + (n - 0x10000) / 1024)) ++
       ('\\' :: 'u' :: hex4 (0xDC00 + (n - 0x10000) % 1024))

/-- Encoder output for one string value. -/
def dumpString (l : List Nat) : List Char :=
  '"' :: l.foldr (fun n acc => escapeCp n ++ acc) ['"']

/-- Decimal digit character. -/
def digitChar (n : Nat) : Char := Char.ofNat (48 + n)

/-- Big-endian decimal digits of a natural number, with explicit fuel (the
first argument) so that the definition is structural; `digitsOf` supplies
sufficient fuel. -/
def digitsOfF : Nat → Nat → List Char
  | 0, n => [digitChar n]
  | f + 1, n => if n < 10 then [digitChar n] else digitsOfF f (n / 10) ++ [digitChar (n % 10)]

/-- Big-endian decimal digits of a natural number (`repr` of a Python
`int` without sign). -/
def digitsOf (n : Nat) : List Char := digitsOfF n n

/-- `repr` of a Python `int`. -/
def intRepr (n : Int) : List Char :=
  if n < 0 then '-' :: digitsOf n.natAbs else digitsOf n.natAbs

/-- Encoder output for a float value carried as an exact decimal
`sign * m * 10 ^ e`: `[-]<digits of m>e<exponent>`.  This is the recorded
deviation from CPython (which prints `float.__repr__`, the shortest decimal
that round-trips through binary64); both printings parse back to the value
being printed. -/
def dumpNum (sign : Bool) (m : Nat) (e : Int) : List Char :=
  (if sign then ['-'] else []) ++ digitsOf m ++ 'e' :: intRepr e

mutual

/-- `json.dumps` with default arguments, producing characters: literals
`null`/`true`/`false`/`NaN`/`Infinity`/`-Infinity`, escaped strings,
decimal integers, floats (see `dumpNum`), and containers with the default
separators `", "` and `": "`. -/
def dumpVal : JsonValue → List Char
  | .null => (['n', 'u', 'l', 'l'] : List Char)
  | .bool true => (['t', 'r', 'u', 'e'] : List Char)
  | .bool false => (['f', 'a', 'l', 's', 'e'] : List Char)
  | .str s => dumpString s
  | .jint n => intRepr n
  | .jfloat sign m e => dumpNum sign m e
  | .nan => ['N', 'a', 'N']
  | .inf false => ['I', 'n', 'f', 'i', 'n', 'i', 't', 'y']
  | .inf true => ['-', 'I', 'n', 'f', 'i', 'n', 'i', 't', 'y']
  | .arr [] => ['[', ']']
  | .arr (v :: vs) => '[' :: (dumpVal v ++ dumpArrTail vs) ++ [']']
  | .obj [] => ['\x7b', '\x7d']
  | .obj (p :: ps) => '\x7b' :: (dumpPair p ++ dumpObjTail ps) ++ ['\x7d']

/-- Encoder output for the second and later array elements. -/
def dumpArrTail : List JsonValue → List Char
  | [] => []
  | v :: vs => ',' :: ' ' :: (dumpVal v ++ dumpArrTail vs)

/-- Encoder output for one `key: value` pair. -/
def dumpPair : List Nat × JsonValue → List Char
  | (k, v) => dumpString k ++ ':' :: ' ' :: dumpVal v

/-- Encoder output for the second and later object entries. -/
def dumpObjTail : List (List Nat × JsonValue) → List Char
  | [] => []
  | p :: ps => ',' :: ' ' :: (dumpPair p ++ dumpObjTail ps)

end

/-- `json.dumps` as a string. -/
def json_dumps (v : JsonValue) : String := ⟨dumpVal v⟩

/-- High surrogate range. -/
def isHighSurr (n : Nat) : Prop := 0xD800 ≤ n ∧ n ≤ 0xDBFF

/-- Low surrogate range. -/
def isLowSurr (n : Nat) : Prop := 0xDC00 ≤ n ∧ n ≤ 0xDFFF

/-- No high surrogate directly followed by a low surrogate (the scanner
would have combined those into one astral code point). -/
def noHL : List Nat → Prop
  | a :: b :: rest => ¬(isHighSurr a ∧ isLowSurr b) ∧ noHL (b :: rest)
  | _ => True

/-- Invariant of decoded strings: code points in unicode range with no
high/low surrogate adjacency. -/
def stringOk (l : List Nat) : Prop :=
  (∀ c ∈ l, c < 0x110000) ∧ noHL l

/-- Invariant of decoded floats: normalised mantissa/exponent as produced
by `mkFloat`. -/
def floatOk (m : Nat) (e : Int) : Prop :=
  (m = 0 → e = 0) ∧ (m % 10 = 0 → m = 0)

mutual

/-- Invariant of every value produced by the scanner; exactly what the
encoder needs for the round trip `json_loads (json_dumps v) = .ok v`. -/
def wfVal : JsonValue → Prop
  | .str s => stringOk s
  | .jfloat _ m e => floatOk m e
  | .arr vs => wfList vs
  | .obj kvs => keysNodup kvs ∧ wfPairs kvs
  | _ => True

/-- `wfVal` on every element of a list. -/
def wfList : List JsonValue → Prop
  | [] => True
  | v :: vs => wfVal v ∧ wfList vs

/-- `stringOk` on every key and `wfVal` on every value of a pair list. -/
def wfPairs : List (List Nat × JsonValue) → Prop
  | [] => True
  | p :: ps => stringOk p.1 ∧ wfVal p.2 ∧ wfPairs ps

end

mutual

/-- Fuel sufficient for `scanOnce` to scan the encoder's output for a
value. -/
def jfuel : JsonValue → Nat
  | .arr vs => 2 + jfuelList vs
  | .obj kvs => 2 + jfuelPairs kvs
  | _ => 1

/-- Fuel sufficient for the array element loop. -/
def jfuelList : List JsonValue → Nat
  | [] => 0
  | v :: vs => 1 + jfuel v + jfuelList vs

/-- Fuel sufficient for the object entry loop. -/
def jfuelPairs : List (List Nat × JsonValue) → Nat
  | [] => 0
  | p :: ps => 1 + jfuel p.2 + jfuelPairs ps

end

/-- A string made of JSON whitespace characters only. -/
def allJsonWs (s : String) : Prop := ∀ c ∈ s.data, isJsonWs c

/-! Theorems.  First the batch-level behaviour of `items_dict`, then the
dictionary semantics, then the parser lemmas needed for the whitespace and
round-trip laws. -/

theorem items_dict_nil : items_dict [] = .ok [] := rfl

theorem items_dict_cons_ok (p : String) (rest : List String) (v : JsonValue)
    (h : json_loads p = .ok v) :
    items_dict (p :: rest) =
      match items_dict rest with
      | .error e => .error e
      | .ok vs => .ok (v :: vs) := by
  simp only [items_dict, h]

theorem items_dict_cons_err (p : String) (rest : List String) (e : DecodeErr)
    (h : json_loads p = .error e) :
    items_dict (p :: rest) = .error e := by
  simp only [items_dict, h]

theorem items_dict_ok_shape (ps : List String)
    (h : ∀ s ∈ ps, (json_loads s).isOk) :
    ∃ vs, items_dict ps = .ok vs ∧ vs.length = ps.length ∧
      ∀ (i : Nat) (s : String) (v : JsonValue),
        ps[i]? = some s → vs[i]? = some v → json_loads s = .ok v := by
  induction ps with
  | nil => exact ⟨[], rfl, rfl, by intro i s v hs; simp at hs⟩
  | cons p rest ih =>
    have hp : (json_loads p).isOk := h p (List.mem_cons_self p rest)
    cases hj : json_loads p with
    | error e => rw [hj] at hp; simp [Except.isOk, Except.toBool] at hp
    | ok v =>
      obtain ⟨vs, hvs, hlen, hcorr⟩ := ih (fun s hs => h s (List.mem_cons_of_mem p hs))
      refine ⟨v :: vs, ?_, by simp [hlen], ?_⟩
      · rw [items_dict_cons_ok p rest v hj, hvs]
      · intro i s w hs hw
        cases i with
        | zero =>
          simp only [List.getElem?_cons_zero, Option.some.injEq] at hs hw
          rw [← hs, ← hw]; exact hj
        | succ i =>
          simp only [List.getElem?_cons_succ] at hs hw
          exact hcorr i s w hs hw

theorem items_dict_length (ps : List String) (vs : List JsonValue)
    (h : items_dict ps = .ok vs) : vs.length = ps.length := by
  induction ps generalizing vs with
  | nil => simp only [items_dict_nil, Except.ok.injEq] at h; simp [← h]
  | cons p rest ih =>
    simp only [items_dict] at h
    cases hj : json_loads p with
    | error e => rw [hj] at h; exact absurd h (by simp)
    | ok v =>
      rw [hj] at h
      cases hr : items_dict rest with
      | error e => rw [hr] at h; exact absurd h (by simp)
      | ok vs0 =>
        rw [hr] at h
        simp only [Except.ok.injEq] at h
        simp [← h, ih vs0 hr]

theorem items_dict_elementwise (ps : List String) (vs : List JsonValue)
    (h : items_dict ps = .ok vs) :
    ∀ (i : Nat) (s : String) (v : JsonValue),
      ps[i]? = some s → vs[i]? = some v → json_loads s = .ok v := by
  induction ps generalizing vs with
  | nil => intro i s v hs; simp at hs
  | cons p rest ih =>
    simp only [items_dict] at h
    cases hj : json_loads p with
    | error e => rw [hj] at h; exact absurd h (by simp)
    | ok v0 =>
      rw [hj] at h
      cases hr : items_dict rest with
      | error e => rw [hr] at h; exact absurd h (by simp)
      | ok vs0 =>
        rw [hr] at h
        simp only [Except.ok.injEq] at h
        intro i s v hs hv
        rw [← h] at hv
        cases i with
        | zero =>
          simp only [List.getElem?_cons_zero, Option.some.injEq] at hs hv
          rw [← hs, ← hv]; exact hj
        | succ i =>
          simp only [List.getElem?_cons_succ] at hs hv
          exact ih vs0 hr i s v hs hv

theorem items_dict_first_error (ps : List String)
    (h : ∃ s ∈ ps, ¬ (json_loads s).isOk) :
    ∃ (i : Nat) (s : String) (e : DecodeErr),
      ps[i]? = some s ∧ json_loads s = .error e ∧ items_dict ps = .error e ∧
      ∀ (j : Nat) (t : String), j < i → ps[j]? = some t → (json_loads t).isOk := by
  induction ps with
  | nil => obtain ⟨s, hs, _⟩ := h; simp at hs
  | cons p rest ih =>
    cases hj : json_loads p with
    | error e =>
      refine ⟨0, p, e, by simp, hj, items_dict_cons_err p rest e hj, ?_⟩
      intro j t hjlt; omega
    | ok v =>
      obtain ⟨s, hs, hbad⟩ := h
      rcases List.mem_cons.mp hs with hsp | hsr
      · rw [hsp, hj] at hbad; simp [Except.isOk, Except.toBool] at hbad
      · obtain ⟨i, s', e, hi, hs', hid, hmin⟩ := ih ⟨s, hsr, hbad⟩
        refine ⟨i + 1, s', e, by simpa using hi, hs', ?_, ?_⟩
        · rw [items_dict_cons_ok p rest v hj, hid]
        · intro j t hjlt hjt
          cases j with
          | zero =>
            simp only [List.getElem?_cons_zero, Option.some.injEq] at hjt
            rw [← hjt, hj]; simp [Except.isOk, Except.toBool]
          | succ j =>
            simp only [List.getElem?_cons_succ] at hjt
            exact hmin j t (by omega) hjt

theorem items_dict_stops_at_first (pre : List String) (s : String) (e : DecodeErr)
    (hpre : ∀ t ∈ pre, (json_loads t).isOk) (hs : json_loads s = .error e) :
    ∀ rest, items_dict (pre ++ s :: rest) = .error e := by
  induction pre with
  | nil => intro rest; exact items_dict_cons_err s rest e hs
  | cons p pre' ih =>
    intro rest
    have hp : (json_loads p).isOk := hpre p (List.mem_cons_self p pre')
    cases hj : json_loads p with
    | error e' => rw [hj] at hp; simp [Except.isOk, Except.toBool] at hp
    | ok v =>
      rw [List.cons_append, items_dict_cons_ok p (pre' ++ s :: rest) v hj,
        ih (fun t ht => hpre t (List.mem_cons_of_mem p ht)) rest]

theorem dictLookup_none_of_not_mem (acc : List (List Nat × JsonValue)) (k : List Nat)
    (h : ∀ p ∈ acc, p.1 ≠ k) : dictLookup acc k = none := by
  induction acc with
  | nil => rfl
  | cons p rest ih =>
    simp only [dictLookup, if_neg (h p (List.mem_cons_self p rest))]
    exact ih (fun q hq => h q (List.mem_cons_of_mem p hq))

theorem dictLookup_replace_ne (acc : List (List Nat × JsonValue)) (k k' : List Nat)
    (v : JsonValue) (hne : k ≠ k') :
    dictLookup (acc.map (fun p => if p.1 = k then (k, v) else p)) k' = dictLookup acc k' := by
  induction acc with
  | nil => rfl
  | cons p rest ih =>
    by_cases hp : p.1 = k
    · simp only [List.map_cons, if_pos hp, dictLookup, if_neg hne, if_neg (hp ▸ hne)]
      exact ih
    · simp only [List.map_cons, if_neg hp, dictLookup]
      by_cases hp' : p.1 = k'
      · simp [if_pos hp']
      · simp only [if_neg hp']; exact ih

theorem dictLookup_replace_eq (acc : List (List Nat × JsonValue)) (k : List Nat)
    (v : JsonValue) (w : JsonValue) (h : dictLookup acc k = some w) :
    dictLookup (acc.map (fun p => if p.1 = k then (k, v) else p)) k = some v := by
  induction acc with
  | nil => simp [dictLookup] at h
  | cons p rest ih =>
    by_cases hp : p.1 = k
    · simp [List.map_cons, if_pos hp, dictLookup]
    · simp only [dictLookup, if_neg hp] at h
      simp only [List.map_cons, if_neg hp, dictLookup, if_neg hp]
      exact ih h

theorem dictLookup_some_of_any (acc : List (List Nat × JsonValue)) (k : List Nat)
    (h : (acc.any fun p => p.1 = k) = true) : ∃ w, dictLookup acc k = some w := by
  induction acc with
  | nil => simp at h
  | cons p rest ih =>
    by_cases hp : p.1 = k
    · exact ⟨p.2, by simp [dictLookup, if_pos hp]⟩
    · simp only [List.any_cons, Bool.or_eq_true, decide_eq_true_eq] at h
      rcases h with h | h
      · exact absurd h hp
      · obtain ⟨w, hw⟩ := ih h
        exact ⟨w, by simp only [dictLookup, if_neg hp]; exact hw⟩

theorem dictLookup_append_single (acc : List (List Nat × JsonValue)) (k k' : List Nat)
    (v : JsonValue) :
    dictLookup (acc ++ [(k, v)]) k' =
      match dictLookup acc k' with
      | some w => some w
      | none => if k = k' then some v else none := by
  induction acc with
  | nil =>
    by_cases hkk : k = k'
    · subst hkk; simp [dictLookup]
    · simp [dictLookup, hkk]
  | cons p rest ih =>
    simp only [List.cons_append, dictLookup]
    by_cases hp' : p.1 = k'
    · simp [if_pos hp']
    · simp only [if_neg hp']; exact ih

theorem dictLookup_insert (acc : List (List Nat × JsonValue)) (k k' : List Nat)
    (v : JsonValue) :
    dictLookup (dictInsert acc k v) k' = if k = k' then some v else dictLookup acc k' := by
  unfold dictInsert
  by_cases hany : (acc.any fun p => p.1 = k) = true
  · rw [if_pos hany]
    by_cases hkk : k = k'
    · subst hkk
      obtain ⟨w, hw⟩ := dictLookup_some_of_any acc k hany
      rw [dictLookup_replace_eq acc k v w hw, if_pos rfl]
    · rw [dictLookup_replace_ne acc k k' v hkk, if_neg hkk]
  · rw [if_neg hany]
    have hnm : ∀ p ∈ acc, p.1 ≠ k := by
      intro p hp hpk
      exact hany (List.any_eq_true.mpr ⟨p, hp, by simp [hpk]⟩)
    rw [dictLookup_append_single]
    by_cases hkk : k = k'
    · subst hkk
      rw [dictLookup_none_of_not_mem acc k hnm, if_pos rfl]
    · simp only [if_neg hkk]
      cases dictLookup acc k' <;> rfl

theorem dictLookup_foldl (pairs : List (List Nat × JsonValue)) :
    ∀ (acc : List (List Nat × JsonValue)) (k : List Nat),
      dictLookup (pairs.foldl (fun acc p => dictInsert acc p.1 p.2) acc) k =
        match lastOcc pairs k with
        | some v => some v
        | none => dictLookup acc k := by
  induction pairs with
  | nil => intro acc k; rfl
  | cons q rest ih =>
    intro acc k
    simp only [List.foldl_cons, lastOcc]
    rw [ih]
    cases lastOcc rest k with
    | some v => rfl
    | none => by_cases hq : q.1 = k <;> simp [dictLookup_insert, hq]

/-- `dict(pairs)[k]` is the value of the last occurrence of `k`. -/
theorem dictLookup_pairsToDict (pairs : List (List Nat × JsonValue)) (k : List Nat) :
    dictLookup (pairsToDict pairs) k = lastOcc pairs k := by
  unfold pairsToDict
  rw [dictLookup_foldl]
  cases lastOcc pairs k <;> simp [dictLookup]

theorem dictInsert_keys_mem (acc : List (List Nat × JsonValue)) (k : List Nat)
    (v : JsonValue) (h : (acc.any fun p => p.1 = k) = true) :
    (dictInsert acc k v).map Prod.fst = acc.map Prod.fst := by
  unfold dictInsert
  rw [if_pos h, List.map_map]
  apply List.map_congr_left
  intro p _
  by_cases hp : p.1 = k
  · simp [Function.comp, if_pos hp, hp]
  · simp [Function.comp, if_neg hp]

theorem keysNodup_dictInsert (acc : List (List Nat × JsonValue)) (k : List Nat)
    (v : JsonValue) (h : keysNodup acc) : keysNodup (dictInsert acc k v) := by
  by_cases hany : (acc.any fun p => p.1 = k) = true
  · unfold keysNodup
    rw [dictInsert_keys_mem acc k v hany]
    exact h
  · unfold keysNodup dictInsert
    rw [if_neg hany, List.map_append]
    simp only [List.map_cons, List.map_nil]
    rw [List.nodup_append]
    refine ⟨h, List.nodup_singleton k, ?_⟩
    intro a ha hb
    simp only [List.mem_singleton] at hb
    subst hb
    simp only [List.mem_map] at ha
    obtain ⟨p, hp, hpk⟩ := ha
    exact hany (List.any_eq_true.mpr ⟨p, hp, by simp [hpk]⟩)

theorem keysNodup_foldl (pairs : List (List Nat × JsonValue)) :
    ∀ acc, keysNodup acc →
      keysNodup (pairs.foldl (fun acc p => dictInsert acc p.1 p.2) acc) := by
  induction pairs with
  | nil => intro acc h; exact h
  | cons q rest ih =>
    intro acc h
    simp only [List.foldl_cons]
    exact ih _ (keysNodup_dictInsert acc q.1 q.2 h)

/-- `dict(pairs)` has pairwise distinct keys. -/
theorem keysNodup_pairsToDict (pairs : List (List Nat × JsonValue)) :
    keysNodup (pairsToDict pairs) :=
  keysNodup_foldl pairs [] (by simp [keysNodup])

theorem foldl_dictInsert_eq_append (kvs : List (List Nat × JsonValue)) :
    ∀ acc, ((acc ++ kvs).map Prod.fst).Nodup →
      kvs.foldl (fun acc p => dictInsert acc p.1 p.2) acc = acc ++ kvs := by
  induction kvs with
  | nil => intro acc _; simp
  | cons q rest ih =>
    intro acc h
    have hknot : ∀ p ∈ acc, p.1 ≠ q.1 := by
      intro p hp hpq
      rw [List.map_append, List.nodup_append] at h
      exact h.2.2 (List.mem_map.mpr ⟨p, hp, rfl⟩) (by simp [hpq])
    have hnotany : ¬ (acc.any fun p => p.1 = q.1) = true := by
      intro hx
      obtain ⟨p, hp, hpq⟩ := List.any_eq_true.mp hx
      exact hknot p hp (by simpa using hpq)
    have hins : dictInsert acc q.1 q.2 = acc ++ [q] := by
      unfold dictInsert
      rw [if_neg hnotany]
    simp only [List.foldl_cons, hins]
    rw [ih (acc ++ [q]) (by simpa using h)]
    simp

/-- `dict(pairs)` is the identity on pair lists whose keys are already
distinct. -/
theorem pairsToDict_eq_self (kvs : List (List Nat × JsonValue)) (h : keysNodup kvs) :
    pairsToDict kvs = kvs := by
  unfold pairsToDict
  rw [foldl_dictInsert_eq_append kvs [] (by simpa [keysNodup] using h)]
  simp

/-- C1: for every input sequence consisting only of valid JSON strings
(strings the decoder accepts), the Query Decoder `items_dict` returns a
sequence of decoded values whose length equals the input length and whose
entry at each index is the decode of the input at the same index: order is
preserved and repeated identical raw values each produce their own entry
(no deduplication or sorting). -/
theorem C1_decode_preserves_length_and_order (ps : List String)
    (h : ∀ s ∈ ps, (json_loads s).isOk) :
    ∃ vs, items_dict ps = .ok vs ∧ vs.length = ps.length ∧
      ∀ (i : Nat) (s : String) (v : JsonValue),
        ps[i]? = some s → vs[i]? = some v → json_loads s = .ok v :=
  items_dict_ok_shape ps h

theorem C1_witness :
    (∀ s ∈ ["1", "1"], (json_loads s).isOk) ∧
    (∃ vs, items_dict ["1", "1"] = .ok vs ∧ vs.length = (["1", "1"] : List String).length ∧
      ∀ (i : Nat) (s : String) (v : JsonValue),
        (["1", "1"] : List String)[i]? = some s → vs[i]? = some v → json_loads s = .ok v) :=
  ⟨by decide, C1_decode_preserves_length_and_order ["1", "1"] (by decide)⟩

/-- C2: for every input sequence containing an element the decoder rejects,
`items_dict` fails with a decode error (the `MalformedInput` condition)
rather than returning a result, and the failing element's position is
identifiable: the error is the one produced at the least index whose
element fails, every earlier element decoding successfully. -/
theorem C2_fails_on_invalid_element (ps : List String)
    (h : ∃ s ∈ ps, ¬ (json_loads s).isOk) :
    ∃ (i : Nat) (s : String) (e : DecodeErr),
      ps[i]? = some s ∧ json_loads s = .error e ∧ items_dict ps = .error e ∧
      ∀ (j : Nat) (t : String), j < i → ps[j]? = some t → (json_loads t).isOk :=
  items_dict_first_error ps h

theorem C2_witness :
    (∃ s ∈ ["1", "not json"], ¬ (json_loads s).isOk) ∧
    (∃ (i : Nat) (s : String) (e : DecodeErr),
      (["1", "not json"] : List String)[i]? = some s ∧ json_loads s = .error e ∧
      items_dict ["1", "not json"] = .error e ∧
      ∀ (j : Nat) (t : String), j < i →
        (["1", "not json"] : List String)[j]? = some t → (json_loads t).isOk) :=
  ⟨by decide, C2_fails_on_invalid_element ["1", "not json"] (by decide)⟩

/-- C3: when an element fails to decode, the whole batch fails with the
error of the first failing element: whatever elements follow it (decoded or
not, well-formed or not), the result is that same error, so no partial
result is produced, no bad element is skipped and nothing after the first
failure is decoded. -/
theorem C3_first_error_aborts_batch (pre : List String) (s : String) (e : DecodeErr)
    (hpre : ∀ t ∈ pre, (json_loads t).isOk) (hs : json_loads s = .error e) :
    ∀ rest, items_dict (pre ++ s :: rest) = .error e :=
  items_dict_stops_at_first pre s e hpre hs

theorem C3_witness :
    (∀ t ∈ ["true"], (json_loads t).isOk) ∧
    json_loads "x" = .error ⟨"Expecting value", 0⟩ ∧
    items_dict (["true"] ++ "x" :: ["1"]) = .error ⟨"Expecting value", 0⟩ :=
  ⟨by decide, by rfl,
    C3_first_error_aborts_batch ["true"] "x" ⟨"Expecting value", 0⟩ (by decide) (by rfl) ["1"]⟩

/-- C4 (evidence for the code bug): an occurrence of `params` that is not
valid JSON makes the dependency `items_dict` raise a `JSONDecodeError`
(modelled as this error value).  FastAPI does not treat an exception raised
inside a dependency body as a request-validation failure, so the `/test`
endpoint surfaces it as an HTTP 500 server error, not the 4xx client error
the specification requires. -/
theorem C4_invalid_params_raises :
    items_dict ["not json"] = .error ⟨"Expecting value", 0⟩ := by rfl

/-- C5 counterexample: `json.loads` (and hence `items_dict`) accepts the
non-standard literal `NaN`, which is not a JSON document under the
standard JSON grammar, so the claim that every string outside the standard
grammar (in particular non-standard literals) is rejected is false. -/
theorem C5_counterexample_nan_accepted : json_loads "NaN" = .ok .nan := by rfl

/-- C5 amended: each element is decoded independently (the value at index
`i` of a successful batch is exactly the decode of input `i`, with no
merging of parameters), and parsing is strict standard JSON *except* that
the non-standard literals `NaN`, `Infinity` and `-Infinity` are accepted:
trailing commas in arrays and objects, comments, and Python-style literals
are rejected (shown on representative inputs), while the three constants
decode successfully. -/
theorem C5_amended_strict_modulo_constants (ps : List String) (vs : List JsonValue)
    (h : items_dict ps = .ok vs) :
    (∀ (i : Nat) (s : String) (v : JsonValue),
      ps[i]? = some s → vs[i]? = some v → json_loads s = .ok v) ∧
    json_loads "[1,]" = .error ⟨"Expecting value", 3⟩ ∧
    json_loads "\x7b\"a\": 1,\x7d" =
      .error ⟨"Expecting property name enclosed in double quotes", 7⟩ ∧
    json_loads "// note" = .error ⟨"Expecting value", 0⟩ ∧
    json_loads "/* note */ 1" = .error ⟨"Expecting value", 0⟩ ∧
    json_loads "True" = .error ⟨"Expecting value", 0⟩ ∧
    json_loads "NaN" = .ok .nan ∧
    json_loads "Infinity" = .ok (.inf false) ∧
    json_loads "-Infinity" = .ok (.inf true) :=
  ⟨items_dict_elementwise ps vs h, by rfl, by rfl, by rfl, by rfl, by rfl, by rfl,
   by rfl, by rfl⟩

theorem C5_witness :
    items_dict ["NaN"] = .ok [.nan] ∧
    ((∀ (i : Nat) (s : String) (v : JsonValue),
      (["NaN"] : List String)[i]? = some s → ([JsonValue.nan])[i]? = some v →
        json_loads s = .ok v) ∧
    json_loads "[1,]" = .error ⟨"Expecting value", 3⟩ ∧
    json_loads "\x7b\"a\": 1,\x7d" =
      .error ⟨"Expecting property name enclosed in double quotes", 7⟩ ∧
    json_loads "// note" = .error ⟨"Expecting value", 0⟩ ∧
    json_loads "/* note */ 1" = .error ⟨"Expecting value", 0⟩ ∧
    json_loads "True" = .error ⟨"Expecting value", 0⟩ ∧
    json_loads "NaN" = .ok .nan ∧
    json_loads "Infinity" = .ok (.inf false) ∧
    json_loads "-Infinity" = .ok (.inf true)) :=
  ⟨by rfl, C5_amended_strict_modulo_constants ["NaN"] [.nan] (by rfl)⟩

/-- C6: the empty input sequence decodes to the empty output sequence
without error. -/
theorem C6_empty_input_empty_output : items_dict [] = .ok [] := rfl

/-- C8: the decoder is a pure deterministic function of its input sequence:
it is modelled by a mathematical function, so two invocations on equal
inputs produce equal results (the same value or the same error). -/
theorem C8_deterministic (ps qs : List String) (h : ps = qs) :
    items_dict ps = items_dict qs := by rw [h]

theorem C8_witness :
    (["1"] : List String) = ["1"] ∧ items_dict ["1"] = items_dict ["1"] :=
  ⟨rfl, C8_deterministic ["1"] ["1"] rfl⟩

/-- C9: an object with a repeated key decodes successfully and keeps exactly
one entry for that key, bound to its textually last occurrence: concretely
for the object with key `"a"` bound to `1` then `2`, and in general the
`dict(pairs)` construction used by the object parser maps every key to its
last occurrence and produces pairwise distinct keys. -/
theorem C9_duplicate_keys_last_wins :
    json_loads "\x7b\"a\": 1, \"a\": 2\x7d" = .ok (.obj [([97], .jint 2)]) ∧
    (∀ (pairs : List (List Nat × JsonValue)) (k : List Nat),
      dictLookup (pairsToDict pairs) k = lastOcc pairs k) ∧
    (∀ pairs : List (List Nat × JsonValue), keysNodup (pairsToDict pairs)) :=
  ⟨by rfl, dictLookup_pairsToDict, keysNodup_pairsToDict⟩

theorem scanString_nil (pos : Nat) (acc : List Nat) :
    scanString [] pos acc = .error ⟨"Unterminated string starting at", pos⟩ :=
  scanString.eq_1 pos acc

theorem scanString_quote (rest : List Char) (pos : Nat) (acc : List Nat) :
    scanString ('"' :: rest) pos acc = .ok (acc.reverse, rest, pos + 1) := by
  rcases rest with _ | ⟨e, r2⟩
  · rw [scanString.eq_5, if_pos rfl]
  · by_cases he : e = 'u'
    · subst he
      rcases r2 with _ | ⟨a, r2⟩
      · rw [scanString.eq_3 _ _ _ [] (by intro a b c2 d r3 hh; cases hh), if_pos rfl]
      · rcases r2 with _ | ⟨b, r2⟩
        · rw [scanString.eq_3 _ _ _ [a] (by intro a b c2 d r3 hh; simp at hh), if_pos rfl]
        · rcases r2 with _ | ⟨c2, r2⟩
          · rw [scanString.eq_3 _ _ _ [a, b] (by intro a b c2 d r3 hh; simp at hh), if_pos rfl]
          · rcases r2 with _ | ⟨d, r2⟩
            · rw [scanString.eq_3 _ _ _ [a, b, c2] (by intro a b c2 d r3 hh; simp at hh),
                if_pos rfl]
            · rw [scanString.eq_2, if_pos rfl]
    · rw [scanString.eq_4 _ _ _ _ _ (by intro a b c2 d r3 hh; exact absurd hh he)
        (fun hh => he hh), if_pos rfl]

theorem scanString_u4 (a b c2 d : Char) (r3 : List Char) (pos : Nat) (acc : List Nat) :
    scanString ('\\' :: 'u' :: a :: b :: c2 :: d :: r3) pos acc =
      if (isHexC a && isHexC b && isHexC c2 && isHexC d) = true then
        scanString r3 (pos + 6) (pushCp (hex4Val a b c2 d) acc)
      else .error ⟨"Invalid uXXXX escape", pos + 1⟩ := by
  rw [scanString.eq_2, if_neg (by decide), if_pos rfl]

theorem scanString_u_short (tail : List Char) (pos : Nat) (acc : List Nat)
    (hlen : tail.length < 4) :
    scanString ('\\' :: 'u' :: tail) pos acc =
      .error ⟨"Invalid uXXXX escape", pos + 1⟩ := by
  rw [scanString.eq_3 _ _ _ tail
    (by intro a b c2 d r3 hh; subst hh; simp at hlen; omega),
    if_neg (by decide), if_pos rfl]

theorem scanString_esc (e : Char) (r2 : List Char) (pos : Nat) (acc : List Nat)
    (hneu : e ≠ 'u') :
    scanString ('\\' :: e :: r2) pos acc =
      match escMap e with
      | some n => scanString r2 (pos + 2) (n :: acc)
      | none => .error ⟨"Invalid backslash escape", pos + 1⟩ := by
  rw [scanString.eq_4 _ _ _ _ _ (by intro a b c2 d r3 hh; exact absurd hh hneu)
    (fun hh => hneu hh), if_neg (by decide), if_pos rfl]

theorem scanString_bs_nil (pos : Nat) (acc : List Nat) :
    scanString ['\\'] pos acc = .error ⟨"Unterminated string starting at", pos + 1⟩ := by
  rw [scanString.eq_5, if_neg (by decide), if_pos rfl]

theorem scanString_plain (c : Char) (rest : List Char) (pos : Nat) (acc : List Nat)
    (hq : c ≠ '"') (hb : c ≠ '\\') :
    scanString (c :: rest) pos acc =
      if c.toNat < 32 then .error ⟨"Invalid control character at", pos⟩
      else scanString rest (pos + 1) (c.toNat :: acc) := by
  rcases rest with _ | ⟨e, r2⟩
  · rw [scanString.eq_5, if_neg hq, if_neg hb]
  · by_cases he : e = 'u'
    · subst he
      rcases r2 with _ | ⟨a, r2⟩
      · rw [scanString.eq_3 _ _ _ [] (by intro a b c2 d r3 hh; cases hh), if_neg hq, if_neg hb]
      · rcases r2 with _ | ⟨b, r2⟩
        · rw [scanString.eq_3 _ _ _ [a] (by intro a b c2 d r3 hh; simp at hh),
            if_neg hq, if_neg hb]
        · rcases r2 with _ | ⟨c2, r2⟩
          · rw [scanString.eq_3 _ _ _ [a, b] (by intro a b c2 d r3 hh; simp at hh),
              if_neg hq, if_neg hb]
          · rcases r2 with _ | ⟨d, r2⟩
            · rw [scanString.eq_3 _ _ _ [a, b, c2] (by intro a b c2 d r3 hh; simp at hh),
                if_neg hq, if_neg hb]
            · rw [scanString.eq_2, if_neg hq, if_neg hb]
    · rw [scanString.eq_4 _ _ _ _ _ (by intro a b c2 d r3 hh; exact absurd hh he)
        (fun hh => he hh), if_neg hq, if_neg hb]

theorem scanString_append (ext : List Char) (cs0 : List Char) (pos0 : Nat) (acc0 : List Nat)
    (s0 : List Nat) (r0 : List Char) (q0 : Nat)
    (h0 : scanString cs0 pos0 acc0 = .ok (s0, r0, q0)) (pos0' : Nat) :
    ∃ q', scanString (cs0 ++ ext) pos0' acc0 = .ok (s0, r0 ++ ext, q') := by
  have main : ∀ (n : Nat) (cs : List Char), cs.length ≤ n →
      ∀ (pos : Nat) (acc : List Nat) (s : List Nat) (r : List Char) (q : Nat),
        scanString cs pos acc = .ok (s, r, q) →
        ∀ pos', ∃ q', scanString (cs ++ ext) pos' acc = .ok (s, r ++ ext, q') := by
    intro n
    induction n with
    | zero =>
      intro cs hlen pos acc s r q h
      rw [List.length_eq_zero.mp (Nat.le_zero.mp hlen)] at h
      rw [scanString_nil] at h
      exact absurd h (by simp)
    | succ n ih =>
      intro cs hlen pos acc s r q h pos'
      rcases cs with _ | ⟨c, rest⟩
      · rw [scanString_nil] at h; exact absurd h (by simp)
      · by_cases hcq : c = '"'
        · subst hcq
          rw [scanString_quote] at h
          obtain ⟨hs, hr, hq⟩ : acc.reverse = s ∧ rest = r ∧ pos + 1 = q := by simpa using h
          refine ⟨pos' + 1, ?_⟩
          rw [List.cons_append, scanString_quote, hs, hr]
        · by_cases hcb : c = '\\'
          · subst hcb
            rcases rest with _ | ⟨e, r2⟩
            · rw [scanString_bs_nil] at h; exact absurd h (by simp)
            · by_cases he : e = 'u'
              · subst he
                rcases r2 with _ | ⟨a, r2⟩
                · rw [scanString_u_short [] pos acc (by simp)] at h
                  exact absurd h (by simp)
                · rcases r2 with _ | ⟨b, r2⟩
                  · rw [scanString_u_short [a] pos acc (by simp)] at h
                    exact absurd h (by simp)
                  · rcases r2 with _ | ⟨c2, r2⟩
                    · rw [scanString_u_short [a, b] pos acc (by simp)] at h
                      exact absurd h (by simp)
                    · rcases r2 with _ | ⟨d, r2⟩
                      · rw [scanString_u_short [a, b, c2] pos acc (by simp)] at h
                        exact absurd h (by simp)
                      · rw [scanString_u4] at h
                        by_cases hhex : (isHexC a && isHexC b && isHexC c2 && isHexC d) = true
                        · rw [if_pos hhex] at h
                          obtain ⟨q', hq'⟩ := ih r2 (by simp at hlen ⊢; omega) _ _ s r q h
                            (pos' + 6)
                          refine ⟨q', ?_⟩
                          rw [List.cons_append, List.cons_append, List.cons_append,
                            List.cons_append, List.cons_append, List.cons_append,
                            scanString_u4, if_pos hhex]
                          exact hq'
                        · rw [if_neg hhex] at h; exact absurd h (by simp)
              · rw [scanString_esc e r2 pos acc he] at h
                cases hesc : escMap e with
                | some m =>
                  rw [hesc] at h
                  obtain ⟨q', hq'⟩ := ih r2 (by simp at hlen ⊢; omega) _ _ s r q h (pos' + 2)
                  refine ⟨q', ?_⟩
                  rw [List.cons_append, List.cons_append, scanString_esc e (r2 ++ ext) pos' acc he,
                    hesc]
                  exact hq'
                | none => rw [hesc] at h; exact absurd h (by simp)
          · by_cases hctl : c.toNat < 32
            · rw [scanString_plain c rest pos acc hcq hcb, if_pos hctl] at h
              exact absurd h (by simp)
            · rw [scanString_plain c rest pos acc hcq hcb, if_neg hctl] at h
              obtain ⟨q', hq'⟩ := ih rest (by simp at hlen ⊢; omega) _ _ s r q h (pos' + 1)
              refine ⟨q', ?_⟩
              rw [List.cons_append, scanString_plain c (rest ++ ext) pos' acc hcq hcb,
                if_neg hctl]
              exact hq'
  exact main cs0.length cs0 le_rfl pos0 acc0 s0 r0 q0 h0 pos0'

theorem isJsonWs_cases (c : Char) (h : isJsonWs c = true) :
    c = ' ' ∨ c = '\t' ∨ c = '\n' ∨ c = '\r' := by
  simp only [isJsonWs, Bool.or_eq_true, decide_eq_true_eq] at h
  tauto

theorem ws_char_facts (c : Char) (h : isJsonWs c = true) :
    isDigitC c = false ∧ c ≠ '.' ∧ c ≠ 'e' ∧ c ≠ 'E' ∧ c ≠ '+' ∧ c ≠ '-' ∧
    c ≠ '"' ∧ c ≠ '\uFEFF' := by
  rcases isJsonWs_cases c h with rfl | rfl | rfl | rfl <;> decide

theorem skipWs_all (ws : List Char) (h : ∀ c ∈ ws, isJsonWs c) :
    ∀ pos, skipWs ws pos = ([], pos + ws.length) := by
  induction ws with
  | nil => intro pos; simp [skipWs]
  | cons c rest ih =>
    intro pos
    have hc : isJsonWs c := h c (List.mem_cons_self c rest)
    simp only [skipWs, if_pos hc]
    rw [ih (fun d hd => h d (List.mem_cons_of_mem c hd)) (pos + 1)]
    simp only [List.length_cons]
    congr 1
    omega

theorem skipWs_ws_front (ws cs : List Char) (h : ∀ c ∈ ws, isJsonWs c) :
    ∀ pos, skipWs (ws ++ cs) pos = skipWs cs (pos + ws.length) := by
  induction ws with
  | nil => intro pos; simp [skipWs]
  | cons c rest ih =>
    intro pos
    have hc : isJsonWs c := h c (List.mem_cons_self c rest)
    simp only [List.cons_append, skipWs, if_pos hc, List.append_eq]
    rw [ih (fun d hd => h d (List.mem_cons_of_mem c hd)) (pos + 1)]
    simp only [List.length_cons]
    congr 1
    omega

theorem skipWs_append_stop (cs : List Char) (pos : Nat) (c : Char) (r : List Char) (q : Nat)
    (h : skipWs cs pos = (c :: r, q)) (ext : List Char) :
    ∀ pos', ∃ q', skipWs (cs ++ ext) pos' = (c :: (r ++ ext), q') := by
  induction cs generalizing pos with
  | nil => simp [skipWs] at h
  | cons d rest ih =>
    intro pos'
    by_cases hd : isJsonWs d
    · simp only [skipWs, if_pos hd] at h
      obtain ⟨q', hq'⟩ := ih (pos + 1) h (pos' + 1)
      refine ⟨q', ?_⟩
      simp only [List.cons_append, skipWs, if_pos hd]
      exact hq'
    · simp only [skipWs, if_neg hd] at h
      obtain ⟨hd2, hq⟩ : d :: rest = c :: r ∧ pos = q := by simpa using h
      obtain ⟨hdc, hrr⟩ : d = c ∧ rest = r := by simpa using hd2
      subst hdc
      subst hrr
      refine ⟨pos', ?_⟩
      simp only [List.cons_append, skipWs, if_neg hd, List.append_eq]

theorem skipWs_append_empty (cs : List Char) (pos q : Nat)
    (h : skipWs cs pos = ([], q)) (ext : List Char) :
    ∀ pos', ∃ p0, skipWs (cs ++ ext) pos' = skipWs ext p0 := by
  induction cs generalizing pos with
  | nil => intro pos'; exact ⟨pos', by simp⟩
  | cons d rest ih =>
    intro pos'
    by_cases hd : isJsonWs d
    · simp only [skipWs, if_pos hd] at h
      obtain ⟨p0, hp0⟩ := ih (pos + 1) h (pos' + 1)
      refine ⟨p0, ?_⟩
      simp only [List.cons_append, skipWs, if_pos hd]
      exact hp0
    · simp only [skipWs, if_neg hd] at h
      simp at h

theorem take_append_eq_lit (cs ext lit : List Char) (n : Nat) (hn : lit.length = n)
    (h : cs.take n = lit) : (cs ++ ext).take n = lit := by
  have hlen : n ≤ cs.length := by
    have : (cs.take n).length = n := by rw [h, hn]
    simp only [List.length_take] at this
    omega
  rw [List.take_append_of_le_length hlen]
  exact h

theorem take_append_ne_lit (cs ext lit : List Char) (n : Nat)
    (hlit : ∀ c ∈ lit, isJsonWs c = false) (hext : ∀ c ∈ ext, isJsonWs c)
    (h : cs.take n ≠ lit) : (cs ++ ext).take n ≠ lit := by
  intro hcontra
  by_cases hlen : n ≤ cs.length
  · rw [List.take_append_of_le_length hlen] at hcontra
    exact h hcontra
  · push_neg at hlen
    rw [List.take_append_eq_append_take,
      List.take_of_length_le (le_of_lt hlen)] at hcontra
    rcases hext2 : ext with _ | ⟨w, ws'⟩
    · subst hext2
      simp at hcontra
      exact h (by rw [List.take_of_length_le (le_of_lt hlen)]; exact hcontra)
    · subst hext2
      have hm : 1 ≤ n - cs.length := by omega
      have hw : w ∈ lit := by
        rw [← hcontra]
        refine List.mem_append.mpr (Or.inr ?_)
        rcases hm' : n - cs.length with _ | m
        · omega
        · simp [List.take_cons]
      have := hlit w hw
      rw [hext w (List.mem_cons_self w ws')] at this
      cases this

theorem takeDigits_cons (c : Char) (rest : List Char) :
    takeDigits (c :: rest) =
      if isDigitC c then (c :: (takeDigits rest).1, (takeDigits rest).2)
      else ([], c :: rest) := by
  simp only [takeDigits]

theorem scanIntPart_cons (c : Char) (rest : List Char) :
    scanIntPart (c :: rest) =
      if c = '0' then some (['0'], rest)
      else if isDigitC c then some (c :: (takeDigits rest).1, (takeDigits rest).2)
      else none := by
  simp only [scanIntPart]

theorem takeDigits_append (ext : List Char) (hext : ∀ c ∈ ext, isJsonWs c) :
    ∀ cs, takeDigits (cs ++ ext) = ((takeDigits cs).1, (takeDigits cs).2 ++ ext) := by
  intro cs
  induction cs with
  | nil =>
    simp only [List.nil_append, takeDigits]
    rcases hext2 : ext with _ | ⟨w, ws'⟩
    · rfl
    · have hw := (ws_char_facts w (hext w (by rw [hext2]; exact List.mem_cons_self w ws'))).1
      rw [takeDigits_cons, if_neg (by simp [hw])]
  | cons c rest ih =>
    by_cases hc : isDigitC c
    · rw [List.cons_append, takeDigits_cons, takeDigits_cons, if_pos hc, if_pos hc, ih]
    · rw [List.cons_append, takeDigits_cons, takeDigits_cons, if_neg hc, if_neg hc]
      simp

theorem scanIntPart_append_some (ext : List Char) (hext : ∀ c ∈ ext, isJsonWs c)
    (cs : List Char) (ds : List Char) (r : List Char)
    (h : scanIntPart cs = some (ds, r)) :
    scanIntPart (cs ++ ext) = some (ds, r ++ ext) := by
  rcases cs with _ | ⟨c, rest⟩
  · simp [scanIntPart] at h
  · rw [scanIntPart_cons] at h
    rw [List.cons_append, scanIntPart_cons]
    by_cases hc0 : c = '0'
    · rw [if_pos hc0] at h ⊢
      obtain ⟨hds, hr⟩ : ['0'] = ds ∧ rest = r := by simpa using h
      rw [hds, hr]
    · rw [if_neg hc0] at h ⊢
      by_cases hcd : isDigitC c
      · rw [if_pos hcd] at h
        rw [if_pos hcd, takeDigits_append ext hext rest]
        obtain ⟨hds, hr⟩ : c :: (takeDigits rest).1 = ds ∧ (takeDigits rest).2 = r := by
          simpa using h
        rw [← hds, ← hr]
      · rw [if_neg hcd] at h
        simp at h

theorem scanIntPart_append_none (ext : List Char) (hext : ∀ c ∈ ext, isJsonWs c)
    (cs : List Char) (h : scanIntPart cs = none) :
    scanIntPart (cs ++ ext) = none := by
  rcases cs with _ | ⟨c, rest⟩
  · rcases hext2 : ext with _ | ⟨w, ws'⟩
    · rfl
    · have hwm : isJsonWs w := hext w (by rw [hext2]; exact List.mem_cons_self w ws')
      have hw := ws_char_facts w hwm
      simp only [List.nil_append]
      rw [scanIntPart_cons,
        if_neg (by rcases isJsonWs_cases w hwm with rfl | rfl | rfl | rfl <;> decide),
        if_neg (by simp [hw.1])]
  · rw [scanIntPart_cons] at h
    rw [List.cons_append, scanIntPart_cons]
    by_cases hc0 : c = '0'
    · rw [if_pos hc0] at h; simp at h
    · rw [if_neg hc0] at h ⊢
      by_cases hcd : isDigitC c
      · rw [if_pos hcd] at h; simp at h
      · rw [if_neg hcd]

theorem ws_head_ne (ext : List Char) (hext : ∀ c ∈ ext, isJsonWs c) (x : Char)
    (hx : isJsonWs x = false) : ext.head? ≠ some x := by
  rcases ext with _ | ⟨w, ws'⟩
  · simp
  · intro hwx
    have hwx2 : w = x := by
      have := hwx
      simp only [List.head?_cons, Option.some.injEq] at this
      exact this
    rw [← hwx2] at hx
    rw [hext w (List.mem_cons_self w ws')] at hx
    cases hx

theorem scanFrac_append_some (ext : List Char) (hext : ∀ c ∈ ext, isJsonWs c)
    (cs : List Char) (ds r : List Char) (h : scanFrac cs = some (ds, r)) :
    scanFrac (cs ++ ext) = some (ds, r ++ ext) := by
  rcases cs with _ | ⟨c, rest⟩
  · simp [scanFrac] at h
  · simp only [scanFrac, List.head?_cons, List.tail_cons] at h
    by_cases hc : (some c : Option Char) = some '.'
    · rw [if_pos hc] at h
      by_cases hd : (takeDigits rest).1 = []
      · rw [if_pos hd] at h; cases h
      · rw [if_neg hd] at h
        have hp : takeDigits rest = (ds, r) := by simpa using h
        have h1 : (takeDigits rest).1 = ds := by rw [hp]
        have h2 : (takeDigits rest).2 = r := by rw [hp]
        simp only [List.cons_append, scanFrac, List.head?_cons, List.tail_cons]
        rw [if_pos hc, takeDigits_append ext hext rest]
        simp only [h1, h2]
        rw [if_neg (h1 ▸ hd)]
    · rw [if_neg hc] at h; cases h

theorem scanFrac_append_none (ext : List Char) (hext : ∀ c ∈ ext, isJsonWs c)
    (cs : List Char) (h : scanFrac cs = none) :
    scanFrac (cs ++ ext) = none := by
  rcases cs with _ | ⟨c, rest⟩
  · simp only [List.nil_append, scanFrac]
    rw [if_neg (ws_head_ne ext hext '.' (by decide))]
  · simp only [scanFrac, List.head?_cons, List.tail_cons] at h
    simp only [List.cons_append, scanFrac, List.head?_cons, List.tail_cons]
    by_cases hc : (some c : Option Char) = some '.'
    · rw [if_pos hc] at h ⊢
      by_cases hd : (takeDigits rest).1 = []
      · rw [takeDigits_append ext hext rest]
        rw [if_pos hd]
      · rw [if_neg hd] at h; cases h
    · rw [if_neg hc] at h ⊢

theorem scanExp_append_some (ext : List Char) (hext : ∀ c ∈ ext, isJsonWs c)
    (cs : List Char) (v : Int) (r : List Char) (h : scanExp cs = some (v, r)) :
    scanExp (cs ++ ext) = some (v, r ++ ext) := by
  rcases cs with _ | ⟨c, rest⟩
  · simp [scanExp] at h
  · simp only [scanExp, List.head?_cons, List.tail_cons] at h
    by_cases hc : (some c : Option Char) = some 'e' ∨ (some c : Option Char) = some 'E'
    · rw [if_pos hc] at h
      simp only [List.cons_append, scanExp, List.head?_cons, List.tail_cons]
      rw [if_pos hc]
      rcases rest with _ | ⟨c1, r1⟩
      · simp [takeDigits] at h
      · simp only [List.head?_cons, List.tail_cons] at h
        simp only [List.cons_append, List.head?_cons, List.tail_cons]
        by_cases h1 : (some c1 : Option Char) = some '+'
        · rw [if_pos h1] at h ⊢
          simp only at h ⊢
          by_cases hd : (takeDigits r1).1 = []
          · rw [if_pos hd] at h; cases h
          · rw [if_neg hd] at h
            rw [takeDigits_append ext hext r1]
            simp only
            rw [if_neg hd]
            obtain ⟨hv, hr⟩ : Int.ofNat (digitsToNat (takeDigits r1).1) = v ∧
                (takeDigits r1).2 = r := by simpa using h
            rw [hv, hr]
            simp
        · rw [if_neg h1] at h ⊢
          by_cases h2 : (some c1 : Option Char) = some '-'
          · rw [if_pos h2] at h ⊢
            simp only at h ⊢
            by_cases hd : (takeDigits r1).1 = []
            · rw [if_pos hd] at h; cases h
            · rw [if_neg hd] at h
              rw [takeDigits_append ext hext r1]
              simp only
              rw [if_neg hd]
              obtain ⟨hv, hr⟩ : -Int.ofNat (digitsToNat (takeDigits r1).1) = v ∧
                  (takeDigits r1).2 = r := by simpa using h
              rw [← hv, ← hr]
              simp
          · rw [if_neg h2] at h ⊢
            simp only at h ⊢
            by_cases hd : (takeDigits (c1 :: r1)).1 = []
            · rw [if_pos hd] at h; cases h
            · rw [if_neg hd] at h
              rw [show (c1 :: (r1 ++ ext) : List Char) = (c1 :: r1) ++ ext from rfl,
                takeDigits_append ext hext (c1 :: r1)]
              simp only
              rw [if_neg hd]
              obtain ⟨hv, hr⟩ : Int.ofNat (digitsToNat (takeDigits (c1 :: r1)).1) = v ∧
                  (takeDigits (c1 :: r1)).2 = r := by simpa using h
              rw [hv, hr]
              simp
    · rw [if_neg hc] at h; cases h

theorem scanExp_append_none (ext : List Char) (hext : ∀ c ∈ ext, isJsonWs c)
    (cs : List Char) (h : scanExp cs = none) :
    scanExp (cs ++ ext) = none := by
  rcases cs with _ | ⟨c, rest⟩
  · simp only [List.nil_append, scanExp]
    rw [if_neg ?_]
    push_neg
    exact ⟨ws_head_ne ext hext 'e' (by decide), ws_head_ne ext hext 'E' (by decide)⟩
  · simp only [scanExp, List.head?_cons, List.tail_cons] at h
    simp only [List.cons_append, scanExp, List.head?_cons, List.tail_cons]
    by_cases hc : (some c : Option Char) = some 'e' ∨ (some c : Option Char) = some 'E'
    · rw [if_pos hc] at h ⊢
      rcases rest with _ | ⟨c1, r1⟩
      · clear h
        simp only [List.tail_nil, List.nil_append]
        rw [if_neg (ws_head_ne ext hext '+' (by decide)),
          if_neg (ws_head_ne ext hext '-' (by decide))]
        simp only
        rcases hext2 : ext with _ | ⟨w, ws'⟩
        · simp [takeDigits]
        · subst hext2
          have hw := (ws_char_facts w (hext w (List.mem_cons_self w ws'))).1
          rw [if_pos (by rw [takeDigits_cons]; simp [hw])]
      · simp only [List.head?_cons, List.tail_cons] at h
        simp only [List.cons_append, List.head?_cons, List.tail_cons]
        by_cases h1 : (some c1 : Option Char) = some '+'
        · rw [if_pos h1] at h ⊢
          simp only at h ⊢
          by_cases hd : (takeDigits r1).1 = []
          · rw [takeDigits_append ext hext r1]
            simp only
            rw [if_pos hd]
          · rw [if_neg hd] at h; cases h
        · rw [if_neg h1] at h ⊢
          by_cases h2 : (some c1 : Option Char) = some '-'
          · rw [if_pos h2] at h ⊢
            simp only at h ⊢
            by_cases hd : (takeDigits r1).1 = []
            · rw [takeDigits_append ext hext r1]
              simp only
              rw [if_pos hd]
            · rw [if_neg hd] at h; cases h
          · rw [if_neg h2] at h ⊢
            simp only at h ⊢
            by_cases hd : (takeDigits (c1 :: r1)).1 = []
            · rw [show (c1 :: (r1 ++ ext) : List Char) = (c1 :: r1) ++ ext from rfl,
                takeDigits_append ext hext (c1 :: r1)]
              simp only
              rw [if_pos hd]
            · rw [if_neg hd] at h; cases h
    · rw [if_neg hc]


theorem scanNumber_append_some (ext : List Char) (hext : ∀ c ∈ ext, isJsonWs c)
    (cs : List Char) (v : JsonValue) (r : List Char) (k : Nat)
    (h : scanNumber cs = some (v, r, k)) :
    ∃ k', scanNumber (cs ++ ext) = some (v, r ++ ext, k') := by
  rcases cs with _ | ⟨c, rest⟩
  · simp [scanNumber, scanIntPart] at h
  · simp only [scanNumber, List.head?_cons, List.tail_cons] at h
    simp only [List.cons_append, scanNumber, List.head?_cons, List.tail_cons]
    by_cases hm : (some c : Option Char) = some '-'
    · rw [if_pos hm] at h ⊢
      simp only at h ⊢
      cases hip : scanIntPart rest with
      | none => rw [hip] at h; cases h
      | some p =>
        obtain ⟨ids, cs2⟩ := p
        rw [hip] at h
        simp only at h
        rw [scanIntPart_append_some ext hext rest ids cs2 hip]
        simp only
        cases hfr : scanFrac cs2 with
        | none =>
          rw [hfr] at h
          simp only at h
          rw [scanFrac_append_none ext hext cs2 hfr]
          simp only
          cases hex : scanExp cs2 with
          | none =>
            rw [hex] at h
            simp only at h
            rw [scanExp_append_none ext hext cs2 hex]
            simp only
            obtain ⟨hv, hr, hk⟩ : JsonValue.jint (-Int.ofNat (digitsToNat ids)) = v ∧
                cs2 = r ∧ (c :: rest).length - cs2.length = k := by simpa using h
            exact ⟨(c :: (rest ++ ext)).length - (cs2 ++ ext).length, by rw [← hv, ← hr]; simp⟩
          | some q =>
            obtain ⟨ev, r2⟩ := q
            rw [hex] at h
            simp only at h
            rw [scanExp_append_some ext hext cs2 ev r2 hex]
            simp only
            obtain ⟨hv, hr, hk⟩ : mkFloat true (digitsToNat (ids ++ [])) (ev - 0) = v ∧
                r2 = r ∧ (c :: rest).length - r2.length = k := by simpa using h
            exact ⟨(c :: (rest ++ ext)).length - (r2 ++ ext).length, by rw [← hv, ← hr]; simp⟩
        | some p2 =>
          obtain ⟨fds, r1⟩ := p2
          rw [hfr] at h
          simp only at h
          rw [scanFrac_append_some ext hext cs2 fds r1 hfr]
          simp only
          cases hex : scanExp r1 with
          | none =>
            rw [hex] at h
            simp only at h
            rw [scanExp_append_none ext hext r1 hex]
            simp only
            obtain ⟨hv, hr, hk⟩ : mkFloat true (digitsToNat (ids ++ fds))
                (0 - Int.ofNat fds.length) = v ∧
                r1 = r ∧ (c :: rest).length - r1.length = k := by simpa using h
            exact ⟨(c :: (rest ++ ext)).length - (r1 ++ ext).length, by rw [← hv, ← hr]; simp⟩
          | some q =>
            obtain ⟨ev, r2⟩ := q
            rw [hex] at h
            simp only at h
            rw [scanExp_append_some ext hext r1 ev r2 hex]
            simp only
            obtain ⟨hv, hr, hk⟩ : mkFloat true (digitsToNat (ids ++ fds))
                (ev - Int.ofNat fds.length) = v ∧
                r2 = r ∧ (c :: rest).length - r2.length = k := by simpa using h
            exact ⟨(c :: (rest ++ ext)).length - (r2 ++ ext).length, by rw [← hv, ← hr]; simp⟩
    · rw [if_neg hm] at h ⊢
      simp only at h ⊢
      cases hip : scanIntPart (c :: rest) with
      | none => rw [hip] at h; cases h
      | some p =>
        obtain ⟨ids, cs2⟩ := p
        rw [hip] at h
        simp only at h
        rw [show (c :: (rest ++ ext) : List Char) = (c :: rest) ++ ext from rfl,
          scanIntPart_append_some ext hext (c :: rest) ids cs2 hip]
        simp only
        cases hfr : scanFrac cs2 with
        | none =>
          rw [hfr] at h
          simp only at h
          rw [scanFrac_append_none ext hext cs2 hfr]
          simp only
          cases hex : scanExp cs2 with
          | none =>
            rw [hex] at h
            simp only at h
            rw [scanExp_append_none ext hext cs2 hex]
            simp only
            obtain ⟨hv, hr, hk⟩ : JsonValue.jint (Int.ofNat (digitsToNat ids)) = v ∧
                cs2 = r ∧ (c :: rest).length - cs2.length = k := by simpa using h
            exact ⟨(c :: (rest ++ ext)).length - (cs2 ++ ext).length, by rw [← hv, ← hr]; simp⟩
          | some q =>
            obtain ⟨ev, r2⟩ := q
            rw [hex] at h
            simp only at h
            rw [scanExp_append_some ext hext cs2 ev r2 hex]
            simp only
            obtain ⟨hv, hr, hk⟩ : mkFloat false (digitsToNat (ids ++ [])) (ev - 0) = v ∧
                r2 = r ∧ (c :: rest).length - r2.length = k := by simpa using h
            exact ⟨(c :: (rest ++ ext)).length - (r2 ++ ext).length, by rw [← hv, ← hr]; simp⟩
        | some p2 =>
          obtain ⟨fds, r1⟩ := p2
          rw [hfr] at h
          simp only at h
          rw [scanFrac_append_some ext hext cs2 fds r1 hfr]
          simp only
          cases hex : scanExp r1 with
          | none =>
            rw [hex] at h
            simp only at h
            rw [scanExp_append_none ext hext r1 hex]
            simp only
            obtain ⟨hv, hr, hk⟩ : mkFloat false (digitsToNat (ids ++ fds))
                (0 - Int.ofNat fds.length) = v ∧
                r1 = r ∧ (c :: rest).length - r1.length = k := by simpa using h
            exact ⟨(c :: (rest ++ ext)).length - (r1 ++ ext).length, by rw [← hv, ← hr]; simp⟩
          | some q =>
            obtain ⟨ev, r2⟩ := q
            rw [hex] at h
            simp only at h
            rw [scanExp_append_some ext hext r1 ev r2 hex]
            simp only
            obtain ⟨hv, hr, hk⟩ : mkFloat false (digitsToNat (ids ++ fds))
                (ev - Int.ofNat fds.length) = v ∧
                r2 = r ∧ (c :: rest).length - r2.length = k := by simpa using h
            exact ⟨(c :: (rest ++ ext)).length - (r2 ++ ext).length, by rw [← hv, ← hr]; simp⟩

theorem scanNumber_append_none (ext : List Char) (hext : ∀ c ∈ ext, isJsonWs c)
    (cs : List Char) (h : scanNumber cs = none) :
    scanNumber (cs ++ ext) = none := by
  rcases cs with _ | ⟨c, rest⟩
  · simp only [List.nil_append, scanNumber]
    rw [if_neg (ws_head_ne ext hext '-' (by decide))]
    simp only
    rw [show (ext : List Char) = [] ++ ext from rfl,
      scanIntPart_append_none ext hext [] (by simp [scanIntPart])]
  · simp only [scanNumber, List.head?_cons, List.tail_cons] at h
    simp only [List.cons_append, scanNumber, List.head?_cons, List.tail_cons]
    by_cases hm : (some c : Option Char) = some '-'
    · rw [if_pos hm] at h ⊢
      simp only at h ⊢
      cases hip : scanIntPart rest with
      | none => rw [scanIntPart_append_none ext hext rest hip]
      | some p =>
        obtain ⟨ids, cs2⟩ := p
        rw [hip] at h
        simp only at h
        cases hfr : scanFrac cs2 with
        | none =>
          rw [hfr] at h
          simp only at h
          cases hex : scanExp cs2 with
          | none => rw [hex] at h; simp at h
          | some q => obtain ⟨ev, r2⟩ := q; rw [hex] at h; simp at h
        | some p2 =>
          obtain ⟨fds, r1⟩ := p2
          rw [hfr] at h
          simp only at h
          cases hex : scanExp r1 with
          | none => rw [hex] at h; simp at h
          | some q => obtain ⟨ev, r2⟩ := q; rw [hex] at h; simp at h
    · rw [if_neg hm] at h ⊢
      simp only at h ⊢
      cases hip : scanIntPart (c :: rest) with
      | none => rw [show (c :: (rest ++ ext) : List Char) = (c :: rest) ++ ext from rfl,
          scanIntPart_append_none ext hext (c :: rest) hip]
      | some p =>
        obtain ⟨ids, cs2⟩ := p
        rw [hip] at h
        simp only at h
        cases hfr : scanFrac cs2 with
        | none =>
          rw [hfr] at h
          simp only at h
          cases hex : scanExp cs2 with
          | none => rw [hex] at h; simp at h
          | some q => obtain ⟨ev, r2⟩ := q; rw [hex] at h; simp at h
        | some p2 =>
          obtain ⟨fds, r1⟩ := p2
          rw [hfr] at h
          simp only at h
          cases hex : scanExp r1 with
          | none => rw [hex] at h; simp at h
          | some q => obtain ⟨ev, r2⟩ := q; rw [hex] at h; simp at h

theorem scanOnce_nil (f : Nat) (pos : Nat) (v : JsonValue) (r : List Char) (q : Nat) :
    scanOnce f [] pos ≠ .ok (v, r, q) := by
  cases f with
  | zero => rw [scanOnce.eq_1]; simp
  | succ f =>
    rw [scanOnce.eq_5 [] pos f (by intro rest h; cases h) (by intro rest h; cases h)
      (by intro rest h; cases h)]
    simp [scanNumber, scanIntPart]

theorem arrayItems_nil (f : Nat) (pos : Nat) (acc : List JsonValue) (v : JsonValue)
    (r : List Char) (q : Nat) : arrayItems f [] pos acc ≠ .ok (v, r, q) := by
  cases f with
  | zero => rw [arrayItems.eq_1]; simp
  | succ f =>
    rw [arrayItems.eq_2]
    intro h
    cases hso : scanOnce f [] pos with
    | error e => rw [hso] at h; simp at h
    | ok t => exact scanOnce_nil f pos t.1 t.2.1 t.2.2 hso

theorem len_ge_of_take_eq (cs lit : List Char) (n : Nat) (hn : lit.length = n)
    (h : cs.take n = lit) : n ≤ cs.length := by
  have hl : (cs.take n).length = n := by rw [h, hn]
  simp only [List.length_take] at hl
  omega

theorem parser_ok_extend (ext : List Char) (hext : ∀ c ∈ ext, isJsonWs c) : ∀ f : Nat,
    (∀ cs pos v r q, scanOnce f cs pos = .ok (v, r, q) →
      ∀ (k : Nat) (pos' : Nat), ∃ q', scanOnce (f + k) (cs ++ ext) pos' = .ok (v, r ++ ext, q')) ∧
    (∀ cs pos v r q, parseObject f cs pos = .ok (v, r, q) →
      ∀ (k : Nat) (pos' : Nat), ∃ q', parseObject (f + k) (cs ++ ext) pos' = .ok (v, r ++ ext, q')) ∧
    (∀ cs pos pairs v r q, objectItems f cs pos pairs = .ok (v, r, q) →
      ∀ (k : Nat) (pos' : Nat), ∃ q', objectItems (f + k) (cs ++ ext) pos' pairs = .ok (v, r ++ ext, q')) ∧
    (∀ cs pos v r q, parseArray f cs pos = .ok (v, r, q) →
      ∀ (k : Nat) (pos' : Nat), ∃ q', parseArray (f + k) (cs ++ ext) pos' = .ok (v, r ++ ext, q')) ∧
    (∀ cs pos acc v r q, arrayItems f cs pos acc = .ok (v, r, q) →
      ∀ (k : Nat) (pos' : Nat), ∃ q', arrayItems (f + k) (cs ++ ext) pos' acc = .ok (v, r ++ ext, q')) := by
  intro f
  induction f with
  | zero =>
    refine ⟨?_, ?_, ?_, ?_, ?_⟩
    · intro cs pos v r q h; rw [scanOnce.eq_1] at h; cases h
    · intro cs pos v r q h; rw [parseObject.eq_1] at h; cases h
    · intro cs pos pairs v r q h; rw [objectItems.eq_1] at h; cases h
    · intro cs pos v r q h; rw [parseArray.eq_1] at h; cases h
    · intro cs pos acc v r q h; rw [arrayItems.eq_1] at h; cases h
  | succ f ih =>
    obtain ⟨ihS, ihO, ihI, ihA, ihE⟩ := ih
    have hfk : ∀ k : Nat, f + 1 + k = (f + k) + 1 := by omega
    refine ⟨?_, ?_, ?_, ?_, ?_⟩
    · -- scanOnce
      intro cs pos v r q h k pos'
      rw [hfk k]
      rcases cs with _ | ⟨c, rest⟩
      · exact absurd h (scanOnce_nil (f + 1) pos v r q)
      · by_cases hcq : c = '"'
        · subst hcq
          rw [scanOnce.eq_2] at h
          cases hss : scanString rest (pos + 1) [] with
          | error e => rw [hss] at h; cases h
          | ok t =>
            obtain ⟨s2, r2, p2⟩ := t
            rw [hss] at h
            simp only at h
            obtain ⟨hv, hr, hq⟩ : JsonValue.str s2 = v ∧ r2 = r ∧ p2 = q := by simpa using h
            obtain ⟨q2, hq2⟩ := scanString_append ext rest (pos + 1) [] s2 r2 p2 hss (pos' + 1)
            refine ⟨q2, ?_⟩
            rw [List.cons_append, scanOnce.eq_2, hq2]
            simp only
            rw [hv, hr]
        · by_cases hcb : c = '{'
          · subst hcb
            rw [scanOnce.eq_3] at h
            obtain ⟨q', hq'⟩ := ihO rest (pos + 1) v r q h k (pos' + 1)
            exact ⟨q', by rw [List.cons_append, scanOnce.eq_3]; exact hq'⟩
          · by_cases hck : c = '['
            · subst hck
              rw [scanOnce.eq_4] at h
              obtain ⟨q', hq'⟩ := ihA rest (pos + 1) v r q h k (pos' + 1)
              exact ⟨q', by rw [List.cons_append, scanOnce.eq_4]; exact hq'⟩
            · have h1 : ∀ r2 : List Char, c :: rest = '"' :: r2 → False := by
                intro r2 hh; injection hh with hh1 _; exact hcq hh1
              have h2 : ∀ r2 : List Char, c :: rest = '{' :: r2 → False := by
                intro r2 hh; injection hh with hh1 _; exact hcb hh1
              have h3 : ∀ r2 : List Char, c :: rest = '[' :: r2 → False := by
                intro r2 hh; injection hh with hh1 _; exact hck hh1
              have h1' : ∀ r2 : List Char, c :: (rest ++ ext) = '"' :: r2 → False := by
                intro r2 hh; injection hh with hh1 _; exact hcq hh1
              have h2' : ∀ r2 : List Char, c :: (rest ++ ext) = '{' :: r2 → False := by
                intro r2 hh; injection hh with hh1 _; exact hcb hh1
              have h3' : ∀ r2 : List Char, c :: (rest ++ ext) = '[' :: r2 → False := by
                intro r2 hh; injection hh with hh1 _; exact hck hh1
              rw [scanOnce.eq_5 (c :: rest) pos f h1 h2 h3] at h
              rw [List.cons_append, scanOnce.eq_5 (c :: (rest ++ ext)) pos' (f + k) h1' h2' h3']
              rw [show (c :: (rest ++ ext) : List Char) = (c :: rest) ++ ext from rfl]
              by_cases t1 : (c :: rest).take 4 = ['n', 'u', 'l', 'l']
              · rw [if_pos t1] at h
                rw [if_pos (take_append_eq_lit _ ext _ 4 (by rfl) t1)]
                obtain ⟨hv, hr, hq⟩ : JsonValue.null = v ∧ (c :: rest).drop 4 = r ∧
                    pos + 4 = q := by simpa using h
                refine ⟨pos' + 4, ?_⟩
                rw [List.drop_append_of_le_length (len_ge_of_take_eq _ _ 4 (by rfl) t1), hv, hr]
              · rw [if_neg t1] at h
                rw [if_neg (take_append_ne_lit _ ext _ 4 (by decide) hext t1)]
                by_cases t2 : (c :: rest).take 4 = ['t', 'r', 'u', 'e']
                · rw [if_pos t2] at h
                  rw [if_pos (take_append_eq_lit _ ext _ 4 (by rfl) t2)]
                  obtain ⟨hv, hr, hq⟩ : JsonValue.bool true = v ∧ (c :: rest).drop 4 = r ∧
                      pos + 4 = q := by simpa using h
                  refine ⟨pos' + 4, ?_⟩
                  rw [List.drop_append_of_le_length (len_ge_of_take_eq _ _ 4 (by rfl) t2), hv, hr]
                · rw [if_neg t2] at h
                  rw [if_neg (take_append_ne_lit _ ext _ 4 (by decide) hext t2)]
                  by_cases t3 : (c :: rest).take 5 = ['f', 'a', 'l', 's', 'e']
                  · rw [if_pos t3] at h
                    rw [if_pos (take_append_eq_lit _ ext _ 5 (by rfl) t3)]
                    obtain ⟨hv, hr, hq⟩ : JsonValue.bool false = v ∧ (c :: rest).drop 5 = r ∧
                        pos + 5 = q := by simpa using h
                    refine ⟨pos' + 5, ?_⟩
                    rw [List.drop_append_of_le_length (len_ge_of_take_eq _ _ 5 (by rfl) t3), hv, hr]
                  · rw [if_neg t3] at h
                    rw [if_neg (take_append_ne_lit _ ext _ 5 (by decide) hext t3)]
                    cases hn : scanNumber (c :: rest) with
                    | some t =>
                      obtain ⟨v2, r2, k2⟩ := t
                      rw [hn] at h
                      simp only at h
                      obtain ⟨hv, hr, hq⟩ : v2 = v ∧ r2 = r ∧ pos + k2 = q := by simpa using h
                      obtain ⟨k2', hk2'⟩ :=
                        scanNumber_append_some ext hext (c :: rest) v2 r2 k2 hn
                      rw [hk2']
                      refine ⟨pos' + k2', ?_⟩
                      simp only
                      rw [hv, hr]
                    | none =>
                      rw [hn] at h
                      simp only at h
                      rw [scanNumber_append_none ext hext (c :: rest) hn]
                      simp only
                      by_cases t4 : (c :: rest).take 3 = ['N', 'a', 'N']
                      · rw [if_pos t4] at h
                        rw [if_pos (take_append_eq_lit _ ext _ 3 (by rfl) t4)]
                        obtain ⟨hv, hr, hq⟩ : JsonValue.nan = v ∧ (c :: rest).drop 3 = r ∧
                            pos + 3 = q := by simpa using h
                        refine ⟨pos' + 3, ?_⟩
                        rw [List.drop_append_of_le_length (len_ge_of_take_eq _ _ 3 (by rfl) t4),
                          hv, hr]
                      · rw [if_neg t4] at h
                        rw [if_neg (take_append_ne_lit _ ext _ 3 (by decide) hext t4)]
                        by_cases t5 : (c :: rest).take 8 =
                            ['I', 'n', 'f', 'i', 'n', 'i', 't', 'y']
                        · rw [if_pos t5] at h
                          rw [if_pos (take_append_eq_lit _ ext _ 8 (by rfl) t5)]
                          obtain ⟨hv, hr, hq⟩ : JsonValue.inf false = v ∧
                              (c :: rest).drop 8 = r ∧ pos + 8 = q := by simpa using h
                          refine ⟨pos' + 8, ?_⟩
                          rw [List.drop_append_of_le_length (len_ge_of_take_eq _ _ 8 (by rfl) t5),
                            hv, hr]
                        · rw [if_neg t5] at h
                          rw [if_neg (take_append_ne_lit _ ext _ 8 (by decide) hext t5)]
                          by_cases t6 : (c :: rest).take 9 =
                              ['-', 'I', 'n', 'f', 'i', 'n', 'i', 't', 'y']
                          · rw [if_pos t6] at h
                            rw [if_pos (take_append_eq_lit _ ext _ 9 (by rfl) t6)]
                            obtain ⟨hv, hr, hq⟩ : JsonValue.inf true = v ∧
                                (c :: rest).drop 9 = r ∧ pos + 9 = q := by simpa using h
                            refine ⟨pos' + 9, ?_⟩
                            rw [List.drop_append_of_le_length
                              (len_ge_of_take_eq _ _ 9 (by rfl) t6), hv, hr]
                          · rw [if_neg t6] at h
                            cases h
    · -- parseObject
      intro cs pos v r q h k pos'
      rw [hfk k]
      rw [parseObject.eq_2] at h
      split at h
      · rename_i rest heq
        obtain ⟨hv, hr, hq⟩ : JsonValue.obj [] = v ∧ rest = r ∧ (skipWs cs pos).2 + 1 = q := by
          simpa using h
        obtain ⟨q2, hq2⟩ := skipWs_append_stop cs pos '}' rest (skipWs cs pos).2
          (by rw [← heq]) ext pos'
        refine ⟨q2 + 1, ?_⟩
        rw [parseObject.eq_2, hq2]
        simp only
        rw [hv, hr]
      · rename_i rest heq
        obtain ⟨q2, hq2⟩ := skipWs_append_stop cs pos '"' rest (skipWs cs pos).2
          (by rw [← heq]) ext pos'
        obtain ⟨q', hq'⟩ := ihI rest ((skipWs cs pos).2 + 1) [] v r q h k (q2 + 1)
        refine ⟨q', ?_⟩
        rw [parseObject.eq_2, hq2]
        simp only
        exact hq'
      · cases h
    · -- objectItems
      intro cs pos pairs v r q h k pos'
      rw [hfk k]
      rw [objectItems.eq_2] at h
      cases hss : scanString cs pos [] with
      | error e => rw [hss] at h; cases h
      | ok t =>
        obtain ⟨key, cs1, p1⟩ := t
        rw [hss] at h
        simp only at h
        obtain ⟨p1', hss'⟩ := scanString_append ext cs pos [] key cs1 p1 hss pos'
        rw [objectItems.eq_2, hss']
        simp only
        split at h
        · rename_i cs3 heq
          obtain ⟨q2, hq2⟩ := skipWs_append_stop cs1 p1 ':' cs3 (skipWs cs1 p1).2
            (by rw [← heq]) ext p1'
          rw [hq2]
          simp only
          cases hso : scanOnce f (skipWs cs3 ((skipWs cs1 p1).2 + 1)).1
              (skipWs cs3 ((skipWs cs1 p1).2 + 1)).2 with
          | error e => rw [hso] at h; cases h
          | ok t2 =>
            obtain ⟨v0, cs5, p5⟩ := t2
            rw [hso] at h
            simp only at h
            rcases hsk4 : (skipWs cs3 ((skipWs cs1 p1).2 + 1)).1 with _ | ⟨c4, r4⟩
            · rw [hsk4] at hso
              exact absurd hso (scanOnce_nil f _ v0 cs5 p5)
            · rw [hsk4] at hso
              obtain ⟨q4, hq4⟩ := skipWs_append_stop cs3 ((skipWs cs1 p1).2 + 1) c4 r4
                (skipWs cs3 ((skipWs cs1 p1).2 + 1)).2 (by rw [← hsk4]) ext (q2 + 1)
              obtain ⟨p5', hso'⟩ := ihS (c4 :: r4) _ v0 cs5 p5 hso k q4
              rw [List.cons_append] at hso'
              rw [hq4]
              simp only
              rw [hso']
              simp only
              split at h
              · rename_i cs7 heq6
                obtain ⟨hv, hr, hq⟩ : JsonValue.obj (pairsToDict (pairs ++ [(key, v0)])) = v ∧
                    cs7 = r ∧ (skipWs cs5 p5).2 + 1 = q := by simpa using h
                obtain ⟨q6, hq6⟩ := skipWs_append_stop cs5 p5 '}' cs7 (skipWs cs5 p5).2
                  (by rw [← heq6]) ext p5'
                rw [hq6]
                simp only
                exact ⟨q6 + 1, by rw [hv, hr]⟩
              · rename_i cs7 heq6
                obtain ⟨q6, hq6⟩ := skipWs_append_stop cs5 p5 ',' cs7 (skipWs cs5 p5).2
                  (by rw [← heq6]) ext p5'
                rw [hq6]
                simp only
                split at h
                · rename_i cs9 heq8
                  obtain ⟨q8, hq8⟩ := skipWs_append_stop cs7 ((skipWs cs5 p5).2 + 1) '"' cs9
                    (skipWs cs7 ((skipWs cs5 p5).2 + 1)).2 (by rw [← heq8]) ext (q6 + 1)
                  obtain ⟨q', hq'⟩ := ihI cs9 _ (pairs ++ [(key, v0)]) v r q h k (q8 + 1)
                  rw [hq8]
                  simp only
                  exact ⟨q', hq'⟩
                · simp at h
              · simp at h
        · simp at h
    · -- parseArray
      intro cs pos v r q h k pos'
      rw [hfk k]
      rw [parseArray.eq_2] at h
      split at h
      · rename_i rest heq
        obtain ⟨hv, hr, hq⟩ : JsonValue.arr [] = v ∧ rest = r ∧ (skipWs cs pos).2 + 1 = q := by
          simpa using h
        obtain ⟨q2, hq2⟩ := skipWs_append_stop cs pos ']' rest (skipWs cs pos).2
          (by rw [← heq]) ext pos'
        refine ⟨q2 + 1, ?_⟩
        rw [parseArray.eq_2, hq2]
        simp only
        rw [hv, hr]
      · rename_i hne
        rcases hsk : (skipWs cs pos).1 with _ | ⟨c, rest⟩
        · rw [hsk] at h
          exact absurd h (arrayItems_nil f (skipWs cs pos).2 [] v r q)
        · rw [hsk] at h
          have hc : c ≠ ']' := by
            intro hh
            exact hne rest (by rw [hsk, hh])
          obtain ⟨q2, hq2⟩ := skipWs_append_stop cs pos c rest (skipWs cs pos).2
            (by rw [← hsk]) ext pos'
          obtain ⟨q', hq'⟩ := ihE (c :: rest) (skipWs cs pos).2 [] v r q h k q2
          refine ⟨q', ?_⟩
          rw [parseArray.eq_2, hq2]
          split
          · rename_i rest2 heq2
            injection heq2 with hh hh2
            exact absurd hh hc
          · simpa using hq'
    · -- arrayItems
      intro cs pos acc v r q h k pos'
      rw [hfk k]
      rw [arrayItems.eq_2] at h
      cases hso : scanOnce f cs pos with
      | error e => rw [hso] at h; cases h
      | ok t =>
        obtain ⟨v0, cs1, p1⟩ := t
        rw [hso] at h
        simp only at h
        obtain ⟨p1', hso'⟩ := ihS cs pos v0 cs1 p1 hso k pos'
        rw [arrayItems.eq_2, hso']
        simp only
        split at h
        · rename_i cs3 heq
          obtain ⟨hv, hr, hq⟩ : JsonValue.arr (acc ++ [v0]) = v ∧ cs3 = r ∧
              (skipWs cs1 p1).2 + 1 = q := by simpa using h
          obtain ⟨q2, hq2⟩ := skipWs_append_stop cs1 p1 ']' cs3 (skipWs cs1 p1).2
            (by rw [← heq]) ext p1'
          rw [hq2]
          simp only
          exact ⟨q2 + 1, by rw [hv, hr]⟩
        · rename_i cs3 heq
          obtain ⟨q2, hq2⟩ := skipWs_append_stop cs1 p1 ',' cs3 (skipWs cs1 p1).2
            (by rw [← heq]) ext p1'
          rw [hq2]
          simp only
          rcases hsk3 : (skipWs cs3 ((skipWs cs1 p1).2 + 1)).1 with _ | ⟨c3, r3⟩
          · rw [hsk3] at h
            exact absurd h (arrayItems_nil f _ _ v r q)
          · rw [hsk3] at h
            obtain ⟨q3, hq3⟩ := skipWs_append_stop cs3 ((skipWs cs1 p1).2 + 1) c3 r3
              (skipWs cs3 ((skipWs cs1 p1).2 + 1)).2 (by rw [← hsk3]) ext (q2 + 1)
            obtain ⟨q', hq'⟩ := ihE (c3 :: r3) _ (acc ++ [v0]) v r q h k q3
            rw [hq3]
            exact ⟨q', by simpa using hq'⟩
        · simp at h

theorem string_data_append (a b : String) : (a ++ b).data = a.data ++ b.data := by
  rcases a with ⟨da⟩
  rcases b with ⟨db⟩
  rfl

/-- C10: surrounding JSON whitespace is tolerated: for every string `s` the
decoder accepts and all strings `w1`, `w2` of JSON whitespace characters,
decoding `w1 ++ s ++ w2` succeeds and yields the same decoded document as
`s`. -/
theorem C10_whitespace_tolerated (w1 w2 s : String) (v : JsonValue)
    (hw1 : allJsonWs w1) (hw2 : allJsonWs w2) (h : json_loads s = .ok v) :
    json_loads (w1 ++ s ++ w2) = .ok v := by
  have hdata : (w1 ++ s ++ w2).data = w1.data ++ (s.data ++ w2.data) := by
    rw [string_data_append, string_data_append, List.append_assoc]
  simp only [json_loads] at h
  by_cases hbom : s.data.take 1 = ['\uFEFF']
  · rw [if_pos hbom] at h; cases h
  · rw [if_neg hbom] at h
    rcases hw : skipWs s.data 0 with ⟨b, q0⟩
    rw [hw] at h
    simp only at h
    cases hsc : scanOnce (3 * s.data.length + 3) b q0 with
    | error e => rw [hsc] at h; cases h
    | ok t =>
      obtain ⟨v0, cs2, p2⟩ := t
      rw [hsc] at h
      simp only at h
      rcases hw3 : skipWs cs2 p2 with ⟨rest3, p3⟩
      rw [hw3] at h
      simp only at h
      rcases rest3 with _ | ⟨c3, r3⟩
      · obtain hv : v0 = v := by simpa using h
        subst hv
        rcases hb : b with _ | ⟨c0, r0⟩
        · rw [hb] at hsc
          exact absurd hsc (scanOnce_nil _ q0 v0 cs2 p2)
        · rw [hb] at hsc hw
          have hsne : s.data ≠ [] := by
            intro hnil
            rw [hnil] at hw
            simp [skipWs] at hw
          simp only [json_loads]
          rw [hdata]
          rw [if_neg ?hbome]
          case hbome =>
            rcases hwd : w1.data with _ | ⟨wc, wr⟩
            · simp only [List.nil_append]
              rcases hsd : s.data with _ | ⟨sc, sr⟩
              · exact absurd hsd hsne
              · rw [hsd] at hbom
                simpa using hbom
            · have hwc : isJsonWs wc := hw1 wc (by rw [hwd]; exact List.mem_cons_self wc wr)
              intro hcon
              have : wc = '\uFEFF' := by simpa using hcon
              have := (ws_char_facts wc hwc).2.2.2.2.2.2.2
              exact this ‹wc = '\uFEFF'›
          rw [skipWs_ws_front w1.data (s.data ++ w2.data) hw1 0]
          obtain ⟨q0', hq0'⟩ := skipWs_append_stop s.data 0 c0 r0 q0 hw w2.data
            (0 + w1.data.length)
          rw [hq0']
          simp only
          have hlen : 3 * s.data.length + 3 ≤
              3 * (w1.data ++ (s.data ++ w2.data)).length + 3 := by
            simp [List.length_append]
            omega
          obtain ⟨p2', hsc'⟩ := ((parser_ok_extend w2.data hw2
            (3 * s.data.length + 3)).1) (c0 :: r0) q0 v0 cs2 p2 hsc
            (3 * (w1.data ++ (s.data ++ w2.data)).length + 3 - (3 * s.data.length + 3)) q0'
          rw [List.cons_append] at hsc'
          rw [show 3 * (w1.data ++ (s.data ++ w2.data)).length + 3 =
            3 * s.data.length + 3 + (3 * (w1.data ++ (s.data ++ w2.data)).length + 3 -
              (3 * s.data.length + 3)) from by omega]
          rw [hsc']
          simp only
          obtain ⟨p0, hp0⟩ := skipWs_append_empty cs2 p2 p3 hw3 w2.data p2'
          rw [hp0, skipWs_all w2.data hw2 p0]
      · rw [show (Except.error ⟨"Extra data", p3⟩ :
          Except DecodeErr JsonValue) = Except.error ⟨"Extra data", p3⟩ from rfl] at h
        cases h

theorem C10_witness :
    allJsonWs " " ∧ allJsonWs "\t " ∧ json_loads "1" = .ok (.jint 1) ∧
    json_loads (" " ++ "1" ++ "\t ") = .ok (.jint 1) :=
  ⟨by intro c hc; fin_cases hc <;> rfl, by intro c hc; fin_cases hc <;> rfl, by rfl,
    C10_whitespace_tolerated " " "\t " "1" (.jint 1) (by intro c hc; fin_cases hc <;> rfl)
      (by intro c hc; fin_cases hc <;> rfl) (by rfl)⟩

theorem char_toNat_ofNat (n : Nat) (h : n.isValidChar) : (Char.ofNat n).toNat = n := by
  simp only [Char.ofNat, h, dif_pos]
  rfl

theorem digitChar_toNat (n : Nat) (h : n < 10) : (digitChar n).toNat = 48 + n := by
  simp only [digitChar]
  exact char_toNat_ofNat (48 + n) (Or.inl (by omega))

theorem digitsToNat_append_digit (xs : List Char) (c : Char) :
    digitsToNat (xs ++ [c]) = 10 * digitsToNat xs + digitVal c := by
  simp only [digitsToNat]
  have hfold : ∀ (ys : List Char) (a : Nat),
      List.foldl (fun a c => 10 * a + digitVal c) a (ys ++ [c]) =
      10 * List.foldl (fun a c => 10 * a + digitVal c) a ys + digitVal c := by
    intro ys
    induction ys with
    | nil => intro a; simp
    | cons y ys ihy => intro a; simp only [List.cons_append, List.foldl_cons]; exact ihy _
  exact hfold xs 0

theorem digitsOfF_correct (f : Nat) : ∀ n : Nat, n ≤ f →
    digitsToNat (digitsOfF f n) = n ∧ (∀ c ∈ digitsOfF f n, isDigitC c = true) ∧
    (1 ≤ n → ∀ h, (digitsOfF f n).head? = some h → h ≠ '0') ∧
    digitsOfF f n ≠ [] := by
  induction f with
  | zero =>
    intro n hn
    interval_cases n
    refine ⟨by simp [digitsOfF, digitsToNat, digitVal, digitChar], ?_, ?_,
      by simp [digitsOfF]⟩
    · intro c hc
      simp only [digitsOfF, List.mem_singleton] at hc
      subst hc
      decide
    · intro h1; omega
  | succ f ih =>
    intro n hn
    by_cases hlt : n < 10
    · simp only [digitsOfF, if_pos hlt]
      refine ⟨?_, ?_, ?_, by simp⟩
      · simp only [digitsToNat, List.foldl_cons, List.foldl_nil, digitVal]
        rw [digitChar_toNat n hlt]
        omega
      · intro c hc
        simp only [List.mem_singleton] at hc
        subst hc
        simp only [isDigitC, digitChar_toNat n hlt]
        simp
        omega
      · intro h1 h hh
        simp only [List.head?_cons, Option.some.injEq] at hh
        subst hh
        intro hcon
        have hcc : (digitChar n).toNat = ('0' : Char).toNat := by rw [hcon]
        rw [digitChar_toNat n hlt] at hcc
        have : ('0' : Char).toNat = 48 := by decide
        omega
    · simp only [digitsOfF, if_neg hlt]
      obtain ⟨ih1, ih2, ih3, ih4⟩ := ih (n / 10) (by omega)
      refine ⟨?_, ?_, ?_, by simp [ih4]⟩
      · rw [digitsToNat_append_digit, ih1]
        simp only [digitVal]
        rw [digitChar_toNat (n % 10) (by omega)]
        omega
      · intro c hc
        rcases List.mem_append.mp hc with hc | hc
        · exact ih2 c hc
        · simp only [List.mem_singleton] at hc
          subst hc
          simp only [isDigitC, digitChar_toNat (n % 10) (by omega)]
          simp
          omega
      · intro h1 h hh
        rcases hdo : digitsOfF f (n / 10) with _ | ⟨d0, ds⟩
        · exact absurd hdo ih4
        · rw [hdo] at hh
          simp only [List.cons_append, List.head?_cons, Option.some.injEq] at hh
          subst hh
          exact ih3 (by omega) d0 (by rw [hdo]; rfl)

theorem digitsOf_spec (n : Nat) :
    digitsToNat (digitsOf n) = n ∧ (∀ c ∈ digitsOf n, isDigitC c = true) ∧
    (1 ≤ n → ∀ h, (digitsOf n).head? = some h → h ≠ '0') ∧ digitsOf n ≠ [] :=
  digitsOfF_correct n n le_rfl

theorem takeDigits_all (ds : List Char) (hds : ∀ c ∈ ds, isDigitC c = true)
    (rest : List Char) (hr : ∀ c, rest.head? = some c → isDigitC c = false) :
    takeDigits (ds ++ rest) = (ds, rest) := by
  induction ds with
  | nil =>
    simp only [List.nil_append]
    rcases rest with _ | ⟨c, r⟩
    · rfl
    · rw [takeDigits_cons, if_neg (by simp [hr c rfl])]
  | cons d ds ih =>
    rw [List.cons_append, takeDigits_cons,
      if_pos (hds d (List.mem_cons_self d ds)),
      ih (fun c hc => hds c (List.mem_cons_of_mem d hc)) ]

theorem digits_head_not (m : Nat) (x : Char) (hx : isDigitC x = false) :
    (digitsOf m).head? ≠ some x := by
  obtain ⟨_, h2, _, h4⟩ := digitsOf_spec m
  rcases hd : digitsOf m with _ | ⟨d, ds⟩
  · exact absurd hd h4
  · simp only [List.head?_cons]
    intro hdx
    injection hdx with hdx2
    subst hdx2
    rw [h2 d (by rw [hd]; exact List.mem_cons_self d ds)] at hx
    cases hx

theorem scanIntPart_digits (m : Nat) (rest : List Char)
    (hr : ∀ c, rest.head? = some c → isDigitC c = false) :
    scanIntPart (digitsOf m ++ rest) = some (digitsOf m, rest) := by
  obtain ⟨h1, h2, h3, h4⟩ := digitsOf_spec m
  rcases hd : digitsOf m with _ | ⟨d, ds⟩
  · exact absurd hd h4
  · rw [List.cons_append, scanIntPart_cons]
    by_cases hd0 : d = '0'
    · have hm0 : m = 0 := by
        by_contra hm
        exact h3 (by omega) d (by rw [hd]; rfl) (by rw [hd0])
      have hdz : digitsOf 0 = ['0'] := by decide
      rw [hm0, hdz] at hd
      injection hd with hdd hds2
      rw [if_pos hd0, ← hdd, ← hds2]
      simp
    · rw [if_neg hd0, if_pos (h2 d (by rw [hd]; exact List.mem_cons_self d ds))]
      rw [takeDigits_all ds (fun c hc => h2 c (by rw [hd]; exact List.mem_cons_of_mem d hc))
        rest hr]

theorem stripZeros_self (m : Nat) (e : Int) (h : m % 10 ≠ 0 ∨ m = 0) :
    stripZeros m e = (m, e) := by
  unfold stripZeros
  rcases m with _ | k
  · rfl
  · show stripZerosF (k + 1) (k + 1) e = (k + 1, e)
    rw [stripZerosF]
    rw [if_neg ?_]
    rcases h with h | h
    · intro hcon; exact h hcon.2
    · omega

theorem mkFloat_self (sign : Bool) (m : Nat) (e : Int) (h : floatOk m e) :
    mkFloat sign m e = .jfloat sign m e := by
  have hsz : m % 10 ≠ 0 ∨ m = 0 := by
    by_cases hm : m = 0
    · right; exact hm
    · left; intro hc; exact hm (h.2 hc)
  unfold mkFloat
  rw [stripZeros_self m e hsz]
  simp only
  by_cases hm : m = 0
  · rw [if_pos hm, hm, h.1 hm]
  · rw [if_neg hm]

theorem digits_append_head_not (m : Nat) (x : Char) (hx : isDigitC x = false)
    (rest : List Char) : (digitsOf m ++ rest).head? ≠ some x := by
  obtain ⟨_, h2, _, h4⟩ := digitsOf_spec m
  rcases hd : digitsOf m with _ | ⟨d, ds⟩
  · exact absurd hd h4
  · simp only [List.cons_append, List.head?_cons]
    intro hdx
    injection hdx with hdx2
    subst hdx2
    rw [h2 d (by rw [hd]; exact List.mem_cons_self d ds)] at hx
    cases hx

theorem scanFrac_none_at (cs : List Char) (h : ∀ c, cs.head? = some c → c ≠ '.') :
    scanFrac cs = none := by
  unfold scanFrac
  rcases cs with _ | ⟨c, r⟩
  · simp
  · rw [if_neg (fun hcon => h c rfl (Option.some.inj (by simpa using hcon)))]

theorem scanExp_none_at (cs : List Char)
    (h : ∀ c, cs.head? = some c → c ≠ 'e' ∧ c ≠ 'E') : scanExp cs = none := by
  unfold scanExp
  rcases cs with _ | ⟨c, r⟩
  · simp
  · rw [if_neg ?_]
    intro hcon
    rcases hcon with hcon | hcon
    · exact (h c rfl).1 (Option.some.inj (by simpa using hcon))
    · exact (h c rfl).2 (Option.some.inj (by simpa using hcon))

theorem scanExp_eRepr (e : Int) (rest : List Char)
    (hr : ∀ c, rest.head? = some c → isDigitC c = false) :
    scanExp ('e' :: (intRepr e ++ rest)) = some (e, rest) := by
  unfold scanExp
  have hc : ('e' :: (intRepr e ++ rest)).head? = some 'e' ∨
      ('e' :: (intRepr e ++ rest)).head? = some 'E' := Or.inl rfl
  rw [if_pos hc]
  simp only [List.tail_cons]
  unfold intRepr
  by_cases he : e < 0
  · rw [if_pos he]
    simp only [List.cons_append]
    have h1 : ¬ (('-' :: (digitsOf e.natAbs ++ rest)).head? = some '+') :=
      fun hcon => absurd (Option.some.inj hcon) (by decide)
    have h2 : ('-' :: (digitsOf e.natAbs ++ rest)).head? = some '-' := rfl
    rw [if_neg h1, if_pos h2]
    simp only [List.tail_cons]
    rw [takeDigits_all (digitsOf e.natAbs) (digitsOf_spec e.natAbs).2.1 rest hr]
    simp only
    rw [if_neg (digitsOf_spec e.natAbs).2.2.2]
    rw [if_pos True.intro]
    rw [(digitsOf_spec e.natAbs).1]
    simp only [Option.some.injEq, Prod.mk.injEq]
    exact ⟨by rw [Int.ofNat_eq_coe]; omega, by simp⟩
  · rw [if_neg he]
    rw [if_neg (digits_append_head_not e.natAbs '+' (by decide) rest),
        if_neg (digits_append_head_not e.natAbs '-' (by decide) rest)]
    simp only
    rw [takeDigits_all (digitsOf e.natAbs) (digitsOf_spec e.natAbs).2.1 rest hr]
    simp only
    rw [if_neg (digitsOf_spec e.natAbs).2.2.2]
    rw [if_neg Bool.false_ne_true]
    rw [(digitsOf_spec e.natAbs).1]
    simp only [Option.some.injEq, Prod.mk.injEq]
    exact ⟨by rw [Int.ofNat_eq_coe]; omega, by simp⟩

theorem scanNumber_jint (n : Int) (rest : List Char)
    (hb : ∀ c, rest.head? = some c →
      isDigitC c = false ∧ c ≠ '.' ∧ c ≠ 'e' ∧ c ≠ 'E') :
    scanNumber (intRepr n ++ rest) = some (.jint n, rest, (intRepr n).length) := by
  have hbd : ∀ c, rest.head? = some c → isDigitC c = false := fun c hc => (hb c hc).1
  have hfr : scanFrac rest = none := scanFrac_none_at rest (fun c hc => (hb c hc).2.1)
  have hex : scanExp rest = none :=
    scanExp_none_at rest (fun c hc => ⟨(hb c hc).2.2.1, (hb c hc).2.2.2⟩)
  unfold intRepr
  by_cases hn : n < 0
  · rw [if_pos hn]
    simp only [List.cons_append]
    unfold scanNumber
    have hm : ('-' :: (digitsOf n.natAbs ++ rest)).head? = some '-' := rfl
    rw [if_pos hm]
    simp only [List.tail_cons]
    rw [scanIntPart_digits n.natAbs rest hbd]
    simp only
    rw [hfr]
    simp only
    rw [hex]
    simp only
    rw [if_pos True.intro]
    rw [(digitsOf_spec n.natAbs).1]
    simp only [Option.some.injEq, Prod.mk.injEq, List.length_cons, List.length_append]
    refine ⟨congrArg JsonValue.jint (by rw [Int.ofNat_eq_coe]; omega), trivial, by omega⟩
  · rw [if_neg hn]
    unfold scanNumber
    rw [if_neg (digits_append_head_not n.natAbs '-' (by decide) rest)]
    simp only
    rw [scanIntPart_digits n.natAbs rest hbd]
    simp only
    rw [hfr]
    simp only
    rw [hex]
    simp only
    rw [if_neg Bool.false_ne_true]
    rw [(digitsOf_spec n.natAbs).1]
    simp only [Option.some.injEq, Prod.mk.injEq, List.length_append]
    refine ⟨congrArg JsonValue.jint (by rw [Int.ofNat_eq_coe]; omega), trivial, by omega⟩

theorem scanNumber_jfloat (sign : Bool) (m : Nat) (e : Int) (rest : List Char)
    (hfok : floatOk m e)
    (hb : ∀ c, rest.head? = some c →
      isDigitC c = false ∧ c ≠ '.' ∧ c ≠ 'e' ∧ c ≠ 'E') :
    scanNumber (dumpNum sign m e ++ rest) =
      some (.jfloat sign m e, rest, (dumpNum sign m e).length) := by
  have hbd : ∀ c, rest.head? = some c → isDigitC c = false := fun c hc => (hb c hc).1
  have hipd : ∀ c, ('e' :: (intRepr e ++ rest)).head? = some c → isDigitC c = false := by
    intro c hc
    injection hc with hc2
    subst hc2
    decide
  have hfr : scanFrac ('e' :: (intRepr e ++ rest)) = none := by
    refine scanFrac_none_at _ ?_
    intro c hc
    injection hc with hc2
    subst hc2
    decide
  have hexr := scanExp_eRepr e rest hbd
  unfold dumpNum
  cases sign with
  | true =>
    simp only [if_pos True.intro, List.cons_append, List.nil_append, List.append_assoc]
    unfold scanNumber
    have hm : ('-' :: (digitsOf m ++ ('e' :: (intRepr e ++ rest)))).head? = some '-' := rfl
    rw [if_pos hm]
    simp only [List.tail_cons]
    rw [scanIntPart_digits m ('e' :: (intRepr e ++ rest)) hipd]
    simp only
    rw [hfr]
    simp only
    rw [hexr]
    simp only [Option.getD_some, Option.getD_none, List.append_nil, List.length_nil]
    rw [(digitsOf_spec m).1]
    rw [show (Int.ofNat 0 : Int) = 0 from rfl, sub_zero]
    rw [mkFloat_self true m e hfok]
    simp only [Option.some.injEq, Prod.mk.injEq, List.length_cons, List.length_append]
    exact ⟨trivial, trivial, by omega⟩
  | false =>
    simp only [if_neg Bool.false_ne_true, List.cons_append, List.nil_append, List.append_assoc]
    unfold scanNumber
    rw [if_neg (digits_append_head_not m '-' (by decide) ('e' :: (intRepr e ++ rest)))]
    simp only
    rw [scanIntPart_digits m ('e' :: (intRepr e ++ rest)) hipd]
    simp only
    rw [hfr]
    simp only
    rw [hexr]
    simp only [Option.getD_some, Option.getD_none, List.append_nil, List.length_nil]
    rw [(digitsOf_spec m).1]
    rw [show (Int.ofNat 0 : Int) = 0 from rfl, sub_zero]
    rw [mkFloat_self false m e hfok]
    simp only [Option.some.injEq, Prod.mk.injEq, List.length_cons, List.length_append]
    exact ⟨trivial, trivial, by omega⟩

theorem hexDigitChar_facts (d : Nat) (hd : d < 16) :
    isHexC (hexDigitChar d) = true ∧ hexVal (hexDigitChar d) = d := by
  interval_cases d <;> exact ⟨by decide, by decide⟩

theorem pushCp_cons (v h : Nat) (t : List Nat) :
    pushCp v (h :: t) = if (0xD800 ≤ h ∧ h ≤ 0xDBFF) ∧ (0xDC00 ≤ v ∧ v ≤ 0xDFFF) then
      (0x10000 + (h - 0xD800) * 1024 + (v - 0xDC00)) :: t else v :: h :: t := rfl

theorem scanString_uEsc (n : Nat) (hn : n < 0x10000) (tail : List Char) (pos : Nat)
    (acc : List Nat) :
    scanString ('\\' :: 'u' :: (hex4 n ++ tail)) pos acc =
      scanString tail (pos + 6) (pushCp n acc) := by
  have h1 := hexDigitChar_facts (n / 4096 % 16) (Nat.mod_lt _ (by omega))
  have h2 := hexDigitChar_facts (n / 256 % 16) (Nat.mod_lt _ (by omega))
  have h3 := hexDigitChar_facts (n / 16 % 16) (Nat.mod_lt _ (by omega))
  have h4 := hexDigitChar_facts (n % 16) (Nat.mod_lt _ (by omega))
  have hv : hex4Val (hexDigitChar (n / 4096 % 16)) (hexDigitChar (n / 256 % 16))
      (hexDigitChar (n / 16 % 16)) (hexDigitChar (n % 16)) = n := by
    unfold hex4Val
    rw [h1.2, h2.2, h3.2, h4.2]
    omega
  have hlist : ('\\' :: 'u' :: (hex4 n ++ tail) : List Char) =
      '\\' :: 'u' :: hexDigitChar (n / 4096 % 16) :: hexDigitChar (n / 256 % 16) ::
        hexDigitChar (n / 16 % 16) :: hexDigitChar (n % 16) :: tail := by
    simp [hex4]
  rw [hlist, scanString_u4, h1.1, h2.1, h3.1, h4.1, hv]
  rw [if_pos (show (true && true && true && true) = true from rfl)]

theorem noHL_before (xs : List Nat) (n : Nat) (ys : List Nat) :
    ∀ (h : Nat), noHL (xs ++ n :: ys) → xs.getLast? = some h →
      ¬(isHighSurr h ∧ isLowSurr n) := by
  induction xs with
  | nil => intro h _ hlast; cases hlast
  | cons a xs ih =>
    intro h hHL hlast
    cases xs with
    | nil =>
      obtain rfl : a = h := by simpa using hlast
      exact hHL.1
    | cons b xs2 =>
      exact ih h hHL.2 (by rw [← List.getLast?_cons_cons]; exact hlast)

set_option maxRecDepth 4000 in
theorem scanString_escapeCp (n : Nat) (hn : n < 0x110000) (tail : List Char)
    (pos : Nat) (acc : List Nat)
    (hpair : ∀ h, acc.head? = some h → ¬(isHighSurr h ∧ isLowSurr n)) :
    ∃ pos2, scanString (escapeCp n ++ tail) pos acc = scanString tail pos2 (n :: acc) := by
  have hpush : pushCp n acc = n :: acc := by
    cases acc with
    | nil => rfl
    | cons h t =>
      have hc : ¬((55296 ≤ h ∧ h ≤ 56319) ∧ 56320 ≤ n ∧ n ≤ 57343) :=
        fun hcon => hpair h rfl hcon
      rw [pushCp_cons, if_neg hc]
  unfold escapeCp
  by_cases h34 : n = 34
  · subst h34
    rw [if_pos rfl]
    exact ⟨pos + 2, by rw [List.cons_append, List.cons_append,
      scanString_esc '"' _ _ _ (by decide)]; rfl⟩
  · rw [if_neg h34]
    by_cases h92 : n = 92
    · subst h92
      rw [if_pos rfl]
      exact ⟨pos + 2, by rw [List.cons_append, List.cons_append,
        scanString_esc '\\' _ _ _ (by decide)]; rfl⟩
    · rw [if_neg h92]
      by_cases h8 : n = 8
      · subst h8
        rw [if_pos rfl]
        exact ⟨pos + 2, by rw [List.cons_append, List.cons_append,
          scanString_esc 'b' _ _ _ (by decide)]; rfl⟩
      · rw [if_neg h8]
        by_cases h12 : n = 12
        · subst h12
          rw [if_pos rfl]
          exact ⟨pos + 2, by rw [List.cons_append, List.cons_append,
            scanString_esc 'f' _ _ _ (by decide)]; rfl⟩
        · rw [if_neg h12]
          by_cases h10 : n = 10
          · subst h10
            rw [if_pos rfl]
            exact ⟨pos + 2, by rw [List.cons_append, List.cons_append,
              scanString_esc 'n' _ _ _ (by decide)]; rfl⟩
          · rw [if_neg h10]
            by_cases h13 : n = 13
            · subst h13
              rw [if_pos rfl]
              exact ⟨pos + 2, by rw [List.cons_append, List.cons_append,
                scanString_esc 'r' _ _ _ (by decide)]; rfl⟩
            · rw [if_neg h13]
              by_cases h9 : n = 9
              · subst h9
                rw [if_pos rfl]
                exact ⟨pos + 2, by rw [List.cons_append, List.cons_append,
                  scanString_esc 't' _ _ _ (by decide)]; rfl⟩
              · rw [if_neg h9]
                by_cases hpr : 0x20 ≤ n ∧ n ≤ 0x7E
                · rw [if_pos hpr]
                  have hvalid : n.isValidChar := Or.inl (by omega)
                  have htn : (Char.ofNat n).toNat = n := char_toNat_ofNat n hvalid
                  have hq : Char.ofNat n ≠ '"' := by
                    intro hh
                    apply h34
                    rw [← htn, hh]
                    decide
                  have hb : Char.ofNat n ≠ '\\' := by
                    intro hh
                    apply h92
                    rw [← htn, hh]
                    decide
                  refine ⟨pos + 1, ?_⟩
                  rw [List.singleton_append, scanString_plain _ _ _ _ hq hb, htn,
                    if_neg (by omega)]
                · rw [if_neg hpr]
                  by_cases hbmp : n < 0x10000
                  · rw [if_pos hbmp]
                    exact ⟨pos + 6, by rw [List.cons_append, List.cons_append,
                      scanString_uEsc n hbmp, hpush]⟩
                  · rw [if_neg hbmp]
                    have hhi : 0xD800 + (n - 0x10000) / 1024 < 0x10000 := by omega
                    have hm := Nat.mod_lt (n - 0x10000) (show 0 < 1024 by omega)
                    have hlo : 0xDC00 + (n - 0x10000) % 1024 < 0x10000 := by omega
                    refine ⟨pos + 12, ?_⟩
                    rw [List.append_assoc, List.cons_append, List.cons_append,
                      scanString_uEsc _ hhi]
                    have hpush1 : pushCp (0xD800 + (n - 0x10000) / 1024) acc =
                        (0xD800 + (n - 0x10000) / 1024) :: acc := by
                      cases acc with
                      | nil => rfl
                      | cons h t =>
                        rw [pushCp_cons,
                          if_neg (fun hcon => by have h21 := hcon.2.1; omega)]
                    rw [hpush1, List.cons_append, List.cons_append, scanString_uEsc _ hlo]
                    have hcond : (0xD800 ≤ 0xD800 + (n - 0x10000) / 1024 ∧
                        0xD800 + (n - 0x10000) / 1024 ≤ 0xDBFF) ∧
                        (0xDC00 ≤ 0xDC00 + (n - 0x10000) % 1024 ∧
                         0xDC00 + (n - 0x10000) % 1024 ≤ 0xDFFF) :=
                      ⟨⟨by omega, by omega⟩, by omega, by omega⟩
                    have hpush2 : pushCp (0xDC00 + (n - 0x10000) % 1024)
                        ((0xD800 + (n - 0x10000) / 1024) :: acc) = n :: acc := by
                      rw [pushCp_cons]
                      rw [if_pos hcond]
                      exact congrArg (fun x => x :: acc) (by omega)
                    rw [hpush2]

theorem foldr_escape_append (l : List Nat) (init tail2 : List Char) :
    (List.foldr (fun n a => escapeCp n ++ a) init l) ++ tail2 =
      List.foldr (fun n a => escapeCp n ++ a) (init ++ tail2) l := by
  induction l with
  | nil => rfl
  | cons n l2 ih => simp only [List.foldr_cons, List.append_assoc, ih]

theorem scanString_dumpList (l : List Nat) : ∀ (acc : List Nat) (pos : Nat) (rest : List Char),
    (∀ c ∈ l, c < 0x110000) → noHL (acc.reverse ++ l) →
    ∃ q, scanString (List.foldr (fun n a => escapeCp n ++ a) ('"' :: rest) l) pos acc =
      .ok (acc.reverse ++ l, rest, q) := by
  induction l with
  | nil =>
    intro acc pos rest _ _
    exact ⟨pos + 1, by rw [List.foldr_nil, scanString_quote]; simp⟩
  | cons n l2 ih =>
    intro acc pos rest hok hHL
    have hpair : ∀ h, acc.head? = some h → ¬(isHighSurr h ∧ isLowSurr n) := by
      intro h hh
      exact noHL_before acc.reverse n l2 h hHL (by rw [List.getLast?_reverse]; exact hh)
    obtain ⟨pos2, hstep⟩ :=
      scanString_escapeCp n (hok n (List.mem_cons_self n l2)) _ pos acc hpair
    rw [List.foldr_cons, hstep]
    have hHL2 : noHL ((n :: acc).reverse ++ l2) := by
      rw [List.reverse_cons, List.append_assoc]
      simpa using hHL
    obtain ⟨q, hq⟩ := ih (n :: acc) pos2 rest (fun c hc => hok c (List.mem_cons_of_mem n hc)) hHL2
    refine ⟨q, ?_⟩
    rw [hq, List.reverse_cons, List.append_assoc]
    simp

theorem noHL_append_left (xs ys : List Nat) (h : noHL (xs ++ ys)) : noHL xs := by
  induction xs with
  | nil => trivial
  | cons a xs ih =>
    cases xs with
    | nil => trivial
    | cons b xs2 => exact ⟨h.1, ih h.2⟩

theorem noHL_snoc (xs : List Nat) (v : Nat) (h : noHL xs)
    (hv : ∀ la, xs.getLast? = some la → ¬(isHighSurr la ∧ isLowSurr v)) :
    noHL (xs ++ [v]) := by
  induction xs with
  | nil => trivial
  | cons a xs ih =>
    cases xs with
    | nil => exact ⟨hv a (by simp), trivial⟩
    | cons b xs2 =>
      exact ⟨h.1, ih h.2 (fun la hla => hv la (by rw [List.getLast?_cons_cons]; exact hla))⟩

theorem char_toNat_facts (c : Char) :
    c.toNat < 0x110000 ∧ (c.toNat < 0xD800 ∨ 0xDFFF < c.toNat) := by
  have h : c.val.toNat < 55296 ∨ (57343 < c.val.toNat ∧ c.val.toNat < 1114112) := c.valid
  have he : c.toNat = c.val.toNat := rfl
  rw [he]
  rcases h with h | h
  · exact ⟨by omega, Or.inl (by omega)⟩
  · exact ⟨by omega, Or.inr (by omega)⟩

theorem escMap_bound (e : Char) (nn : Nat) (h : escMap e = some nn) : nn ≤ 92 := by
  unfold escMap at h
  by_cases h1 : e = '"'
  · rw [if_pos h1] at h; injection h with h2; omega
  · rw [if_neg h1] at h
    by_cases h2 : e = '\\'
    · rw [if_pos h2] at h; injection h with h3; omega
    · rw [if_neg h2] at h
      by_cases h3 : e = '/'
      · rw [if_pos h3] at h; injection h with h4; omega
      · rw [if_neg h3] at h
        by_cases h4 : e = 'b'
        · rw [if_pos h4] at h; injection h with h5; omega
        · rw [if_neg h4] at h
          by_cases h5 : e = 'f'
          · rw [if_pos h5] at h; injection h with h6; omega
          · rw [if_neg h5] at h
            by_cases h6 : e = 'n'
            · rw [if_pos h6] at h; injection h with h7; omega
            · rw [if_neg h6] at h
              by_cases h7 : e = 'r'
              · rw [if_pos h7] at h; injection h with h8; omega
              · rw [if_neg h7] at h
                by_cases h8 : e = 't'
                · rw [if_pos h8] at h; injection h with h9; omega
                · rw [if_neg h8] at h; cases h

theorem hexVal_lt (c : Char) (h : isHexC c = true) : hexVal c < 16 := by
  have h2 : (48 ≤ c.toNat ∧ c.toNat ≤ 57) ∨ (97 ≤ c.toNat ∧ c.toNat ≤ 102) ∨
      (65 ≤ c.toNat ∧ c.toNat ≤ 70) := by
    have h3 := h
    simp only [isHexC, isDigitC, Bool.or_eq_true, Bool.and_eq_true, decide_eq_true_eq] at h3
    tauto
  unfold hexVal
  by_cases hd : isDigitC c = true
  · rw [if_pos hd]
    have h3 : 48 ≤ c.toNat ∧ c.toNat ≤ 57 := by
      simpa [isDigitC, Bool.and_eq_true] using hd
    omega
  · rw [if_neg hd]
    have hnd : ¬(48 ≤ c.toNat ∧ c.toNat ≤ 57) := by
      intro hcon
      exact hd (by simp only [isDigitC, Bool.and_eq_true, decide_eq_true_eq]; omega)
    by_cases h97 : 97 ≤ c.toNat ∧ c.toNat ≤ 102
    · rw [if_pos (by simp only [Bool.and_eq_true, decide_eq_true_eq]; exact h97)]
      omega
    · rw [if_neg (by simp only [Bool.and_eq_true, decide_eq_true_eq]; exact h97)]
      rcases h2 with h2 | h2 | h2
      · exact absurd h2 hnd
      · exact absurd h2 h97
      · omega

theorem hex4Val_lt (a b c d : Char) (ha : isHexC a = true) (hb : isHexC b = true)
    (hc : isHexC c = true) (hd : isHexC d = true) : hex4Val a b c d < 0x10000 := by
  have h1 := hexVal_lt a ha
  have h2 := hexVal_lt b hb
  have h3 := hexVal_lt c hc
  have h4 := hexVal_lt d hd
  unfold hex4Val
  omega

theorem pushCp_wf (v : Nat) (acc : List Nat) (hv : v < 0x10000)
    (hacc : ∀ x ∈ acc, x < 0x110000) (hHL : noHL acc.reverse) :
    (∀ x ∈ pushCp v acc, x < 0x110000) ∧ noHL (pushCp v acc).reverse := by
  cases acc with
  | nil =>
    have hred : pushCp v ([] : List Nat) = [v] := rfl
    rw [hred]
    constructor
    · intro x hx
      have hxv : x = v := by simpa using hx
      omega
    · trivial
  | cons h t =>
    rw [pushCp_cons]
    by_cases hc : (55296 ≤ h ∧ h ≤ 56319) ∧ 56320 ≤ v ∧ v ≤ 57343
    · rw [if_pos hc]
      constructor
      · intro x hx
        rcases List.mem_cons.mp hx with h1 | hx2
        · omega
        · exact hacc x (List.mem_cons_of_mem h hx2)
      · rw [List.reverse_cons]
        rw [List.reverse_cons] at hHL
        refine noHL_snoc _ _ (noHL_append_left _ _ hHL) ?_
        intro la _ hcon
        have h22 := hcon.2
        unfold isLowSurr at h22
        omega
    · rw [if_neg hc]
      constructor
      · intro x hx
        rcases List.mem_cons.mp hx with h1 | hx2
        · omega
        · exact hacc x hx2
      · rw [List.reverse_cons, List.reverse_cons]
        rw [List.reverse_cons] at hHL
        refine noHL_snoc _ _ hHL ?_
        intro la hla hcon
        have hlah : la = h := by
          rw [List.getLast?_concat] at hla
          exact (Option.some.inj hla).symm
        subst hlah
        exact hc ⟨hcon.1, hcon.2⟩

theorem acc_step_wf (nn : Nat) (acc : List Nat) (hnn : nn < 0x110000) (hlow : ¬isLowSurr nn)
    (hacc : ∀ x ∈ acc, x < 0x110000) (hHL : noHL acc.reverse) :
    (∀ x ∈ nn :: acc, x < 0x110000) ∧ noHL (nn :: acc).reverse := by
  constructor
  · intro x hx
    rcases List.mem_cons.mp hx with rfl | hx2
    · exact hnn
    · exact hacc x hx2
  · rw [List.reverse_cons]
    exact noHL_snoc _ _ hHL (fun la _ hcon => hlow hcon.2)

theorem scanString_wf (cs0 : List Char) (pos0 : Nat) (acc0 : List Nat)
    (s0 : List Nat) (r0 : List Char) (q0 : Nat)
    (hacc0 : ∀ x ∈ acc0, x < 0x110000) (hHL0 : noHL acc0.reverse)
    (h0 : scanString cs0 pos0 acc0 = .ok (s0, r0, q0)) : stringOk s0 := by
  have main : ∀ (n : Nat) (cs : List Char), cs.length ≤ n →
      ∀ (pos : Nat) (acc : List Nat) (s : List Nat) (r : List Char) (q : Nat),
        (∀ x ∈ acc, x < 0x110000) → noHL acc.reverse →
        scanString cs pos acc = .ok (s, r, q) → stringOk s := by
    intro n
    induction n with
    | zero =>
      intro cs hlen pos acc s r q _ _ h
      rw [List.length_eq_zero.mp (Nat.le_zero.mp hlen), scanString_nil] at h
      exact absurd h (by simp)
    | succ n ih =>
      intro cs hlen pos acc s r q hacc hHL h
      rcases cs with _ | ⟨c, rest⟩
      · rw [scanString_nil] at h; exact absurd h (by simp)
      · by_cases hcq : c = '"'
        · subst hcq
          rw [scanString_quote] at h
          obtain ⟨hs, hr, hq⟩ : acc.reverse = s ∧ rest = r ∧ pos + 1 = q := by simpa using h
          subst hs
          exact ⟨fun x hx => hacc x (List.mem_reverse.mp hx), hHL⟩
        · by_cases hcb : c = '\\'
          · subst hcb
            rcases rest with _ | ⟨e, r2⟩
            · rw [scanString_bs_nil] at h; exact absurd h (by simp)
            · by_cases he : e = 'u'
              · subst he
                rcases r2 with _ | ⟨a, r2⟩
                · rw [scanString_u_short [] pos acc (by simp)] at h; exact absurd h (by simp)
                · rcases r2 with _ | ⟨b, r2⟩
                  · rw [scanString_u_short [a] pos acc (by simp)] at h
                    exact absurd h (by simp)
                  · rcases r2 with _ | ⟨c2, r2⟩
                    · rw [scanString_u_short [a, b] pos acc (by simp)] at h
                      exact absurd h (by simp)
                    · rcases r2 with _ | ⟨d, r2⟩
                      · rw [scanString_u_short [a, b, c2] pos acc (by simp)] at h
                        exact absurd h (by simp)
                      · rw [scanString_u4] at h
                        by_cases hhex : (isHexC a && isHexC b && isHexC c2 && isHexC d) = true
                        · rw [if_pos hhex] at h
                          have hb4 : hex4Val a b c2 d < 0x10000 := by
                            simp only [Bool.and_eq_true] at hhex
                            exact hex4Val_lt a b c2 d hhex.1.1.1 hhex.1.1.2 hhex.1.2 hhex.2
                          obtain ⟨ha2, hh2⟩ := pushCp_wf (hex4Val a b c2 d) acc hb4 hacc hHL
                          exact ih r2 (by simp at hlen ⊢; omega) _ _ s r q ha2 hh2 h
                        · rw [if_neg hhex] at h; exact absurd h (by simp)
              · rw [scanString_esc e r2 pos acc he] at h
                cases hesc : escMap e with
                | some m =>
                  rw [hesc] at h
                  have hm := escMap_bound e m hesc
                  obtain ⟨ha2, hh2⟩ := acc_step_wf m acc (by omega)
                    (by intro hcon; unfold isLowSurr at hcon; omega) hacc hHL
                  exact ih r2 (by simp at hlen ⊢; omega) _ _ s r q ha2 hh2 h
                | none => rw [hesc] at h; exact absurd h (by simp)
          · by_cases hctl : c.toNat < 32
            · rw [scanString_plain c rest pos acc hcq hcb, if_pos hctl] at h
              exact absurd h (by simp)
            · rw [scanString_plain c rest pos acc hcq hcb, if_neg hctl] at h
              obtain ⟨hlt, hsur⟩ := char_toNat_facts c
              obtain ⟨ha2, hh2⟩ := acc_step_wf c.toNat acc hlt
                (by intro hcon; unfold isLowSurr at hcon; rcases hsur with h1 | h1 <;> omega)
                hacc hHL
              exact ih rest (by simp at hlen ⊢; omega) _ _ s r q ha2 hh2 h
  exact main cs0.length cs0 le_rfl pos0 acc0 s0 r0 q0 hacc0 hHL0 h0

theorem stripZerosF_spec : ∀ (f m : Nat) (e : Int), m ≤ f →
    ((stripZerosF f m e).1 % 10 = 0 → (stripZerosF f m e).1 = 0) := by
  intro f
  induction f with
  | zero =>
    intro m e hm
    have hred : stripZerosF 0 m e = (m, e) := rfl
    rw [hred]
    intro _
    omega
  | succ f ih =>
    intro m e hm
    unfold stripZerosF
    by_cases hc : m ≠ 0 ∧ m % 10 = 0
    · rw [if_pos hc]
      exact ih (m / 10) (e + 1) (by omega)
    · rw [if_neg hc]
      intro hmod
      push_neg at hc
      by_cases hm0 : m = 0
      · exact hm0
      · exact absurd hmod (hc hm0)

theorem mkFloat_wf (sign : Bool) (m : Nat) (e : Int) : ∃ m2 e2,
    mkFloat sign m e = .jfloat sign m2 e2 ∧ floatOk m2 e2 := by
  simp only [mkFloat]
  by_cases hz : (stripZeros m e).1 = 0
  · rw [if_pos hz]
    exact ⟨0, 0, rfl, fun _ => rfl, fun _ => rfl⟩
  · rw [if_neg hz]
    refine ⟨(stripZeros m e).1, (stripZeros m e).2, rfl, fun h0 => absurd h0 hz, fun hmod => ?_⟩
    exact stripZerosF_spec m m e le_rfl hmod

theorem scanNumber_wf (cs : List Char) (v : JsonValue) (r : List Char) (k : Nat)
    (h : scanNumber cs = some (v, r, k)) : wfVal v := by
  unfold scanNumber at h
  simp only at h
  cases hip : scanIntPart (if cs.head? = some '-' then (true, cs.tail) else (false, cs)).2 with
  | none => rw [hip] at h; cases h
  | some p =>
    obtain ⟨ids, cs2⟩ := p
    rw [hip] at h
    simp only at h
    cases hfr : scanFrac cs2 with
    | none =>
      rw [hfr] at h
      simp only at h
      cases hex : scanExp cs2 with
      | none =>
        rw [hex] at h
        simp only at h
        obtain ⟨hv, hr, hk⟩ :
            JsonValue.jint (if (if cs.head? = some '-' then (true, cs.tail)
              else (false, cs)).1 = true then -Int.ofNat (digitsToNat ids)
              else Int.ofNat (digitsToNat ids)) = v ∧ cs2 = r ∧
              cs.length - cs2.length = k := by simpa using h
        subst hv
        trivial
      | some q2 =>
        obtain ⟨ev, r2⟩ := q2
        rw [hex] at h
        simp only [Option.getD_some, Option.getD_none] at h
        obtain ⟨m2, e2, hmk, hfo⟩ := mkFloat_wf (if cs.head? = some '-' then (true, cs.tail)
          else (false, cs)).1 (digitsToNat (ids ++ [])) (ev - Int.ofNat ([] : List Char).length)
        rw [hmk] at h
        obtain ⟨hv, hr, hk⟩ : JsonValue.jfloat (if cs.head? = some '-' then (true, cs.tail)
            else (false, cs)).1 m2 e2 = v ∧ r2 = r ∧ cs.length - r2.length = k := by
          simpa using h
        subst hv
        exact hfo
    | some p2 =>
      obtain ⟨fds, r1⟩ := p2
      rw [hfr] at h
      simp only at h
      cases hex : scanExp r1 with
      | none =>
        rw [hex] at h
        simp only [Option.getD_some, Option.getD_none] at h
        obtain ⟨m2, e2, hmk, hfo⟩ := mkFloat_wf (if cs.head? = some '-' then (true, cs.tail)
          else (false, cs)).1 (digitsToNat (ids ++ fds)) (0 - Int.ofNat fds.length)
        rw [hmk] at h
        obtain ⟨hv, hr, hk⟩ : JsonValue.jfloat (if cs.head? = some '-' then (true, cs.tail)
            else (false, cs)).1 m2 e2 = v ∧ r1 = r ∧ cs.length - r1.length = k := by
          simpa using h
        subst hv
        exact hfo
      | some q2 =>
        obtain ⟨ev, r2⟩ := q2
        rw [hex] at h
        simp only [Option.getD_some, Option.getD_none] at h
        obtain ⟨m2, e2, hmk, hfo⟩ := mkFloat_wf (if cs.head? = some '-' then (true, cs.tail)
          else (false, cs)).1 (digitsToNat (ids ++ fds)) (ev - Int.ofNat fds.length)
        rw [hmk] at h
        obtain ⟨hv, hr, hk⟩ : JsonValue.jfloat (if cs.head? = some '-' then (true, cs.tail)
            else (false, cs)).1 m2 e2 = v ∧ r2 = r ∧ cs.length - r2.length = k := by
          simpa using h
        subst hv
        exact hfo

theorem wfPairs_append (xs ys : List (List Nat × JsonValue)) (hx : wfPairs xs)
    (hy : wfPairs ys) : wfPairs (xs ++ ys) := by
  induction xs with
  | nil => exact hy
  | cons p ps ih => exact ⟨hx.1, hx.2.1, ih hx.2.2⟩

theorem wfList_append (xs ys : List JsonValue) (hx : wfList xs) (hy : wfList ys) :
    wfList (xs ++ ys) := by
  induction xs with
  | nil => exact hy
  | cons v vs ih => exact ⟨hx.1, ih hx.2⟩

theorem wfPairs_dictInsert (acc : List (List Nat × JsonValue)) (k : List Nat) (v : JsonValue)
    (h : wfPairs acc) (hk : stringOk k) (hv : wfVal v) : wfPairs (dictInsert acc k v) := by
  unfold dictInsert
  by_cases hc : acc.any (fun p => p.1 = k) = true
  · rw [if_pos hc]
    clear hc
    induction acc with
    | nil => trivial
    | cons p ps ih =>
      simp only [List.map_cons]
      by_cases hp : p.1 = k
      · rw [if_pos hp]
        exact ⟨hk, hv, ih h.2.2⟩
      · rw [if_neg hp]
        exact ⟨h.1, h.2.1, ih h.2.2⟩
  · rw [if_neg hc]
    exact wfPairs_append acc [(k, v)] h ⟨hk, hv, trivial⟩

theorem wfPairs_pairsToDict (pairs : List (List Nat × JsonValue)) (h : wfPairs pairs) :
    wfPairs (pairsToDict pairs) := by
  unfold pairsToDict
  have main : ∀ (ps acc : List (List Nat × JsonValue)), wfPairs ps → wfPairs acc →
      wfPairs (ps.foldl (fun acc p => dictInsert acc p.1 p.2) acc) := by
    intro ps
    induction ps with
    | nil => intro acc _ hacc; exact hacc
    | cons p ps ih =>
      intro acc hps hacc
      exact ih _ hps.2.2 (wfPairs_dictInsert acc p.1 p.2 hacc hps.1 hps.2.1)
  exact main pairs [] h trivial

theorem parser_wf : ∀ f : Nat,
    (∀ cs pos v r q, scanOnce f cs pos = .ok (v, r, q) → wfVal v) ∧
    (∀ cs pos v r q, parseObject f cs pos = .ok (v, r, q) → wfVal v) ∧
    (∀ cs pos pairs v r q, wfPairs pairs → objectItems f cs pos pairs = .ok (v, r, q) →
      wfVal v) ∧
    (∀ cs pos v r q, parseArray f cs pos = .ok (v, r, q) → wfVal v) ∧
    (∀ cs pos acc v r q, wfList acc → arrayItems f cs pos acc = .ok (v, r, q) → wfVal v) := by
  intro f
  induction f with
  | zero =>
    refine ⟨?_, ?_, ?_, ?_, ?_⟩
    · intro cs pos v r q h; rw [scanOnce.eq_1] at h; cases h
    · intro cs pos v r q h; rw [parseObject.eq_1] at h; cases h
    · intro cs pos pairs v r q _ h; rw [objectItems.eq_1] at h; cases h
    · intro cs pos v r q h; rw [parseArray.eq_1] at h; cases h
    · intro cs pos acc v r q _ h; rw [arrayItems.eq_1] at h; cases h
  | succ f ih =>
    obtain ⟨ihS, ihO, ihI, ihA, ihE⟩ := ih
    refine ⟨?_, ?_, ?_, ?_, ?_⟩
    · intro cs pos v r q h
      rcases cs with _ | ⟨c, rest⟩
      · exact absurd h (scanOnce_nil (f + 1) pos v r q)
      · by_cases hcq : c = '"'
        · subst hcq
          rw [scanOnce.eq_2] at h
          cases hss : scanString rest (pos + 1) [] with
          | error e => rw [hss] at h; cases h
          | ok t =>
            obtain ⟨s2, r2, p2⟩ := t
            rw [hss] at h
            simp only at h
            obtain ⟨hv, hr, hq⟩ : JsonValue.str s2 = v ∧ r2 = r ∧ p2 = q := by simpa using h
            subst hv
            exact scanString_wf rest (pos + 1) [] s2 r2 p2 (by simp) trivial hss
        · by_cases hcb : c = '{'
          · subst hcb
            rw [scanOnce.eq_3] at h
            exact ihO rest (pos + 1) v r q h
          · by_cases hck : c = '['
            · subst hck
              rw [scanOnce.eq_4] at h
              exact ihA rest (pos + 1) v r q h
            · have h1 : ∀ r2 : List Char, c :: rest = '"' :: r2 → False := by
                intro r2 hh; injection hh with hh1 _; exact hcq hh1
              have h2 : ∀ r2 : List Char, c :: rest = '{' :: r2 → False := by
                intro r2 hh; injection hh with hh1 _; exact hcb hh1
              have h3 : ∀ r2 : List Char, c :: rest = '[' :: r2 → False := by
                intro r2 hh; injection hh with hh1 _; exact hck hh1
              rw [scanOnce.eq_5 (c :: rest) pos f h1 h2 h3] at h
              by_cases t1 : (c :: rest).take 4 = ['n', 'u', 'l', 'l']
              · rw [if_pos t1] at h
                obtain ⟨hv, hr, hq⟩ : JsonValue.null = v ∧ (c :: rest).drop 4 = r ∧
                    pos + 4 = q := by simpa using h
                subst hv
                trivial
              · rw [if_neg t1] at h
                by_cases t2 : (c :: rest).take 4 = ['t', 'r', 'u', 'e']
                · rw [if_pos t2] at h
                  obtain ⟨hv, hr, hq⟩ : JsonValue.bool true = v ∧ (c :: rest).drop 4 = r ∧
                      pos + 4 = q := by simpa using h
                  subst hv
                  trivial
                · rw [if_neg t2] at h
                  by_cases t3 : (c :: rest).take 5 = ['f', 'a', 'l', 's', 'e']
                  · rw [if_pos t3] at h
                    obtain ⟨hv, hr, hq⟩ : JsonValue.bool false = v ∧ (c :: rest).drop 5 = r ∧
                        pos + 5 = q := by simpa using h
                    subst hv
                    trivial
                  · rw [if_neg t3] at h
                    cases hn : scanNumber (c :: rest) with
                    | some t =>
                      obtain ⟨v2, r2, k2⟩ := t
                      rw [hn] at h
                      simp only at h
                      obtain ⟨hv, hr, hq⟩ : v2 = v ∧ r2 = r ∧ pos + k2 = q := by simpa using h
                      subst hv
                      exact scanNumber_wf (c :: rest) v2 r2 k2 hn
                    | none =>
                      rw [hn] at h
                      simp only at h
                      by_cases t4 : (c :: rest).take 3 = ['N', 'a', 'N']
                      · rw [if_pos t4] at h
                        obtain ⟨hv, hr, hq⟩ : JsonValue.nan = v ∧ (c :: rest).drop 3 = r ∧
                            pos + 3 = q := by simpa using h
                        subst hv
                        trivial
                      · rw [if_neg t4] at h
                        by_cases t5 : (c :: rest).take 8 =
                            ['I', 'n', 'f', 'i', 'n', 'i', 't', 'y']
                        · rw [if_pos t5] at h
                          obtain ⟨hv, hr, hq⟩ : JsonValue.inf false = v ∧
                              (c :: rest).drop 8 = r ∧ pos + 8 = q := by simpa using h
                          subst hv
                          trivial
                        · rw [if_neg t5] at h
                          by_cases t6 : (c :: rest).take 9 =
                              ['-', 'I', 'n', 'f', 'i', 'n', 'i', 't', 'y']
                          · rw [if_pos t6] at h
                            obtain ⟨hv, hr, hq⟩ : JsonValue.inf true = v ∧
                                (c :: rest).drop 9 = r ∧ pos + 9 = q := by simpa using h
                            subst hv
                            trivial
                          · rw [if_neg t6] at h
                            cases h
    · intro cs pos v r q h
      rw [parseObject.eq_2] at h
      split at h
      · rename_i rest heq
        obtain ⟨hv, hr, hq⟩ : JsonValue.obj [] = v ∧ rest = r ∧ (skipWs cs pos).2 + 1 = q := by
          simpa using h
        subst hv
        exact ⟨by simp [keysNodup], trivial⟩
      · rename_i rest heq
        exact ihI rest ((skipWs cs pos).2 + 1) [] v r q trivial h
      · cases h
    · intro cs pos pairs v r q hpairs h
      rw [objectItems.eq_2] at h
      cases hss : scanString cs pos [] with
      | error e => rw [hss] at h; cases h
      | ok t =>
        obtain ⟨key, cs1, p1⟩ := t
        rw [hss] at h
        simp only at h
        have hkey : stringOk key := scanString_wf cs pos [] key cs1 p1 (by simp) trivial hss
        split at h
        · rename_i cs3 heq
          cases hso : scanOnce f (skipWs cs3 ((skipWs cs1 p1).2 + 1)).1
              (skipWs cs3 ((skipWs cs1 p1).2 + 1)).2 with
          | error e => rw [hso] at h; cases h
          | ok t2 =>
            obtain ⟨v0, cs5, p5⟩ := t2
            rw [hso] at h
            simp only at h
            have hv0 : wfVal v0 := ihS _ _ v0 cs5 p5 hso
            have hpw : wfPairs (pairs ++ [(key, v0)]) :=
              wfPairs_append pairs [(key, v0)] hpairs ⟨hkey, hv0, trivial⟩
            split at h
            · rename_i cs7 heq6
              obtain ⟨hv, hr, hq⟩ : JsonValue.obj (pairsToDict (pairs ++ [(key, v0)])) = v ∧
                  cs7 = r ∧ (skipWs cs5 p5).2 + 1 = q := by simpa using h
              subst hv
              exact ⟨keysNodup_pairsToDict _, wfPairs_pairsToDict _ hpw⟩
            · rename_i cs7 heq6
              split at h
              · rename_i cs9 heq8
                exact ihI cs9 _ (pairs ++ [(key, v0)]) v r q hpw h
              · cases h
            · cases h
        · cases h
    · intro cs pos v r q h
      rw [parseArray.eq_2] at h
      split at h
      · rename_i rest heq
        obtain ⟨hv, hr, hq⟩ : JsonValue.arr [] = v ∧ rest = r ∧ (skipWs cs pos).2 + 1 = q := by
          simpa using h
        subst hv
        trivial
      · exact ihE _ _ [] v r q trivial h
    · intro cs pos acc v r q hacc h
      rw [arrayItems.eq_2] at h
      cases hso : scanOnce f cs pos with
      | error e => rw [hso] at h; cases h
      | ok t =>
        obtain ⟨v0, cs1, p1⟩ := t
        rw [hso] at h
        simp only at h
        have hv0 : wfVal v0 := ihS cs pos v0 cs1 p1 hso
        have hacc2 : wfList (acc ++ [v0]) := wfList_append acc [v0] hacc ⟨hv0, trivial⟩
        split at h
        · rename_i cs3 heq
          obtain ⟨hv, hr, hq⟩ : JsonValue.arr (acc ++ [v0]) = v ∧ cs3 = r ∧
              (skipWs cs1 p1).2 + 1 = q := by simpa using h
          subst hv
          exact hacc2
        · rename_i cs3 heq
          exact ihE _ _ (acc ++ [v0]) v r q hacc2 h
        · cases h

theorem jfuel_pos (v : JsonValue) : 1 ≤ jfuel v := by
  cases v with
  | arr vs =>
    have h : jfuel (JsonValue.arr vs) = 2 + jfuelList vs := rfl
    omega
  | obj ps =>
    have h : jfuel (JsonValue.obj ps) = 2 + jfuelPairs ps := rfl
    omega
  | null => exact le_rfl
  | bool b => exact le_rfl
  | str s => exact le_rfl
  | jint n2 => exact le_rfl
  | jfloat sign m e => exact le_rfl
  | nan => exact le_rfl
  | inf b => exact le_rfl

theorem jfuel_le_aux : ∀ n : Nat,
    (∀ v : JsonValue, jfuel v ≤ n → jfuel v ≤ 2 * (dumpVal v).length) ∧
    (∀ vs : List JsonValue, jfuelList vs ≤ n → jfuelList vs ≤ 2 * (dumpArrTail vs).length) ∧
    (∀ ps : List (List Nat × JsonValue), jfuelPairs ps ≤ n →
      jfuelPairs ps ≤ 2 * (dumpObjTail ps).length) := by
  intro n
  induction n with
  | zero =>
    refine ⟨?_, ?_, ?_⟩
    · intro v hv
      exact absurd hv (by have := jfuel_pos v; omega)
    · intro vs hvs
      cases vs with
      | nil =>
        have h : jfuelList [] = 0 := rfl
        omega
      | cons v vs =>
        have h : jfuelList (v :: vs) = 1 + jfuel v + jfuelList vs := rfl
        omega
    · intro ps hps
      cases ps with
      | nil =>
        have h : jfuelPairs [] = 0 := rfl
        omega
      | cons p ps =>
        have h : jfuelPairs (p :: ps) = 1 + jfuel p.2 + jfuelPairs ps := rfl
        omega
  | succ n ih =>
    obtain ⟨ihV, ihL, ihP⟩ := ih
    refine ⟨?_, ?_, ?_⟩
    · intro v hv
      cases v with
      | null =>
        have h1 : jfuel JsonValue.null = 1 := rfl
        have h2 : (dumpVal JsonValue.null).length = 4 := rfl
        omega
      | bool b =>
        cases b with
        | true =>
          have h1 : jfuel (JsonValue.bool true) = 1 := rfl
          have h2 : (dumpVal (JsonValue.bool true)).length = 4 := rfl
          omega
        | false =>
          have h1 : jfuel (JsonValue.bool false) = 1 := rfl
          have h2 : (dumpVal (JsonValue.bool false)).length = 5 := rfl
          omega
      | nan =>
        have h1 : jfuel JsonValue.nan = 1 := rfl
        have h2 : (dumpVal JsonValue.nan).length = 3 := rfl
        omega
      | inf b =>
        cases b with
        | true =>
          have h1 : jfuel (JsonValue.inf true) = 1 := rfl
          have h2 : (dumpVal (JsonValue.inf true)).length = 9 := rfl
          omega
        | false =>
          have h1 : jfuel (JsonValue.inf false) = 1 := rfl
          have h2 : (dumpVal (JsonValue.inf false)).length = 8 := rfl
          omega
      | str s =>
        have h1 : jfuel (JsonValue.str s) = 1 := rfl
        have h2 : dumpVal (JsonValue.str s) = dumpString s := rfl
        have h3 : 1 ≤ (dumpString s).length := by
          unfold dumpString
          simp
        rw [h1, h2]
        omega
      | jint n2 =>
        have h1 : jfuel (JsonValue.jint n2) = 1 := rfl
        have h2 : dumpVal (JsonValue.jint n2) = intRepr n2 := rfl
        have h3 : 1 ≤ (intRepr n2).length := by
          unfold intRepr
          by_cases hn2 : n2 < 0
          · rw [if_pos hn2]; simp
          · rw [if_neg hn2]
            exact List.length_pos.mpr (digitsOf_spec n2.natAbs).2.2.2
        rw [h1, h2]
        omega
      | jfloat sign m e =>
        have h1 : jfuel (JsonValue.jfloat sign m e) = 1 := rfl
        have h2 : dumpVal (JsonValue.jfloat sign m e) = dumpNum sign m e := rfl
        have h3 : 1 ≤ (dumpNum sign m e).length := by
          unfold dumpNum
          simp only [List.length_append, List.length_cons]
          omega
        rw [h1, h2]
        omega
      | arr vs =>
        cases vs with
        | nil =>
          have h1 : jfuel (JsonValue.arr []) = 2 := rfl
          have h2 : (dumpVal (JsonValue.arr [])).length = 2 := rfl
          omega
        | cons v vs =>
          have hr1 : jfuel (JsonValue.arr (v :: vs)) = 2 + (1 + jfuel v + jfuelList vs) := rfl
          have hr2 : dumpVal (JsonValue.arr (v :: vs)) =
              '[' :: (dumpVal v ++ dumpArrTail vs) ++ [']'] := rfl
          have hv1 : jfuel v ≤ n := by rw [hr1] at hv; omega
          have hv2 : jfuelList vs ≤ n := by rw [hr1] at hv; omega
          have b1 := ihV v hv1
          have b2 := ihL vs hv2
          rw [hr1, hr2]
          simp only [List.length_cons, List.length_append, List.length_singleton]
          omega
      | obj ps =>
        cases ps with
        | nil =>
          have h1 : jfuel (JsonValue.obj []) = 2 := rfl
          have h2 : (dumpVal (JsonValue.obj [])).length = 2 := rfl
          omega
        | cons p ps =>
          obtain ⟨k, pv⟩ := p
          have hr1 : jfuel (JsonValue.obj ((k, pv) :: ps)) =
              2 + (1 + jfuel pv + jfuelPairs ps) := rfl
          have hr2 : dumpVal (JsonValue.obj ((k, pv) :: ps)) =
              '\x7b' :: (dumpPair (k, pv) ++ dumpObjTail ps) ++ ['\x7d'] := rfl
          have hr3 : dumpPair (k, pv) = dumpString k ++ ':' :: ' ' :: dumpVal pv := rfl
          have hv1 : jfuel pv ≤ n := by rw [hr1] at hv; omega
          have hv2 : jfuelPairs ps ≤ n := by rw [hr1] at hv; omega
          have b1 := ihV pv hv1
          have b2 := ihP ps hv2
          rw [hr1, hr2, hr3]
          simp only [List.length_cons, List.length_append, List.length_singleton]
          omega
    · intro vs hvs
      cases vs with
      | nil =>
        have h : jfuelList [] = 0 := rfl
        omega
      | cons v vs =>
        have hr1 : jfuelList (v :: vs) = 1 + jfuel v + jfuelList vs := rfl
        have hr2 : dumpArrTail (v :: vs) = ',' :: ' ' :: (dumpVal v ++ dumpArrTail vs) := rfl
        have hv1 : jfuel v ≤ n := by rw [hr1] at hvs; omega
        have hv2 : jfuelList vs ≤ n := by rw [hr1] at hvs; omega
        have b1 := ihV v hv1
        have b2 := ihL vs hv2
        rw [hr1, hr2]
        simp only [List.length_cons, List.length_append]
        omega
    · intro ps hps
      cases ps with
      | nil =>
        have h : jfuelPairs [] = 0 := rfl
        omega
      | cons p ps =>
        obtain ⟨k, pv⟩ := p
        have hr1 : jfuelPairs ((k, pv) :: ps) = 1 + jfuel pv + jfuelPairs ps := rfl
        have hr2 : dumpObjTail ((k, pv) :: ps) =
            ',' :: ' ' :: (dumpPair (k, pv) ++ dumpObjTail ps) := rfl
        have hr3 : dumpPair (k, pv) = dumpString k ++ ':' :: ' ' :: dumpVal pv := rfl
        have hv1 : jfuel pv ≤ n := by rw [hr1] at hps; omega
        have hv2 : jfuelPairs ps ≤ n := by rw [hr1] at hps; omega
        have b1 := ihV pv hv1
        have b2 := ihP ps hv2
        rw [hr1, hr2, hr3]
        simp only [List.length_cons, List.length_append]
        omega

theorem jfuel_le (v : JsonValue) : jfuel v ≤ 2 * (dumpVal v).length :=
  (jfuel_le_aux (jfuel v)).1 v le_rfl

theorem skipWs_stop (c : Char) (cs : List Char) (pos : Nat) (h : isJsonWs c = false) :
    skipWs (c :: cs) pos = (c :: cs, pos) := by
  unfold skipWs
  rw [if_neg (fun hcon => by rw [h] at hcon; cases hcon)]

theorem skipWs_space (cs : List Char) (pos : Nat) :
    skipWs (' ' :: cs) pos = skipWs cs (pos + 1) := rfl

theorem digit_ne (d x : Char) (hd : isDigitC d = true) (hx : isDigitC x = false) : d ≠ x :=
  fun h => by rw [h] at hd; rw [hd] at hx; cases hx

theorem digit_not_ws (d : Char) (hd : isDigitC d = true) : isJsonWs d = false := by
  cases hw : isJsonWs d
  · rfl
  · rcases isJsonWs_cases d hw with rfl | rfl | rfl | rfl <;> exact absurd hd (by decide)

theorem numHead_facts (c : Char) (hcp : c = '-' ∨ isDigitC c = true) :
    isJsonWs c = false ∧ c ≠ ']' ∧ c ≠ '﻿' ∧ c ≠ '"' ∧ c ≠ '{' ∧ c ≠ '[' ∧
    c ≠ 'n' ∧ c ≠ 't' ∧ c ≠ 'f' := by
  rcases hcp with rfl | hc
  · exact ⟨by decide, by decide, by decide, by decide, by decide, by decide,
      by decide, by decide, by decide⟩
  · exact ⟨digit_not_ws c hc, digit_ne c ']' hc (by decide), digit_ne c '﻿' hc (by decide),
      digit_ne c '"' hc (by decide), digit_ne c '{' hc (by decide),
      digit_ne c '[' hc (by decide), digit_ne c 'n' hc (by decide),
      digit_ne c 't' hc (by decide), digit_ne c 'f' hc (by decide)⟩

theorem take_ne_of_head (cs l : List Char) (k : Nat) (c : Char)
    (hc : cs.head? = some c) (hne : ∀ d, l.head? = some d → c ≠ d) (hk : 0 < k) :
    cs.take k ≠ l := by
  rcases cs with _ | ⟨c0, cs2⟩
  · cases hc
  · obtain rfl : c0 = c := by simpa using hc
    rcases k with _ | k2
    · omega
    · intro heq
      rw [List.take_succ_cons] at heq
      rcases l with _ | ⟨d, ls⟩
      · cases heq
      · injection heq with h1 _
        exact hne d rfl h1

theorem intRepr_head (n : Int) :
    ∃ c cs2, intRepr n = c :: cs2 ∧ (c = '-' ∨ isDigitC c = true) := by
  unfold intRepr
  by_cases hn : n < 0
  · rw [if_pos hn]
    exact ⟨'-', _, rfl, Or.inl rfl⟩
  · rw [if_neg hn]
    obtain ⟨_, h2, _, h4⟩ := digitsOf_spec n.natAbs
    rcases hd : digitsOf n.natAbs with _ | ⟨d, ds⟩
    · exact absurd hd h4
    · exact ⟨d, ds, rfl, Or.inr (h2 d (by rw [hd]; exact List.mem_cons_self d ds))⟩

theorem dumpNum_head (sign : Bool) (m : Nat) (e : Int) :
    ∃ c cs2, dumpNum sign m e = c :: cs2 ∧ (c = '-' ∨ isDigitC c = true) := by
  unfold dumpNum
  cases sign with
  | true =>
    rw [if_pos rfl]
    exact ⟨'-', _, rfl, Or.inl rfl⟩
  | false =>
    rw [if_neg Bool.false_ne_true]
    obtain ⟨_, h2, _, h4⟩ := digitsOf_spec m
    rcases hd : digitsOf m with _ | ⟨d, ds⟩
    · exact absurd hd h4
    · refine ⟨d, ds ++ 'e' :: intRepr e, ?_, Or.inr (h2 d (by rw [hd]; exact List.mem_cons_self d ds))⟩
      simp

theorem dumpVal_head (v : JsonValue) : ∃ c cs2, dumpVal v = c :: cs2 ∧
    isJsonWs c = false ∧ c ≠ ']' ∧ c ≠ '﻿' := by
  cases v with
  | null => refine ⟨'n', _, rfl, ?_, ?_, ?_⟩ <;> decide
  | bool b =>
    cases b with
    | true => refine ⟨'t', _, rfl, ?_, ?_, ?_⟩ <;> decide
    | false => refine ⟨'f', _, rfl, ?_, ?_, ?_⟩ <;> decide
  | str s => refine ⟨'"', _, rfl, ?_, ?_, ?_⟩ <;> decide
  | jint n2 =>
    obtain ⟨c, cs2, hic, hcp⟩ := intRepr_head n2
    obtain ⟨f1, f2, f3, _⟩ := numHead_facts c hcp
    exact ⟨c, cs2, by rw [show dumpVal (JsonValue.jint n2) = intRepr n2 from rfl, hic], f1, f2, f3⟩
  | jfloat sign m e =>
    obtain ⟨c, cs2, hic, hcp⟩ := dumpNum_head sign m e
    obtain ⟨f1, f2, f3, _⟩ := numHead_facts c hcp
    exact ⟨c, cs2,
      by rw [show dumpVal (JsonValue.jfloat sign m e) = dumpNum sign m e from rfl, hic],
      f1, f2, f3⟩
  | nan => refine ⟨'N', _, rfl, ?_, ?_, ?_⟩ <;> decide
  | inf b =>
    cases b with
    | true => refine ⟨'-', _, rfl, ?_, ?_, ?_⟩ <;> decide
    | false => refine ⟨'I', _, rfl, ?_, ?_, ?_⟩ <;> decide
  | arr vs =>
    cases vs with
    | nil => refine ⟨'[', _, rfl, ?_, ?_, ?_⟩ <;> decide
    | cons v2 vs2 => refine ⟨'[', _, rfl, ?_, ?_, ?_⟩ <;> decide
  | obj ps =>
    cases ps with
    | nil => refine ⟨'\x7b', _, rfl, ?_, ?_, ?_⟩ <;> decide
    | cons p2 ps2 => refine ⟨'\x7b', _, rfl, ?_, ?_, ?_⟩ <;> decide

theorem dump_rt : ∀ n : Nat,
    (∀ v : JsonValue, jfuel v ≤ n → ∀ (extra pos : Nat) (rest : List Char),
      wfVal v →
      (∀ c, rest.head? = some c → isDigitC c = false ∧ c ≠ '.' ∧ c ≠ 'e' ∧ c ≠ 'E') →
      ∃ q, scanOnce (jfuel v + extra) (dumpVal v ++ rest) pos = .ok (v, rest, q)) ∧
    (∀ (v : JsonValue) (vs : List JsonValue), jfuel v + jfuelList vs ≤ n →
      ∀ (acc : List JsonValue) (extra pos : Nat) (rest : List Char),
        wfVal v → wfList vs →
        ∃ q, arrayItems (1 + jfuel v + jfuelList vs + extra)
            (dumpVal v ++ (dumpArrTail vs ++ (']' :: rest))) pos acc =
          .ok (.arr (acc ++ v :: vs), rest, q)) ∧
    (∀ (v : JsonValue) (ps : List (List Nat × JsonValue)), jfuel v + jfuelPairs ps ≤ n →
      ∀ (k : List Nat) (pairs : List (List Nat × JsonValue)) (extra pos : Nat)
        (rest : List Char), stringOk k → wfVal v → wfPairs ps →
        ∃ q, objectItems (1 + jfuel v + jfuelPairs ps + extra)
            (List.foldr (fun n2 a => escapeCp n2 ++ a) ['"'] k ++
              (':' :: ' ' :: (dumpVal v ++ (dumpObjTail ps ++ ('}' :: rest))))) pos pairs =
          .ok (.obj (pairsToDict (pairs ++ (k, v) :: ps)), rest, q)) := by
  intro n
  induction n with
  | zero =>
    refine ⟨?_, ?_, ?_⟩
    · intro v hv
      exact absurd hv (by have := jfuel_pos v; omega)
    · intro v vs hb
      exact absurd hb (by have := jfuel_pos v; omega)
    · intro v ps hb
      exact absurd hb (by have := jfuel_pos v; omega)
  | succ n ih =>
    obtain ⟨ihV, ihL, ihP⟩ := ih
    have hV : ∀ v : JsonValue, jfuel v ≤ n + 1 → ∀ (extra pos : Nat) (rest : List Char),
        wfVal v →
        (∀ c, rest.head? = some c → isDigitC c = false ∧ c ≠ '.' ∧ c ≠ 'e' ∧ c ≠ 'E') →
        ∃ q, scanOnce (jfuel v + extra) (dumpVal v ++ rest) pos = .ok (v, rest, q) := by
      intro v hv extra pos rest hwv hbrest
      cases v with
      | null =>
        have hf : jfuel JsonValue.null + extra = extra + 1 := by
          have h : jfuel JsonValue.null = 1 := rfl
          omega
        rw [hf]
        have hlist : dumpVal JsonValue.null ++ rest = 'n' :: 'u' :: 'l' :: 'l' :: rest := rfl
        rw [hlist]
        rw [scanOnce.eq_5 _ pos extra
          (fun r2 hh => by injection hh with hh1 _; exact absurd hh1 (by decide))
          (fun r2 hh => by injection hh with hh1 _; exact absurd hh1 (by decide))
          (fun r2 hh => by injection hh with hh1 _; exact absurd hh1 (by decide))]
        rw [if_pos (show ('n' :: 'u' :: 'l' :: 'l' :: rest).take 4 = ['n', 'u', 'l', 'l']
          from rfl)]
        exact ⟨pos + 4, by rw [show ('n' :: 'u' :: 'l' :: 'l' :: rest).drop 4 = rest from rfl]⟩
      | bool b =>
        cases b with
        | true =>
          have hf : jfuel (JsonValue.bool true) + extra = extra + 1 := by
            have h : jfuel (JsonValue.bool true) = 1 := rfl
            omega
          rw [hf]
          have hlist : dumpVal (JsonValue.bool true) ++ rest =
              't' :: 'r' :: 'u' :: 'e' :: rest := rfl
          rw [hlist]
          rw [scanOnce.eq_5 _ pos extra
            (fun r2 hh => by injection hh with hh1 _; exact absurd hh1 (by decide))
            (fun r2 hh => by injection hh with hh1 _; exact absurd hh1 (by decide))
            (fun r2 hh => by injection hh with hh1 _; exact absurd hh1 (by decide))]
          rw [if_neg (take_ne_of_head _ _ 4 't' (by rfl)
            (by intro d hd2; injection hd2 with hd3; subst hd3; decide) (by omega))]
          rw [if_pos (show ('t' :: 'r' :: 'u' :: 'e' :: rest).take 4 = ['t', 'r', 'u', 'e']
            from rfl)]
          exact ⟨pos + 4,
            by rw [show ('t' :: 'r' :: 'u' :: 'e' :: rest).drop 4 = rest from rfl]⟩
        | false =>
          have hf : jfuel (JsonValue.bool false) + extra = extra + 1 := by
            have h : jfuel (JsonValue.bool false) = 1 := rfl
            omega
          rw [hf]
          have hlist : dumpVal (JsonValue.bool false) ++ rest =
              'f' :: 'a' :: 'l' :: 's' :: 'e' :: rest := rfl
          rw [hlist]
          rw [scanOnce.eq_5 _ pos extra
            (fun r2 hh => by injection hh with hh1 _; exact absurd hh1 (by decide))
            (fun r2 hh => by injection hh with hh1 _; exact absurd hh1 (by decide))
            (fun r2 hh => by injection hh with hh1 _; exact absurd hh1 (by decide))]
          rw [if_neg (take_ne_of_head _ _ 4 'f' (by rfl)
            (by intro d hd2; injection hd2 with hd3; subst hd3; decide) (by omega))]
          rw [if_neg (take_ne_of_head _ _ 4 'f' (by rfl)
            (by intro d hd2; injection hd2 with hd3; subst hd3; decide) (by omega))]
          rw [if_pos (show ('f' :: 'a' :: 'l' :: 's' :: 'e' :: rest).take 5 =
              ['f', 'a', 'l', 's', 'e'] from rfl)]
          exact ⟨pos + 5,
            by rw [show ('f' :: 'a' :: 'l' :: 's' :: 'e' :: rest).drop 5 = rest from rfl]⟩
      | str s =>
        have hf : jfuel (JsonValue.str s) + extra = extra + 1 := by
          have h : jfuel (JsonValue.str s) = 1 := rfl
          omega
        rw [hf]
        have hlist : dumpVal (JsonValue.str s) ++ rest =
            '"' :: (List.foldr (fun n2 a => escapeCp n2 ++ a) ['"'] s ++ rest) := rfl
        rw [hlist]
        rw [scanOnce.eq_2]
        rw [foldr_escape_append]
        rw [show (['"'] ++ rest : List Char) = '"' :: rest from rfl]
        obtain ⟨q1, hq1⟩ := scanString_dumpList s [] (pos + 1) rest hwv.1 (by simpa using hwv.2)
        rw [hq1]
        simp only
        exact ⟨q1, by simp⟩
      | jint n2 =>
        have hf : jfuel (JsonValue.jint n2) + extra = extra + 1 := by
          have h : jfuel (JsonValue.jint n2) = 1 := rfl
          omega
        rw [hf]
        obtain ⟨c, cs2, hic, hcp⟩ := intRepr_head n2
        obtain ⟨f1, f2, f3, f4, f5, f6, f7, f8, f9⟩ := numHead_facts c hcp
        have hlist : dumpVal (JsonValue.jint n2) ++ rest = c :: (cs2 ++ rest) := by
          rw [show dumpVal (JsonValue.jint n2) = intRepr n2 from rfl, hic]
          rfl
        rw [hlist]
        rw [scanOnce.eq_5 (c :: (cs2 ++ rest)) pos extra
          (fun r2 hh => by injection hh with hh1 _; exact f4 hh1)
          (fun r2 hh => by injection hh with hh1 _; exact f5 hh1)
          (fun r2 hh => by injection hh with hh1 _; exact f6 hh1)]
        rw [if_neg (take_ne_of_head _ _ 4 c (by rfl)
          (by intro d hd2; injection hd2 with hd3; subst hd3; exact f7) (by omega))]
        rw [if_neg (take_ne_of_head _ _ 4 c (by rfl)
          (by intro d hd2; injection hd2 with hd3; subst hd3; exact f8) (by omega))]
        rw [if_neg (take_ne_of_head _ _ 5 c (by rfl)
          (by intro d hd2; injection hd2 with hd3; subst hd3; exact f9) (by omega))]
        rw [show (c :: (cs2 ++ rest) : List Char) = intRepr n2 ++ rest from by rw [hic]; rfl]
        rw [scanNumber_jint n2 rest hbrest]
        simp only
        exact ⟨pos + (intRepr n2).length, rfl⟩
      | jfloat sign m e =>
        have hf : jfuel (JsonValue.jfloat sign m e) + extra = extra + 1 := by
          have h : jfuel (JsonValue.jfloat sign m e) = 1 := rfl
          omega
        rw [hf]
        obtain ⟨c, cs2, hic, hcp⟩ := dumpNum_head sign m e
        obtain ⟨f1, f2, f3, f4, f5, f6, f7, f8, f9⟩ := numHead_facts c hcp
        have hlist : dumpVal (JsonValue.jfloat sign m e) ++ rest = c :: (cs2 ++ rest) := by
          rw [show dumpVal (JsonValue.jfloat sign m e) = dumpNum sign m e from rfl, hic]
          rfl
        rw [hlist]
        rw [scanOnce.eq_5 (c :: (cs2 ++ rest)) pos extra
          (fun r2 hh => by injection hh with hh1 _; exact f4 hh1)
          (fun r2 hh => by injection hh with hh1 _; exact f5 hh1)
          (fun r2 hh => by injection hh with hh1 _; exact f6 hh1)]
        rw [if_neg (take_ne_of_head _ _ 4 c (by rfl)
          (by intro d hd2; injection hd2 with hd3; subst hd3; exact f7) (by omega))]
        rw [if_neg (take_ne_of_head _ _ 4 c (by rfl)
          (by intro d hd2; injection hd2 with hd3; subst hd3; exact f8) (by omega))]
        rw [if_neg (take_ne_of_head _ _ 5 c (by rfl)
          (by intro d hd2; injection hd2 with hd3; subst hd3; exact f9) (by omega))]
        rw [show (c :: (cs2 ++ rest) : List Char) = dumpNum sign m e ++ rest
          from by rw [hic]; rfl]
        rw [scanNumber_jfloat sign m e rest hwv hbrest]
        simp only
        exact ⟨pos + (dumpNum sign m e).length, rfl⟩
      | nan =>
        have hf : jfuel JsonValue.nan + extra = extra + 1 := by
          have h : jfuel JsonValue.nan = 1 := rfl
          omega
        rw [hf]
        have hlist : dumpVal JsonValue.nan ++ rest = 'N' :: 'a' :: 'N' :: rest := rfl
        rw [hlist]
        rw [scanOnce.eq_5 _ pos extra
          (fun r2 hh => by injection hh with hh1 _; exact absurd hh1 (by decide))
          (fun r2 hh => by injection hh with hh1 _; exact absurd hh1 (by decide))
          (fun r2 hh => by injection hh with hh1 _; exact absurd hh1 (by decide))]
        rw [if_neg (take_ne_of_head _ _ 4 'N' (by rfl)
          (by intro d hd2; injection hd2 with hd3; subst hd3; decide) (by omega))]
        rw [if_neg (take_ne_of_head _ _ 4 'N' (by rfl)
          (by intro d hd2; injection hd2 with hd3; subst hd3; decide) (by omega))]
        rw [if_neg (take_ne_of_head _ _ 5 'N' (by rfl)
          (by intro d hd2; injection hd2 with hd3; subst hd3; decide) (by omega))]
        rw [show scanNumber ('N' :: 'a' :: 'N' :: rest) = none from rfl]
        simp only
        rw [if_pos (show ('N' :: 'a' :: 'N' :: rest).take 3 = ['N', 'a', 'N'] from rfl)]
        exact ⟨pos + 3, by rw [show ('N' :: 'a' :: 'N' :: rest).drop 3 = rest from rfl]⟩
      | inf b =>
        cases b with
        | false =>
          have hf : jfuel (JsonValue.inf false) + extra = extra + 1 := by
            have h : jfuel (JsonValue.inf false) = 1 := rfl
            omega
          rw [hf]
          have hlist : dumpVal (JsonValue.inf false) ++ rest =
              'I' :: 'n' :: 'f' :: 'i' :: 'n' :: 'i' :: 't' :: 'y' :: rest := rfl
          rw [hlist]
          rw [scanOnce.eq_5 _ pos extra
            (fun r2 hh => by injection hh with hh1 _; exact absurd hh1 (by decide))
            (fun r2 hh => by injection hh with hh1 _; exact absurd hh1 (by decide))
            (fun r2 hh => by injection hh with hh1 _; exact absurd hh1 (by decide))]
          rw [if_neg (take_ne_of_head _ _ 4 'I' (by rfl)
            (by intro d hd2; injection hd2 with hd3; subst hd3; decide) (by omega))]
          rw [if_neg (take_ne_of_head _ _ 4 'I' (by rfl)
            (by intro d hd2; injection hd2 with hd3; subst hd3; decide) (by omega))]
          rw [if_neg (take_ne_of_head _ _ 5 'I' (by rfl)
            (by intro d hd2; injection hd2 with hd3; subst hd3; decide) (by omega))]
          rw [show scanNumber ('I' :: 'n' :: 'f' :: 'i' :: 'n' :: 'i' :: 't' :: 'y' :: rest) =
            none from rfl]
          simp only
          rw [if_neg (take_ne_of_head _ _ 3 'I' (by rfl)
            (by intro d hd2; injection hd2 with hd3; subst hd3; decide) (by omega))]
          rw [if_pos (show ('I' :: 'n' :: 'f' :: 'i' :: 'n' :: 'i' :: 't' :: 'y' :: rest).take 8 =
              ['I', 'n', 'f', 'i', 'n', 'i', 't', 'y'] from rfl)]
          exact ⟨pos + 8, by
            rw [show ('I' :: 'n' :: 'f' :: 'i' :: 'n' :: 'i' :: 't' :: 'y' :: rest).drop 8 =
              rest from rfl]⟩
        | true =>
          have hf : jfuel (JsonValue.inf true) + extra = extra + 1 := by
            have h : jfuel (JsonValue.inf true) = 1 := rfl
            omega
          rw [hf]
          have hlist : dumpVal (JsonValue.inf true) ++ rest =
              '-' :: 'I' :: 'n' :: 'f' :: 'i' :: 'n' :: 'i' :: 't' :: 'y' :: rest := rfl
          rw [hlist]
          rw [scanOnce.eq_5 _ pos extra
            (fun r2 hh => by injection hh with hh1 _; exact absurd hh1 (by decide))
            (fun r2 hh => by injection hh with hh1 _; exact absurd hh1 (by decide))
            (fun r2 hh => by injection hh with hh1 _; exact absurd hh1 (by decide))]
          rw [if_neg (take_ne_of_head _ _ 4 '-' (by rfl)
            (by intro d hd2; injection hd2 with hd3; subst hd3; decide) (by omega))]
          rw [if_neg (take_ne_of_head _ _ 4 '-' (by rfl)
            (by intro d hd2; injection hd2 with hd3; subst hd3; decide) (by omega))]
          rw [if_neg (take_ne_of_head _ _ 5 '-' (by rfl)
            (by intro d hd2; injection hd2 with hd3; subst hd3; decide) (by omega))]
          rw [show scanNumber ('-' :: 'I' :: 'n' :: 'f' :: 'i' :: 'n' :: 'i' :: 't' :: 'y' ::
            rest) = none from rfl]
          simp only
          rw [if_neg (take_ne_of_head _ _ 3 '-' (by rfl)
            (by intro d hd2; injection hd2 with hd3; subst hd3; decide) (by omega))]
          rw [if_neg (take_ne_of_head _ _ 8 '-' (by rfl)
            (by intro d hd2; injection hd2 with hd3; subst hd3; decide) (by omega))]
          rw [if_pos (show ('-' :: 'I' :: 'n' :: 'f' :: 'i' :: 'n' :: 'i' :: 't' :: 'y' ::
              rest).take 9 = ['-', 'I', 'n', 'f', 'i', 'n', 'i', 't', 'y'] from rfl)]
          exact ⟨pos + 9, by
            rw [show ('-' :: 'I' :: 'n' :: 'f' :: 'i' :: 'n' :: 'i' :: 't' :: 'y' ::
              rest).drop 9 = rest from rfl]⟩
      | arr vs0 =>
        cases vs0 with
        | nil =>
          have hf : jfuel (JsonValue.arr []) + extra = (extra + 1) + 1 := by
            have h : jfuel (JsonValue.arr []) = 2 := rfl
            omega
          rw [hf]
          have hlist : dumpVal (JsonValue.arr []) ++ rest = '[' :: (']' :: rest) := rfl
          rw [hlist, scanOnce.eq_4, parseArray.eq_2]
          rw [skipWs_stop ']' rest (pos + 1) (by decide)]
          simp only
          exact ⟨pos + 1 + 1, rfl⟩
        | cons v1 vs =>
          have hr1 : jfuel (JsonValue.arr (v1 :: vs)) = 2 + (1 + jfuel v1 + jfuelList vs) := rfl
          have hf : jfuel (JsonValue.arr (v1 :: vs)) + extra =
              ((1 + jfuel v1 + jfuelList vs + extra) + 1) + 1 := by
            rw [hr1]; omega
          obtain ⟨c1, cs1, hd1, hws1, hne1, _⟩ := dumpVal_head v1
          obtain ⟨q2, hq2⟩ := ihL v1 vs (by rw [hr1] at hv; omega) [] extra (pos + 1) rest
            hwv.1 hwv.2
          refine ⟨q2, ?_⟩
          rw [hf]
          have hlist : dumpVal (JsonValue.arr (v1 :: vs)) ++ rest =
              '[' :: (dumpVal v1 ++ (dumpArrTail vs ++ (']' :: rest))) := by
            rw [show dumpVal (JsonValue.arr (v1 :: vs)) =
              '[' :: (dumpVal v1 ++ dumpArrTail vs) ++ [']'] from rfl]
            simp [List.append_assoc]
          rw [hlist, scanOnce.eq_4, parseArray.eq_2]
          rw [show dumpVal v1 ++ (dumpArrTail vs ++ (']' :: rest)) =
              c1 :: (cs1 ++ (dumpArrTail vs ++ (']' :: rest))) from by rw [hd1]; rfl]
          rw [skipWs_stop c1 _ (pos + 1) hws1]
          simp only
          split
          · rename_i rest2 heq
            injection heq with hh1 _
            exact absurd hh1 hne1
          · rw [show (c1 :: (cs1 ++ (dumpArrTail vs ++ (']' :: rest))) : List Char) =
                dumpVal v1 ++ (dumpArrTail vs ++ (']' :: rest)) from by rw [hd1]; rfl]
            rw [hq2]
            simp
      | obj ps0 =>
        cases ps0 with
        | nil =>
          have hf : jfuel (JsonValue.obj []) + extra = (extra + 1) + 1 := by
            have h : jfuel (JsonValue.obj []) = 2 := rfl
            omega
          rw [hf]
          have hlist : dumpVal (JsonValue.obj []) ++ rest = '\x7b' :: ('\x7d' :: rest) := rfl
          rw [hlist, scanOnce.eq_3, parseObject.eq_2]
          rw [skipWs_stop '\x7d' rest (pos + 1) (by decide)]
          simp only
          exact ⟨pos + 1 + 1, rfl⟩
        | cons p1 ps =>
          obtain ⟨k1, pv1⟩ := p1
          have hr1 : jfuel (JsonValue.obj ((k1, pv1) :: ps)) =
              2 + (1 + jfuel pv1 + jfuelPairs ps) := rfl
          have hf : jfuel (JsonValue.obj ((k1, pv1) :: ps)) + extra =
              ((1 + jfuel pv1 + jfuelPairs ps + extra) + 1) + 1 := by
            rw [hr1]; omega
          obtain ⟨q2, hq2⟩ := ihP pv1 ps (by rw [hr1] at hv; omega) k1 [] extra (pos + 1 + 1)
            rest hwv.2.1 hwv.2.2.1 hwv.2.2.2
          refine ⟨q2, ?_⟩
          rw [hf]
          have hlist : dumpVal (JsonValue.obj ((k1, pv1) :: ps)) ++ rest =
              '\x7b' :: ('"' :: (List.foldr (fun n2 a => escapeCp n2 ++ a) ['"'] k1 ++
                (':' :: ' ' :: (dumpVal pv1 ++ (dumpObjTail ps ++ ('}' :: rest)))))) := by
            rw [show dumpVal (JsonValue.obj ((k1, pv1) :: ps)) =
              '\x7b' :: (dumpPair (k1, pv1) ++ dumpObjTail ps) ++ ['\x7d'] from rfl]
            rw [show dumpPair (k1, pv1) =
              ('"' :: List.foldr (fun n2 a => escapeCp n2 ++ a) ['"'] k1) ++
                ':' :: ' ' :: dumpVal pv1 from rfl]
            simp [List.append_assoc]
          rw [hlist, scanOnce.eq_3, parseObject.eq_2]
          rw [skipWs_stop '"' _ (pos + 1) (by decide)]
          simp only
          rw [hq2]
          rw [show (([] : List (List Nat × JsonValue)) ++ (k1, pv1) :: ps) =
            (k1, pv1) :: ps from rfl]
          rw [pairsToDict_eq_self _ hwv.1]
    refine ⟨hV, ?_, ?_⟩
    · intro v vs hb acc extra pos rest hwv hwvs
      cases vs with
      | nil =>
        have h0 : jfuelList ([] : List JsonValue) = 0 := rfl
        have hbd : ∀ c2, (']' :: rest : List Char).head? = some c2 →
            isDigitC c2 = false ∧ c2 ≠ '.' ∧ c2 ≠ 'e' ∧ c2 ≠ 'E' := by
          intro c2 hc2
          injection hc2 with hc3
          subst hc3
          exact ⟨by decide, by decide, by decide, by decide⟩
        obtain ⟨q1, hq1⟩ := hV v (by omega) extra pos (']' :: rest) hwv hbd
        refine ⟨q1 + 1, ?_⟩
        rw [show 1 + jfuel v + jfuelList ([] : List JsonValue) + extra =
            (jfuel v + extra) + 1 from by rw [h0]; omega]
        rw [arrayItems.eq_2]
        rw [show dumpArrTail ([] : List JsonValue) ++ (']' :: rest) = ']' :: rest from rfl]
        rw [hq1]
        simp only
        rw [skipWs_stop ']' rest q1 (by decide)]
        simp only
      | cons v2 vs2 =>
        have hjl : jfuelList (v2 :: vs2) = 1 + jfuel v2 + jfuelList vs2 := rfl
        have hta : dumpArrTail (v2 :: vs2) ++ (']' :: rest) =
            ',' :: ' ' :: (dumpVal v2 ++ (dumpArrTail vs2 ++ (']' :: rest))) := by
          rw [show dumpArrTail (v2 :: vs2) =
            ',' :: ' ' :: (dumpVal v2 ++ dumpArrTail vs2) from rfl]
          simp [List.append_assoc]
        have hbd : ∀ c2, ((',' :: ' ' :: (dumpVal v2 ++ (dumpArrTail vs2 ++ (']' :: rest)))) :
            List Char).head? = some c2 →
            isDigitC c2 = false ∧ c2 ≠ '.' ∧ c2 ≠ 'e' ∧ c2 ≠ 'E' := by
          intro c2 hc2
          injection hc2 with hc3
          subst hc3
          exact ⟨by decide, by decide, by decide, by decide⟩
        obtain ⟨q1, hq1⟩ := hV v (by rw [hjl] at hb; omega) (jfuelList (v2 :: vs2) + extra) pos
          (',' :: ' ' :: (dumpVal v2 ++ (dumpArrTail vs2 ++ (']' :: rest)))) hwv hbd
        obtain ⟨c2h, cs2h, hd2h, hws2h, _⟩ := dumpVal_head v2
        obtain ⟨q3, hq3⟩ := ihL v2 vs2 (by rw [hjl] at hb; have := jfuel_pos v; omega)
          (acc ++ [v]) (jfuel v + extra) (q1 + 1 + 1) rest hwvs.1 hwvs.2
        refine ⟨q3, ?_⟩
        rw [show 1 + jfuel v + jfuelList (v2 :: vs2) + extra =
            (jfuel v + (jfuelList (v2 :: vs2) + extra)) + 1 from by omega]
        rw [arrayItems.eq_2]
        rw [hta]
        rw [hq1]
        simp only
        rw [skipWs_stop ',' _ q1 (by decide)]
        simp only
        rw [skipWs_space]
        rw [show dumpVal v2 ++ (dumpArrTail vs2 ++ (']' :: rest)) =
            c2h :: (cs2h ++ (dumpArrTail vs2 ++ (']' :: rest))) from by rw [hd2h]; rfl]
        rw [skipWs_stop c2h _ (q1 + 1 + 1) hws2h]
        simp only
        rw [show (c2h :: (cs2h ++ (dumpArrTail vs2 ++ (']' :: rest))) : List Char) =
            dumpVal v2 ++ (dumpArrTail vs2 ++ (']' :: rest)) from by rw [hd2h]; rfl]
        rw [show jfuel v + (jfuelList (v2 :: vs2) + extra) =
            1 + jfuel v2 + jfuelList vs2 + (jfuel v + extra) from by rw [hjl]; omega]
        rw [hq3]
        simp [List.append_assoc]
    · intro v ps hb k pairs extra pos rest hsk hwv hwps
      cases ps with
      | nil =>
        have h0 : jfuelPairs ([] : List (List Nat × JsonValue)) = 0 := rfl
        have hbd : ∀ c2, ('}' :: rest : List Char).head? = some c2 →
            isDigitC c2 = false ∧ c2 ≠ '.' ∧ c2 ≠ 'e' ∧ c2 ≠ 'E' := by
          intro c2 hc2
          injection hc2 with hc3
          subst hc3
          exact ⟨by decide, by decide, by decide, by decide⟩
        obtain ⟨c1, cs1, hd1, hws1, _⟩ := dumpVal_head v
        obtain ⟨q1, hq1⟩ := scanString_dumpList k [] pos
          (':' :: ' ' :: (dumpVal v ++ ('}' :: rest))) hsk.1 (by simpa using hsk.2)
        obtain ⟨q2, hq2⟩ := hV v (by omega) extra (q1 + 1 + 1) ('}' :: rest) hwv hbd
        refine ⟨q2 + 1, ?_⟩
        rw [show 1 + jfuel v + jfuelPairs ([] : List (List Nat × JsonValue)) + extra =
            (jfuel v + extra) + 1 from by rw [h0]; omega]
        rw [objectItems.eq_2]
        rw [show dumpObjTail ([] : List (List Nat × JsonValue)) ++ ('}' :: rest) =
          '}' :: rest from rfl]
        rw [foldr_escape_append]
        rw [show (['"'] ++ (':' :: ' ' :: (dumpVal v ++ ('}' :: rest))) : List Char) =
            '"' :: (':' :: ' ' :: (dumpVal v ++ ('}' :: rest))) from rfl]
        rw [hq1]
        simp only [List.reverse_nil, List.nil_append]
        rw [skipWs_stop ':' _ q1 (by decide)]
        simp only
        rw [skipWs_space]
        rw [show dumpVal v ++ ('}' :: rest) = c1 :: (cs1 ++ ('}' :: rest))
          from by rw [hd1]; rfl]
        rw [skipWs_stop c1 _ (q1 + 1 + 1) hws1]
        simp only
        rw [show (c1 :: (cs1 ++ ('}' :: rest)) : List Char) = dumpVal v ++ ('}' :: rest)
          from by rw [hd1]; rfl]
        rw [hq2]
        simp only
        rw [skipWs_stop '}' rest q2 (by decide)]
        simp only
      | cons p2 ps2 =>
        obtain ⟨k2, v2⟩ := p2
        have hjp : jfuelPairs ((k2, v2) :: ps2) = 1 + jfuel v2 + jfuelPairs ps2 := rfl
        have hta : dumpObjTail ((k2, v2) :: ps2) ++ ('}' :: rest) =
            ',' :: ' ' :: ('"' :: (List.foldr (fun n2 a => escapeCp n2 ++ a) ['"'] k2 ++
              (':' :: ' ' :: (dumpVal v2 ++ (dumpObjTail ps2 ++ ('}' :: rest)))))) := by
          rw [show dumpObjTail ((k2, v2) :: ps2) =
              ',' :: ' ' :: (dumpPair (k2, v2) ++ dumpObjTail ps2) from rfl]
          rw [show dumpPair (k2, v2) =
              ('"' :: List.foldr (fun n2 a => escapeCp n2 ++ a) ['"'] k2) ++
                ':' :: ' ' :: dumpVal v2 from rfl]
          simp [List.append_assoc]
        have hbd : ∀ c2, ((',' :: ' ' :: ('"' ::
            (List.foldr (fun n2 a => escapeCp n2 ++ a) ['"'] k2 ++
              (':' :: ' ' :: (dumpVal v2 ++ (dumpObjTail ps2 ++ ('}' :: rest))))))) :
            List Char).head? = some c2 →
            isDigitC c2 = false ∧ c2 ≠ '.' ∧ c2 ≠ 'e' ∧ c2 ≠ 'E' := by
          intro c2 hc2
          injection hc2 with hc3
          subst hc3
          exact ⟨by decide, by decide, by decide, by decide⟩
        obtain ⟨c1, cs1, hd1, hws1, _⟩ := dumpVal_head v
        obtain ⟨q1, hq1⟩ := scanString_dumpList k [] pos
          (':' :: ' ' :: (dumpVal v ++ (',' :: ' ' :: ('"' ::
            (List.foldr (fun n2 a => escapeCp n2 ++ a) ['"'] k2 ++
              (':' :: ' ' :: (dumpVal v2 ++ (dumpObjTail ps2 ++ ('}' :: rest)))))))))
          hsk.1 (by simpa using hsk.2)
        obtain ⟨q2, hq2⟩ := hV v (by rw [hjp] at hb; omega)
          (jfuelPairs ((k2, v2) :: ps2) + extra) (q1 + 1 + 1)
          (',' :: ' ' :: ('"' :: (List.foldr (fun n2 a => escapeCp n2 ++ a) ['"'] k2 ++
            (':' :: ' ' :: (dumpVal v2 ++ (dumpObjTail ps2 ++ ('}' :: rest)))))))
          hwv hbd
        obtain ⟨q3, hq3⟩ := ihP v2 ps2 (by rw [hjp] at hb; have := jfuel_pos v; omega) k2
          (pairs ++ [(k, v)]) (jfuel v + extra) (q2 + 1 + 1 + 1) rest
          hwps.1 hwps.2.1 hwps.2.2
        refine ⟨q3, ?_⟩
        rw [show 1 + jfuel v + jfuelPairs ((k2, v2) :: ps2) + extra =
            (jfuel v + (jfuelPairs ((k2, v2) :: ps2) + extra)) + 1 from by omega]
        rw [objectItems.eq_2]
        rw [hta]
        rw [foldr_escape_append]
        rw [show (['"'] ++ (':' :: ' ' :: (dumpVal v ++ (',' :: ' ' :: ('"' ::
            (List.foldr (fun n2 a => escapeCp n2 ++ a) ['"'] k2 ++
              (':' :: ' ' :: (dumpVal v2 ++ (dumpObjTail ps2 ++ ('}' :: rest))))))))) :
            List Char) =
            '"' :: (':' :: ' ' :: (dumpVal v ++ (',' :: ' ' :: ('"' ::
            (List.foldr (fun n2 a => escapeCp n2 ++ a) ['"'] k2 ++
              (':' :: ' ' :: (dumpVal v2 ++ (dumpObjTail ps2 ++ ('}' :: rest)))))))))
            from rfl]
        rw [hq1]
        simp only [List.reverse_nil, List.nil_append]
        rw [skipWs_stop ':' _ q1 (by decide)]
        simp only
        rw [skipWs_space]
        rw [show dumpVal v ++ (',' :: ' ' :: ('"' ::
            (List.foldr (fun n2 a => escapeCp n2 ++ a) ['"'] k2 ++
              (':' :: ' ' :: (dumpVal v2 ++ (dumpObjTail ps2 ++ ('}' :: rest))))))) =
            c1 :: (cs1 ++ (',' :: ' ' :: ('"' ::
            (List.foldr (fun n2 a => escapeCp n2 ++ a) ['"'] k2 ++
              (':' :: ' ' :: (dumpVal v2 ++ (dumpObjTail ps2 ++ ('}' :: rest))))))))
            from by rw [hd1]; rfl]
        rw [skipWs_stop c1 _ (q1 + 1 + 1) hws1]
        simp only
        rw [show (c1 :: (cs1 ++ (',' :: ' ' :: ('"' ::
            (List.foldr (fun n2 a => escapeCp n2 ++ a) ['"'] k2 ++
              (':' :: ' ' :: (dumpVal v2 ++ (dumpObjTail ps2 ++ ('}' :: rest)))))))) :
            List Char) =
            dumpVal v ++ (',' :: ' ' :: ('"' ::
            (List.foldr (fun n2 a => escapeCp n2 ++ a) ['"'] k2 ++
              (':' :: ' ' :: (dumpVal v2 ++ (dumpObjTail ps2 ++ ('}' :: rest)))))))
            from by rw [hd1]; rfl]
        rw [hq2]
        simp only
        rw [skipWs_stop ',' _ q2 (by decide)]
        simp only
        rw [skipWs_space]
        rw [skipWs_stop '"' _ (q2 + 1 + 1) (by decide)]
        simp only
        rw [show jfuel v + (jfuelPairs ((k2, v2) :: ps2) + extra) =
            1 + jfuel v2 + jfuelPairs ps2 + (jfuel v + extra) from by rw [hjp]; omega]
        rw [hq3]
        simp [List.append_assoc]

theorem json_loads_wf (s : String) (v : JsonValue) (h : json_loads s = .ok v) : wfVal v := by
  unfold json_loads at h
  by_cases hbom : s.data.take 1 = ['﻿']
  · rw [if_pos hbom] at h; cases h
  · rw [if_neg hbom] at h
    simp only at h
    cases hso : scanOnce (3 * s.data.length + 3) (skipWs s.data 0).1 (skipWs s.data 0).2 with
    | error e => rw [hso] at h; cases h
    | ok t =>
      obtain ⟨v0, cs2, p2⟩ := t
      rw [hso] at h
      simp only at h
      have hw := (parser_wf (3 * s.data.length + 3)).1 _ _ v0 cs2 p2 hso
      split at h
      · obtain rfl : v0 = v := by simpa using h
        exact hw
      · cases h

/-- C7: round-trip law.  If decoding an input string succeeds with value `v`,
then re-encoding `v` with the encoder (`json.dumps` with default arguments)
and decoding again succeeds and returns a value equal to `v`. -/
theorem C7_round_trip_decode_encode_decode (s : String) (v : JsonValue)
    (h : json_loads s = .ok v) : json_loads (json_dumps v) = .ok v := by
  have hwf : wfVal v := json_loads_wf s v h
  unfold json_dumps json_loads
  simp only
  obtain ⟨c1, cs1, hd1, hws1, hne1, hbom1⟩ := dumpVal_head v
  have hbomneg : ¬((dumpVal v).take 1 = ['﻿']) := by
    rw [hd1]
    intro hcon
    have ht : (c1 :: cs1).take 1 = [c1] := rfl
    rw [ht] at hcon
    injection hcon with hc2 _
    exact hbom1 hc2
  rw [if_neg hbomneg]
  rw [show dumpVal v = c1 :: cs1 from hd1]
  rw [skipWs_stop c1 cs1 0 hws1]
  simp only
  have hfle : jfuel v ≤ 3 * (c1 :: cs1).length + 3 := by
    have h1 := jfuel_le v
    rw [hd1] at h1
    omega
  obtain ⟨q, hq⟩ := (dump_rt (jfuel v)).1 v le_rfl (3 * (c1 :: cs1).length + 3 - jfuel v) 0 []
    hwf (by intro c hc; cases hc)
  rw [List.append_nil] at hq
  rw [hd1] at hq
  rw [show jfuel v + (3 * (c1 :: cs1).length + 3 - jfuel v) = 3 * (c1 :: cs1).length + 3
    from by omega] at hq
  rw [hq]
  simp [skipWs]

theorem C7_witness :
    json_loads "[true, 7]" = .ok (.arr [.bool true, .jint 7]) ∧
    json_loads (json_dumps (.arr [.bool true, .jint 7])) =
      .ok (.arr [.bool true, .jint 7]) :=
  ⟨by rfl, C7_round_trip_decode_encode_decode "[true, 7]" _ (by rfl)⟩
